import Mathlib

/-!
# A verification development for `morikuni/future`

A shallow embedding of `src/future.go`: the write-once promise, the one-shot
channel-backed future, the immediate (fixed) future, the task-spawn helper `Go`
and the race combinator `Any`.

Modelling conventions.

* Go's `interface{}` values are `Val` (`Val.nil` is the untyped nil), Go's
  `error` values are `error := Option ErrVal` (`none` is the nil error).
* Pointers are indices into a `Heap`: one list of channels and one list of
  `future` structs.  Allocation appends to the list.
* A buffered channel is its capacity and its queue.  A send on a full channel
  and a receive on an empty channel block; an operation that blocks for ever in
  the state at hand is `none` (or `WaitOutcome.blocked`).
* `promise.Complete` runs its whole body holding `p.mu` exclusively, and
  `promise.Future` runs its whole body holding `p.mu` shared, so neither runs
  inside a `Complete`. The calls on one promise are taken one at a time: each is
  one transition of the promise and the heap.
* A `select` with several ready cases picks one of them pseudo-randomly (Go
  language specification); the pick is an explicit Boolean argument.
* A `context.Context` is represented by what `ctx.Err()` returns: `none` while
  `ctx.Done()` is still open, `some e` once it is closed.
-/

namespace GoFuture

/-! ## Values, errors, results -/

/-- Go `interface{}` values that flow through a future. -/
inductive Val where
  | nil
  | int (n : Int)
  deriving DecidableEq, Repr

/-- Non-nil Go `error` values. -/
inductive ErrVal where
  | alreadyDone
  | canceled
  | deadlineExceeded
  | other (code : Nat)
  deriving DecidableEq, Repr

/-- Go `error`: `none` is the nil error. -/
abbrev error := Option ErrVal

/-- Source: `ErrAlreadyDone = errors.New("already done")`. -/
def ErrAlreadyDone : ErrVal := ErrVal.alreadyDone

/-- Source: `type Result struct { V interface{}; Err error }`. -/
structure Result where
  V : Val
  Err : error
  deriving DecidableEq, Repr

/-- Source: `func newResult(v interface{}, err error) Result`. -/
def newResult (v : Val) (err : error) : Result := ⟨v, err⟩

/-- Source: `func success(v interface{}) Result`. -/
def success (v : Val) : Result := newResult v none

/-- Source: `func failure(err error) Result`. -/
def failure (err : error) : Result := newResult Val.nil err

/-! ## Contexts -/

/-- A `context.Context`, represented by the value of `ctx.Err()`. -/
structure Context where
  Err : error
  deriving DecidableEq, Repr

/-- Source: `context.Background()`, which is never cancelled. -/
def Context.Background : Context := ⟨none⟩

/-! ## The heap: channels and `future` structs -/

/-- A buffered channel of `Result`: `make(chan Result, cap)`. -/
structure Chan where
  cap : Nat
  buf : List Result
  deriving DecidableEq, Repr

/-- Source: `type future struct { c <-chan Result; done int32; mu sync.RWMutex }`; the
field `mu` is never used by the code. -/
structure future where
  c : Nat
  done : Nat
  deriving DecidableEq, Repr

/-- The objects that pointers refer to. -/
structure Heap where
  chans : List Chan
  futs : List future
  deriving DecidableEq, Repr

/-- Source: `make(chan Result, cap)`, a fresh empty channel. -/
def Heap.makeChan (h : Heap) (cap : Nat) : Nat × Heap :=
  (h.chans.length, { h with chans := h.chans ++ [⟨cap, []⟩] })

/-- Send `c <- r` on a buffered channel; `none` when the send cannot proceed. -/
def Heap.send (h : Heap) (c : Nat) (r : Result) : Option Heap :=
  match h.chans[c]? with
  | none => none
  | some ch =>
    if ch.buf.length < ch.cap then
      some { h with chans := h.chans.set c { ch with buf := ch.buf ++ [r] } }
    else none

/-- Receive `<-c` on a buffered channel; `none` when the receive cannot proceed. -/
def Heap.recv (h : Heap) (c : Nat) : Option (Result × Heap) :=
  match h.chans[c]? with
  | none => none
  | some ch =>
    match ch.buf with
    | [] => none
    | r :: rest => some (r, { h with chans := h.chans.set c { ch with buf := rest } })

/-- Source: `atomic.CompareAndSwapInt32(&f.done, old, new)` on the `future` at `id`;
`none` for a dangling `id`. -/
def Heap.compareAndSwapDone (h : Heap) (id : Nat) (old new : Nat) : Option (Bool × Heap) :=
  match h.futs[id]? with
  | none => none
  | some f =>
    if f.done = old then some (true, { h with futs := h.futs.set id { f with done := new } })
    else some (false, h)

/-! ## Futures -/

/-- Source: `type fixedFuture struct { v interface{}; err error }`. -/
structure fixedFuture where
  v : Val
  err : error
  deriving DecidableEq, Repr

/-- The two implementations of `type Future interface`: a `*future` (a pointer
into the heap) and a `fixedFuture` value. -/
inductive Future where
  | ptr (id : Nat)
  | fixed (f : fixedFuture)
  deriving DecidableEq, Repr

/-- Source: `func Fixed(v interface{}, err error) Future`. -/
def Fixed (v : Val) (err : error) : Future := Future.fixed ⟨v, err⟩

/-- Source: `func Success(v interface{}) Future`. -/
def Success (v : Val) : Future := Fixed v none

/-- Source: `func Failure(err error) Future`. -/
def Failure (err : error) : Future := Fixed Val.nil err

/-- Source: `func newFuture(c <-chan Result) Future`: allocates `&future{c: c}`. -/
def newFuture (c : Nat) (h : Heap) : Future × Heap :=
  (Future.ptr h.futs.length, { h with futs := h.futs ++ [⟨c, 0⟩] })

/-- What a call of `Wait` does: it returns `(v, err)`, or it stays blocked in
its `select`. -/
inductive WaitOutcome where
  | returned (v : Val) (err : error)
  | blocked
  deriving DecidableEq, Repr

/-- The `select` of `future.Wait` on channel `c`:
`select { case r := <-f.c: return r.V, r.Err; case <-ctx.Done(): return nil, ctx.Err() }`.
With both cases ready, `pick = true` takes the receive. -/
def future.select (c : Nat) (ctx : Context) (pick : Bool) (h : Heap) : WaitOutcome × Heap :=
  match h.recv c, ctx.Err with
  | some (r, h1), none => (WaitOutcome.returned r.V r.Err, h1)
  | some (r, h1), some e =>
    if pick then (WaitOutcome.returned r.V r.Err, h1)
    else (WaitOutcome.returned Val.nil (some e), h)
  | none, some e => (WaitOutcome.returned Val.nil (some e), h)
  | none, none => (WaitOutcome.blocked, h)

/-- Source: `func (f *future) Wait(ctx context.Context) (interface{}, error)` on the
`future` at `id`, run without interruption: the compare-and-swap, then the
`select`. A dangling `id` gives no result. -/
def future.Wait (id : Nat) (ctx : Context) (pick : Bool) (h : Heap) : WaitOutcome × Heap :=
  match h.futs[id]?, h.compareAndSwapDone id 0 1 with
  | some f, some (swapped, h1) =>
    if !swapped then (WaitOutcome.returned Val.nil (some ErrAlreadyDone), h1)
    else future.select f.c ctx pick h1
  | _, _ => (WaitOutcome.blocked, h)

/-- Source: `func (f fixedFuture) Wait(context.Context) (interface{}, error)`. -/
def fixedFuture.Wait (f : fixedFuture) (_ctx : Context) : Val × error := (f.v, f.err)

/-- Dynamic dispatch of `Future.Wait`. -/
def Future.Wait (f : Future) (ctx : Context) (pick : Bool) (h : Heap) : WaitOutcome × Heap :=
  match f with
  | Future.ptr id => future.Wait id ctx pick h
  | Future.fixed ff => (WaitOutcome.returned (ff.Wait ctx).1 (ff.Wait ctx).2, h)

/-! ## Promises -/

/-- Source: `type promise struct { cs []chan<- Result; result *Result; mu sync.RWMutex }`. -/
structure promise where
  cs : List Nat
  result : Option Result
  deriving DecidableEq, Repr

/-- Source: `func NewPromise() Promise`. -/
def NewPromise : promise := ⟨[], none⟩

/-- The loop `for _, c := range p.cs { c <- r }`; `none` when a send blocks. -/
def broadcast (r : Result) : List Nat → Heap → Option Heap
  | [], h => some h
  | c :: cs, h =>
    match h.send c r with
    | none => none
    | some h1 => broadcast r cs h1

/-- Source: `func (p *promise) Complete(v interface{}, err error) error`; `none` when
the call never returns. -/
def promise.Complete (p : promise) (v : Val) (err : error) (h : Heap) :
    Option (error × promise × Heap) :=
  match p.result with
  | some _ => some (some ErrAlreadyDone, p, h)
  | none =>
    let r := newResult v err
    match broadcast r p.cs h with
    | none => none
    | some h1 => some (none, { p with result := some r }, h1)

/-- Source: `func (p *promise) Future() Future`. -/
def promise.Future (p : promise) (h : Heap) : Future × promise × Heap :=
  match p.result with
  | some r => (Fixed r.V r.Err, p, h)
  | none =>
    let (c, h1) := h.makeChan 1
    let (f, h2) := newFuture c h1
    (f, { p with cs := p.cs ++ [c] }, h2)

/-! ## Sequences of calls -/

/-- Runs `n` successive calls of `p.Future()`, returning the futures in call order. -/
def futuresN : Nat → promise → Heap → List Future × promise × Heap
  | 0, p, h => ([], p, h)
  | n + 1, p, h =>
    let (f, p1, h1) := p.Future h
    let (fs, p2, h2) := futuresN n p1 h1
    (f :: fs, p2, h2)

/-- Successive calls `f.Wait(ctx)`, one per list entry, each with its own
token and its own `select` pick; returns what each call did. -/
def waitSeq : List (Future × Context × Bool) → Heap → List WaitOutcome × Heap
  | [], h => ([], h)
  | (f, ctx, pick) :: rest, h =>
    let (o, h1) := f.Wait ctx pick h
    let (os, h2) := waitSeq rest h1
    (o :: os, h2)

/-- Successive calls `p.Complete(v, err)`, one per list entry; returns the error
of each call. `none` when one of the calls never returns. -/
def completeSeq : List (Val × error) → promise → Heap → Option (List error × promise × Heap)
  | [], p, h => some ([], p, h)
  | (v, err) :: rest, p, h =>
    match p.Complete v err h with
    | none => none
    | some (e, p1, h1) =>
      match completeSeq rest p1 h1 with
      | none => none
      | some (es, p2, h2) => some (e :: es, p2, h2)

/-! ## Primitive heap operations

Every heap effect of the program is one of these; they stand for what other
goroutines do between two steps of the code under study. -/

/-- The primitive operations on the heap. -/
inductive HeapOp where
  | makeChan (cap : Nat)
  | newFuture (c : Nat)
  | send (c : Nat) (r : Result)
  | recv (c : Nat)
  | cas (id : Nat)
  deriving DecidableEq, Repr

/-- Effect of one primitive operation; an operation that cannot proceed leaves
the heap as it is. -/
def Heap.apply (h : Heap) : HeapOp → Heap
  | HeapOp.makeChan cap => (h.makeChan cap).2
  | HeapOp.newFuture c => (newFuture c h).2
  | HeapOp.send c r =>
    match h.send c r with
    | some h1 => h1
    | none => h
  | HeapOp.recv c =>
    match h.recv c with
    | some (_, h1) => h1
    | none => h
  | HeapOp.cas id =>
    match h.compareAndSwapDone id 0 1 with
    | some (_, h1) => h1
    | none => h

/-- Effect of a sequence of primitive operations. -/
def Heap.applyAll (h : Heap) : List HeapOp → Heap
  | [] => h
  | op :: ops => (h.apply op).applyAll ops

/-! ## Calls on one promise -/

/-- A call made by some goroutine on one promise or on a future: `p.Complete(v, err)`,
`p.Future()`, or `f.Wait(ctx)` run without interruption. -/
inductive Call where
  | complete (v : Val) (err : error)
  | future
  | wait (f : Future) (ctx : Context) (pick : Bool)
  deriving DecidableEq, Repr

/-- Whether the call is a `Complete`. -/
def Call.isComplete : Call → Bool
  | Call.complete _ _ => true
  | _ => false

/-- Effect of one call on the promise and the heap; `none` when the call never
returns control (a `Complete` blocked in its broadcast). A `Wait` that blocks
leaves its goroutine parked and the other callers carry on. -/
def Call.run (call : Call) (p : promise) (h : Heap) : Option (promise × Heap) :=
  match call with
  | Call.complete v err =>
    match p.Complete v err h with
    | none => none
    | some (_, p1, h1) => some (p1, h1)
  | Call.future => some ((p.Future h).2.1, (p.Future h).2.2)
  | Call.wait f ctx pick => some (p, (f.Wait ctx pick h).2)

/-- Effect of a sequence of calls. -/
def runCalls : List Call → promise → Heap → Option (promise × Heap)
  | [], p, h => some (p, h)
  | call :: rest, p, h =>
    match call.run p h with
    | none => none
    | some (p1, h1) => runCalls rest p1 h1

/-- Every channel registered with the promise is a distinct, existing, empty
channel of capacity one. -/
def promise.Fresh (p : promise) (h : Heap) : Prop :=
  p.cs.Nodup ∧ ∀ c ∈ p.cs, h.chans[c]? = some ⟨1, []⟩

/-! ## Goroutines

The code under `Go` and `Any` runs in several goroutines. A state of the system
records where each goroutine stands, and a schedule (a list of steps) says which
goroutine moves next. A step of a goroutine that cannot proceed leaves the state
as it is. -/

/-- A call `f.Wait(ctx)` as its goroutine runs it: not yet started, parked in
the `select` after a successful compare-and-swap, or returned. -/
inductive Waiter where
  | idle
  | inSelect
  | got (v : Val) (err : error)
  deriving DecidableEq, Repr

/-- One step of a call `f.Wait(ctx)`: for a `*future`, first the
compare-and-swap, then attempts at the `select`; a `fixedFuture` returns at
once. `ctx` is the state of the token at this step. -/
def Waiter.step (w : Waiter) (f : Future) (ctx : Context) (pick : Bool) (h : Heap) :
    Waiter × Heap :=
  match w, f with
  | Waiter.idle, Future.fixed ff => (Waiter.got (ff.Wait ctx).1 (ff.Wait ctx).2, h)
  | Waiter.idle, Future.ptr id =>
    match h.compareAndSwapDone id 0 1 with
    | none => (Waiter.idle, h)
    | some (false, h1) => (Waiter.got Val.nil (some ErrAlreadyDone), h1)
    | some (true, h1) => (Waiter.inSelect, h1)
  | Waiter.inSelect, Future.ptr id =>
    match h.futs[id]? with
    | none => (Waiter.inSelect, h)
    | some fu =>
      match future.select fu.c ctx pick h with
      | (WaitOutcome.returned v e, h1) => (Waiter.got v e, h1)
      | (WaitOutcome.blocked, h1) => (Waiter.inSelect, h1)
  | Waiter.inSelect, Future.fixed _ => (Waiter.inSelect, h)
  | Waiter.got v e, _ => (Waiter.got v e, h)

/-- The goroutine started by `Go`, seen from its call of `p.Complete`: not yet
called, returned nil, returned an error (the `panic` branch), or never returning. -/
inductive Task where
  | pending
  | finished
  | panicked (err : ErrVal)
  | blocked
  deriving DecidableEq, Repr

/-- What `Go` sets up: the promise, the future handed to the caller, the
goroutine that will complete the promise, and the caller's `Wait` on the
future, with a token that is never cancelled. -/
structure Spawned where
  h : Heap
  p : promise
  fut : Future
  task : Task
  caller : Waiter
  deriving DecidableEq, Repr

/-- The first two statements of `Go`: `p := NewPromise(); fut := p.Future()`. -/
def spawn (h : Heap) : Spawned :=
  ⟨(NewPromise.Future h).2.2, (NewPromise.Future h).2.1, (NewPromise.Future h).1,
    Task.pending, Waiter.idle⟩

/-- The goroutine of `Go` once the computation has produced `(v, err)`:
`if err := p.Complete(v, err); err != nil { panic(...) }`. -/
def Spawned.complete (o : Spawned) (v : Val) (err : error) : Spawned :=
  match o.task with
  | Task.pending =>
    match o.p.Complete v err o.h with
    | none => { o with task := Task.blocked }
    | some (none, p1, h1) => { o with h := h1, p := p1, task := Task.finished }
    | some (some e, p1, h1) => { o with h := h1, p := p1, task := Task.panicked e }
  | _ => o

/-- One step of the caller's `fut.Wait(context.Background())`. -/
def Spawned.wait (o : Spawned) (pick : Bool) : Spawned :=
  { o with
    caller := (o.caller.step o.fut Context.Background pick o.h).1
    h := (o.caller.step o.fut Context.Background pick o.h).2 }

/-- Whether a primitive operation stays away from the channels `cs` and from
the future `fut`, which only the code under study holds. -/
def HeapOp.avoids (cs : List Nat) (fut : Future) : HeapOp → Bool
  | HeapOp.makeChan _ => true
  | HeapOp.newFuture c => decide (c ∉ cs)
  | HeapOp.send c _ => decide (c ∉ cs)
  | HeapOp.recv c => decide (c ∉ cs)
  | HeapOp.cas id => decide (fut ≠ Future.ptr id)

/-- A step of some other goroutine of the program: a primitive heap operation
on objects other than the promise's channel and the returned future. -/
def Spawned.env (o : Spawned) (op : HeapOp) : Spawned :=
  if op.avoids o.p.cs o.fut then { o with h := o.h.apply op } else o

/-! ### `Go` -/

/-- State of a call `Go(f)` after it has returned. -/
structure GoState where
  o : Spawned
  f : Unit → Val × error

/-- Source: `func Go(f func() (interface{}, error)) Future`: the state in which `Go`
returns, its goroutine not yet run. -/
def Go (f : Unit → Val × error) (h : Heap) : GoState := ⟨spawn h, f⟩

/-- The moves of the system around `Go(f)`. -/
inductive GoStep where
  | task
  | wait (pick : Bool)
  | env (op : HeapOp)
  deriving DecidableEq, Repr

/-- One move: the goroutine runs `p.Complete(f())`, the caller advances in its
`Wait`, or another goroutine touches the heap. -/
def GoState.step (s : GoState) : GoStep → GoState
  | GoStep.task => { s with o := s.o.complete (s.f ()).1 (s.f ()).2 }
  | GoStep.wait pick => { s with o := s.o.wait pick }
  | GoStep.env op => { s with o := s.o.env op }

/-- Runs a schedule. -/
def GoState.run (s : GoState) : List GoStep → GoState
  | [] => s
  | st :: rest => (s.step st).run rest

/-! ### `Any` -/

/-- A worker goroutine of `Any`: inside `f.Wait(ctx)`, at the `select` that
offers its Result on the fan-in channel, or exited after the send or after
`<-ctx.Done()`. -/
inductive Worker where
  | waiting (w : Waiter)
  | sending (r : Result)
  | sent
  | quit
  deriving DecidableEq, Repr

/-- The function passed to `Go` by `Any`, seen from its loop: about to receive
with `k` iterations left and the local `err`, or returned (with the deferred
`cancel()` run). -/
inductive Body where
  | loop (k : Nat) (err : error)
  | returned (v : Val) (err : error)
  deriving DecidableEq, Repr

/-- The loop body after `r := <-c`, with `k` iterations left afterwards:
`if r.Err == nil { return r.V, nil }; err = r.Err`. -/
def Body.receive (k : Nat) (r : Result) : Body :=
  match r.Err with
  | none => Body.returned r.V none
  | some e => Body.loop k (some e)

/-- Whether the function has returned. -/
def Body.isReturned : Body → Bool
  | Body.returned _ _ => true
  | Body.loop _ _ => false

/-- State of a call `Any(fs...)` after it has returned. `arrivals` lists, in
order, the Results received on the fan-in channel, each with the index of the
worker that sent it. -/
structure AnyState where
  fs : List Future
  o : Spawned
  workers : List Worker
  body : Body
  cancelled : Bool
  arrivals : List (Nat × Result)
  deriving DecidableEq, Repr

/-- The token `ctx` of `context.WithCancel(context.Background())`. -/
def anyCtx (cancelled : Bool) : Context :=
  ⟨if cancelled then some ErrVal.canceled else none⟩

/-- Source: `func Any(fs ...Future) Future`: the state in which `Any` returns, with one
worker per input about to call `f.Wait(ctx)` and the loop about to start. -/
def Any (fs : List Future) (h : Heap) : AnyState :=
  ⟨fs, spawn h, fs.map (fun _ => Worker.waiting Waiter.idle), Body.loop fs.length none,
    false, []⟩

/-- The moves of the system around `Any(fs...)`. -/
inductive AnyStep where
  | worker (i : Nat) (pick : Bool)
  | body
  | complete
  | wait (pick : Bool)
  | env (op : HeapOp)
  deriving DecidableEq, Repr

/-- Worker `i` hands `r` to the loop, which runs one iteration; a return runs
the deferred `cancel()`. -/
def AnyState.deliver (s : AnyState) (i k : Nat) (r : Result) : AnyState :=
  { s with
    workers := s.workers.set i Worker.sent
    body := Body.receive k r
    cancelled := s.cancelled || (Body.receive k r).isReturned
    arrivals := s.arrivals ++ [(i, r)] }

/-- One move of worker `i`:
`result := newResult(f.Wait(ctx)); select { case c <- result: case <-ctx.Done(): }`.
The send on the unbuffered `c` can proceed only while the loop is receiving. -/
def AnyState.workerStep (s : AnyState) (i : Nat) (pick : Bool) : AnyState :=
  match s.fs[i]?, s.workers[i]? with
  | some f, some (Worker.waiting w) =>
    match w.step f (anyCtx s.cancelled) pick s.o.h with
    | (Waiter.got v e, h1) =>
      { s with o := { s.o with h := h1 }
               workers := s.workers.set i (Worker.sending (newResult v e)) }
    | (w1, h1) =>
      { s with o := { s.o with h := h1 }, workers := s.workers.set i (Worker.waiting w1) }
  | some _, some (Worker.sending r) =>
    match s.body, s.cancelled with
    | Body.loop (k + 1) _, false => s.deliver i k r
    | Body.loop (k + 1) _, true =>
      if pick then s.deliver i k r else { s with workers := s.workers.set i Worker.quit }
    | _, true => { s with workers := s.workers.set i Worker.quit }
    | _, false => s
  | _, _ => s

/-- One move: a worker, the loop leaving after its last iteration
(`return nil, err`, then the deferred `cancel()`), the goroutine of `Go`
completing the promise with what the function returned, the caller in its
`Wait`, or another goroutine touching the heap. -/
def AnyState.step (s : AnyState) : AnyStep → AnyState
  | AnyStep.worker i pick => s.workerStep i pick
  | AnyStep.body =>
    match s.body with
    | Body.loop 0 err => { s with body := Body.returned Val.nil err, cancelled := true }
    | _ => s
  | AnyStep.complete =>
    match s.body with
    | Body.returned v err => { s with o := s.o.complete v err }
    | _ => s
  | AnyStep.wait pick => { s with o := s.o.wait pick }
  | AnyStep.env op => { s with o := s.o.env op }

/-- Runs a schedule. -/
def AnyState.run (s : AnyState) : List AnyStep → AnyState
  | [] => s
  | st :: rest => (s.step st).run rest

/-- The first Result without error among the arrivals. -/
def firstOk (arrivals : List (Nat × Result)) : Option Result :=
  (arrivals.map Prod.snd).find? (fun r => r.Err.isNone)

/-- The error of the last arrival. -/
def lastErr (arrivals : List (Nat × Result)) : error :=
  match arrivals.getLast? with
  | none => none
  | some (_, r) => r.Err

/-- How far a call of `Wait` has come: 0 before the compare-and-swap, 1 in the
`select`, 2 once returned. -/
def Waiter.rank : Waiter → Nat
  | Waiter.idle => 0
  | Waiter.inSelect => 1
  | Waiter.got _ _ => 2

/-! ## Invariants -/

/-- What holds of the objects set up by `Go` at every moment, for the promise's
channel `oc` and the returned future `fid`. With `none`: the promise is pending,
the channel is empty and the caller is before or inside its `select`. With
`some r`: the promise is completed with `r`, and `r` is on the channel until
the caller has received it. -/
def Spawned.Inv (oc fid : Nat) (o : Spawned) : Option Result → Prop
  | none =>
    o.task = Task.pending ∧ o.p = ⟨[oc], none⟩ ∧ o.fut = Future.ptr fid ∧
      o.h.chans[oc]? = some ⟨1, []⟩ ∧
      ((o.caller = Waiter.idle ∧ o.h.futs[fid]? = some ⟨oc, 0⟩) ∨
        (o.caller = Waiter.inSelect ∧ o.h.futs[fid]? = some ⟨oc, 1⟩))
  | some r =>
    o.task = Task.finished ∧ o.p = ⟨[oc], some r⟩ ∧ o.fut = Future.ptr fid ∧
      ((o.caller = Waiter.idle ∧ o.h.futs[fid]? = some ⟨oc, 0⟩ ∧
          o.h.chans[oc]? = some ⟨1, [r]⟩) ∨
        (o.caller = Waiter.inSelect ∧ o.h.futs[fid]? = some ⟨oc, 1⟩ ∧
          o.h.chans[oc]? = some ⟨1, [r]⟩) ∨
        (o.caller = Waiter.got r.V r.Err ∧ o.h.futs[fid]? = some ⟨oc, 1⟩ ∧
          o.h.chans[oc]? = some ⟨1, []⟩))

/-- No `future` other than `fid` reads from channel `oc`. -/
def Heap.Foreign (h : Heap) (oc fid : Nat) : Prop :=
  ∀ id g, id ≠ fid → h.futs[id]? = some g → g.c ≠ oc

/-- Every `future` of the heap reads from a channel of the heap. -/
def Heap.Closed (h : Heap) : Prop :=
  ∀ g ∈ h.futs, g.c < h.chans.length

/-- Every `*future` in the list points into the heap. -/
def Heap.Holds (h : Heap) (fs : List Future) : Prop :=
  ∀ id, Future.ptr id ∈ fs → id < h.futs.length

/-- The loop of `Any` against the arrivals so far, for `n` inputs: while it
runs, every arrival carried an error, `err` is the last of them and the token
is not cancelled; once it has returned, the token is cancelled and it returned
the value of the first arrival without error, or, after `n` failed arrivals,
nil and the last error. -/
def Body.Agrees (n : Nat) (arrivals : List (Nat × Result)) (cancelled : Bool) : Body → Prop
  | Body.loop k err =>
    cancelled = false ∧ firstOk arrivals = none ∧ arrivals.length + k = n ∧
      err = lastErr arrivals
  | Body.returned v e =>
    cancelled = true ∧
      ((∃ r, firstOk arrivals = some r ∧ v = r.V ∧ e = none) ∨
        (firstOk arrivals = none ∧ arrivals.length = n ∧ v = Val.nil ∧ e = lastErr arrivals))

/-- What holds at every moment around `Any(fs...)`, for the promise's channel
`oc` and the returned future `fid`. -/
structure AnyState.Inv (fs : List Future) (oc fid : Nat) (s : AnyState) : Prop where
  hfs : s.fs = fs
  hlen : s.workers.length = fs.length
  hcount : s.workers.count Worker.sent = s.arrivals.length
  hloop : s.body.Agrees fs.length s.arrivals s.cancelled
  hwait : ∀ (i : Nat) v e, s.workers[i]? ≠ some (Worker.waiting (Waiter.got v e))
  hfixed : ∀ (i : Nat) r ff, fs[i]? = some (Future.fixed ff) →
    ((i, r) ∈ s.arrivals ∨ s.workers[i]? = some (Worker.sending r)) → r = ⟨ff.v, ff.err⟩
  hidx : ∀ i r, (i, r) ∈ s.arrivals → i < fs.length
  hout : ∃ x, s.o.Inv oc fid x ∧ ∀ r, x = some r → s.body = Body.returned r.V r.Err
  hforeign : s.o.h.Foreign oc fid
  hptr : ∀ id, Future.ptr id ∈ fs → id ≠ fid

/-- Worker `i` holds a Result without error, or is about to get one from an
immediate future, or a Result without error has already arrived. -/
def AnyState.OkAt (s : AnyState) (i : Nat) : Prop :=
  (∃ r, s.workers[i]? = some (Worker.sending r) ∧ r.Err = none) ∨
    (∃ ff, s.workers[i]? = some (Worker.waiting Waiter.idle) ∧
      s.fs[i]? = some (Future.fixed ff) ∧ ff.err = none) ∨
    (firstOk s.arrivals).isSome

/-- Every worker holds a Result with an error, or is about to get one from an
immediate future, or has delivered one. -/
def AnyState.AllFail (s : AnyState) : Prop :=
  firstOk s.arrivals = none ∧
    ∀ (i : Nat) (w : Worker), s.workers[i]? = some w →
      w = Worker.sent ∨ (∃ r, w = Worker.sending r ∧ r.Err ≠ none) ∨
        (w = Worker.waiting Waiter.idle ∧
          ∃ ff, s.fs[i]? = some (Future.fixed ff) ∧ ff.err ≠ none)

/-! ## Every move around one promise -/

/-- A move around one promise: a call on it or on a future, or a primitive heap
operation of another goroutine (a parked `Wait` that resumes its receive, work
on other channels and futures). -/
inductive Move where
  | call (c : Call)
  | heap (op : HeapOp)
  deriving DecidableEq, Repr

/-- Whether the operation is a send on one of the channels `cs`. The promise
keeps the send ends of its channels to itself (`cs []chan<- Result` is never
handed out), so no other goroutine sends on them. -/
def HeapOp.sendsOn (cs : List Nat) : HeapOp → Bool
  | HeapOp.send c _ => decide (c ∈ cs)
  | _ => false

/-- The sends that the loop `for _, c := range p.cs { c <- r }` performs, in
order, up to the first send that blocks. -/
def broadcastSent (r : Result) : List Nat → Heap → List (Nat × Result)
  | [], _ => []
  | c :: cs, h =>
    match h.send c r with
    | none => []
    | some h1 => (c, r) :: broadcastSent r cs h1

/-- The sends that a move performs, as pairs of channel and Result. -/
def Move.sent (mv : Move) (p : promise) (h : Heap) : List (Nat × Result) :=
  match mv with
  | Move.call (Call.complete v err) =>
    match p.result with
    | some _ => []
    | none => broadcastSent (newResult v err) p.cs h
  | Move.call _ => []
  | Move.heap (HeapOp.send c r) =>
    if (HeapOp.send c r).sendsOn p.cs then []
    else
      match h.send c r with
      | some _ => [(c, r)]
      | none => []
  | Move.heap _ => []

/-- Effect of a move on the promise and the heap; `none` when a `Complete`
never returns. A send by another goroutine on a channel of the promise does
not happen. -/
def Move.run (mv : Move) (p : promise) (h : Heap) : Option (promise × Heap) :=
  match mv with
  | Move.call c => c.run p h
  | Move.heap op => if op.sendsOn p.cs then some (p, h) else some (p, h.apply op)

/-- Runs a sequence of moves from a promise, a heap and the log of the sends so
far; returns the promise, the heap and the log of all sends. -/
def runMoves : List Move → promise → Heap → List (Nat × Result) →
    Option (promise × Heap × List (Nat × Result))
  | [], p, h, log => some (p, h, log)
  | mv :: rest, p, h, log =>
    match mv.run p h with
    | none => none
    | some (p1, h1) => runMoves rest p1 h1 (log ++ mv.sent p h)

/-- The sends received by channel `c` according to the log. -/
def receivedBy (log : List (Nat × Result)) (c : Nat) : List (Nat × Result) :=
  log.filter fun x => decide (x.1 = c)

/-- What holds of a promise, the heap and the log of sends at every moment: the
registered channels are distinct; while the promise is pending each of them is
an empty channel of capacity one that has received nothing; once the promise is
completed with `r` each of them has capacity one, has received `r` and nothing
else, and holds `r` or has been emptied by a receive. -/
structure promise.Sound (p : promise) (h : Heap) (log : List (Nat × Result)) : Prop where
  nodup : p.cs.Nodup
  bound : ∀ x ∈ log, x.1 < h.chans.length
  pending : p.result = none →
    ∀ c ∈ p.cs, h.chans[c]? = some ⟨1, []⟩ ∧ receivedBy log c = []
  done : ∀ r, p.result = some r →
    ∀ c ∈ p.cs, (h.chans[c]? = some ⟨1, [r]⟩ ∨ h.chans[c]? = some ⟨1, []⟩) ∧
      receivedBy log c = [(c, r)]

/-- From `h` to `h1` no channel has disappeared or changed capacity, and each
queue is what it was or has lost Results at its head. -/
def Heap.DrainsTo (h h1 : Heap) : Prop :=
  h.chans.length ≤ h1.chans.length ∧
    ∀ (c : Nat) (ch : Chan), h.chans[c]? = some ch →
      ∃ ch1, h1.chans[c]? = some ch1 ∧ ch1.cap = ch.cap ∧ List.IsSuffix ch1.buf ch.buf

/-! ## Consumed futures -/

/-- From `h` to `h1` no `future` has disappeared or changed channel, and no
`done` flag that was set has been cleared. -/
def Heap.MarksTo (h h1 : Heap) : Prop :=
  ∀ (id : Nat) (g : future), h.futs[id]? = some g →
    ∃ g1, h1.futs[id]? = some g1 ∧ g1.c = g.c ∧ (g.done ≠ 0 → g1.done ≠ 0)

/-- Whether the `future` at `id` has its `done` flag set. -/
def Heap.Consumed (h : Heap) (id : Nat) : Prop :=
  ∃ g, h.futs[id]? = some g ∧ g.done ≠ 0

/-- Every worker of `Any` that has started its call of `Wait` on a `*future`
has set the `done` flag of that `future`. -/
def AnyState.Consumes (s : AnyState) : Prop :=
  ∀ (i id : Nat) (w : Worker), s.fs[i]? = some (Future.ptr id) → s.workers[i]? = some w →
    w ≠ Worker.waiting Waiter.idle → s.o.h.Consumed id

/-- The input `i` of `Any`, the `*future` at `id`, had its `done` flag set before
the race: the flag is still set, worker `i` has not started or has got
`(nil, ErrAlreadyDone)` from its `Wait`, and nothing else has arrived from it. -/
def AnyState.Rejects (s : AnyState) (i id : Nat) : Prop :=
  s.o.h.Consumed id ∧
    (∀ w, s.workers[i]? = some w →
      w = Worker.waiting Waiter.idle ∨ w = Worker.sending ⟨Val.nil, some ErrAlreadyDone⟩ ∨
        w = Worker.sent ∨ w = Worker.quit) ∧
    ∀ r, (i, r) ∈ s.arrivals → r = ⟨Val.nil, some ErrAlreadyDone⟩

/-! ## Calls on one promise by several goroutines, statement by statement

`sync.RWMutex`: `Lock` waits until no goroutine holds the mutex in either mode,
`RLock` waits only while a goroutine holds it through `Lock`. -/

/-- Where a goroutine stands in its call of `p.Future()`. -/
inductive FutureCall where
  /-- Before `p.mu.RLock()`. -/
  | start
  /-- Holds the read lock; before `if p.result != nil`. -/
  | locked
  /-- Found `p.result == nil`; before `c := make(chan Result, 1)`. -/
  | pending
  /-- Before `append(p.cs, c)` reads `p.cs`. -/
  | made (c : Nat)
  /-- The value of `append(p.cs, c)` is `cs`; before it is assigned to `p.cs`. -/
  | appended (c : Nat) (cs : List Nat)
  /-- Before `newFuture(c)`. -/
  | stored (c : Nat)
  /-- The result is decided; the deferred `p.mu.RUnlock()` is still to run. -/
  | returning (f : Future)
  | returned (f : Future)
  deriving DecidableEq, Repr

/-- Where a goroutine stands in its call of `p.Complete(v, err)`. -/
inductive CompleteCall where
  /-- Before `p.mu.Lock()`. -/
  | start (v : Val) (err : error)
  /-- Holds the mutex; before the body. -/
  | locked (v : Val) (err : error)
  /-- The body is through; the deferred `p.mu.Unlock()` is still to run. -/
  | returning (e : error)
  | returned (e : error)
  deriving DecidableEq, Repr

/-- One promise shared by goroutines calling `Future()` and `Complete`: the
fields `cs` and `result`, the state of `mu` (how many goroutines hold it through
`RLock`, whether one holds it through `Lock`), the heap, and the calls. -/
structure Shared where
  p : promise
  readers : Nat
  writer : Bool
  h : Heap
  futures : List FutureCall
  completes : List CompleteCall
  deriving DecidableEq, Repr

/-- The calls of `p.Future()` by `n` goroutines and the calls of `p.Complete` with
the arguments `args`, none of them started, on `p := NewPromise()`. -/
def Shared.init (n : Nat) (args : List (Val × error)) (h : Heap) : Shared :=
  ⟨NewPromise, 0, false, h, List.replicate n FutureCall.start,
    args.map fun a => CompleteCall.start a.1 a.2⟩

/-- The next statement of the `i`-th call of `p.Future()`:
`p.mu.RLock(); defer p.mu.RUnlock(); if p.result != nil { return Fixed(...) };
c := make(chan Result, 1); p.cs = append(p.cs, c); return newFuture(c)`.
The assignment `p.cs = append(p.cs, c)` reads `p.cs` and writes it in two accesses. -/
def Shared.futureStep (s : Shared) (i : Nat) : Shared :=
  match s.futures[i]? with
  | some FutureCall.start =>
    if s.writer then s
    else { s with readers := s.readers + 1, futures := s.futures.set i FutureCall.locked }
  | some FutureCall.locked =>
    match s.p.result with
    | some r => { s with futures := s.futures.set i (FutureCall.returning (Fixed r.V r.Err)) }
    | none => { s with futures := s.futures.set i FutureCall.pending }
  | some FutureCall.pending =>
    { s with h := (s.h.makeChan 1).2,
             futures := s.futures.set i (FutureCall.made (s.h.makeChan 1).1) }
  | some (FutureCall.made c) =>
    { s with futures := s.futures.set i (FutureCall.appended c (s.p.cs ++ [c])) }
  | some (FutureCall.appended c cs) =>
    { s with p := { s.p with cs := cs }, futures := s.futures.set i (FutureCall.stored c) }
  | some (FutureCall.stored c) =>
    { s with h := (newFuture c s.h).2,
             futures := s.futures.set i (FutureCall.returning (newFuture c s.h).1) }
  | some (FutureCall.returning f) =>
    { s with readers := s.readers - 1, futures := s.futures.set i (FutureCall.returned f) }
  | _ => s

/-- The next statement of the `j`-th call of `p.Complete(v, err)`:
`p.mu.Lock(); defer p.mu.Unlock();` then the body, which is `promise.Complete`. -/
def Shared.completeStep (s : Shared) (j : Nat) : Shared :=
  match s.completes[j]? with
  | some (CompleteCall.start v err) =>
    if s.writer || s.readers != 0 then s
    else { s with writer := true, completes := s.completes.set j (CompleteCall.locked v err) }
  | some (CompleteCall.locked v err) =>
    match s.p.Complete v err s.h with
    | none => s
    | some (e, p1, h1) =>
      { s with p := p1, h := h1, completes := s.completes.set j (CompleteCall.returning e) }
  | some (CompleteCall.returning e) =>
    { s with writer := false, completes := s.completes.set j (CompleteCall.returned e) }
  | _ => s

/-- Which goroutine runs its next statement. -/
inductive Turn where
  | future (i : Nat)
  | complete (j : Nat)
  deriving DecidableEq, Repr

/-- One statement of one goroutine; a goroutine that waits for the mutex stays
where it is. -/
def Shared.step (s : Shared) : Turn → Shared
  | Turn.future i => s.futureStep i
  | Turn.complete j => s.completeStep j

/-- Runs a schedule. -/
def Shared.run (s : Shared) : List Turn → Shared
  | [] => s
  | t :: rest => (s.step t).run rest

/-- Whether a call of `p.Future()` holds the read lock. -/
def FutureCall.holds : FutureCall → Bool
  | FutureCall.start => false
  | FutureCall.returned _ => false
  | _ => true

/-- Whether a call of `p.Complete` holds the mutex. -/
def CompleteCall.holds : CompleteCall → Bool
  | CompleteCall.locked _ _ => true
  | CompleteCall.returning _ => true
  | _ => false

/-- The state of `mu` agrees with the calls: the readers are the calls of
`Future()` between `RLock` and `RUnlock`, a writer is a call of `Complete`
between `Lock` and `Unlock`, there is at most one, and never with a reader. -/
def Shared.Locked (s : Shared) : Prop :=
  s.readers = s.futures.countP FutureCall.holds ∧
    s.completes.countP CompleteCall.holds = (if s.writer then 1 else 0) ∧
    (s.writer = true → s.readers = 0)

/-! # Theorems -/

/-! ## Basic facts about `Wait` -/

theorem future_Wait_ready (h : Heap) (id c cap : Nat) (r : Result) (rest : List Result)
    (pick : Bool) (hf : h.futs[id]? = some ⟨c, 0⟩)
    (hc : h.chans[c]? = some ⟨cap, r :: rest⟩) :
    future.Wait id Context.Background pick h =
      (WaitOutcome.returned r.V r.Err,
        ⟨h.chans.set c ⟨cap, rest⟩, h.futs.set id ⟨c, 1⟩⟩) := by
  simp [future.Wait, Heap.compareAndSwapDone, hf, future.select, Heap.recv, hc,
    Context.Background]

theorem future_Wait_done (h : Heap) (id : Nat) (f : future) (ctx : Context) (pick : Bool)
    (hf : h.futs[id]? = some f) (hd : f.done ≠ 0) :
    future.Wait id ctx pick h = (WaitOutcome.returned Val.nil (some ErrAlreadyDone), h) := by
  simp [future.Wait, Heap.compareAndSwapDone, hf, hd]

example : (futuresN 2 NewPromise ⟨[], []⟩).1 = [Future.ptr 0, Future.ptr 1] := by decide

theorem futuresN_pending (n : Nat) : ∀ (cs : List Nat) (h : Heap),
    futuresN n ⟨cs, none⟩ h =
      ((List.range n).map (fun i => Future.ptr (h.futs.length + i)),
        ⟨cs ++ (List.range n).map (fun i => h.chans.length + i), none⟩,
        ⟨h.chans ++ List.replicate n ⟨1, []⟩,
          h.futs ++ (List.range n).map (fun i => ⟨h.chans.length + i, 0⟩)⟩) := by
  induction n with
  | zero => intro cs h; simp [futuresN]
  | succ n ih =>
    intro cs h
    simp only [futuresN, promise.Future, Heap.makeChan, newFuture]
    rw [ih]
    simp [List.range_succ_eq_map, List.replicate_succ, Nat.add_assoc, Nat.add_comm 1]

theorem send_empty (h : Heap) (c cap : Nat) (r : Result) (hc : h.chans[c]? = some ⟨cap, []⟩)
    (hcap : 0 < cap) :
    h.send c r = some ⟨h.chans.set c ⟨cap, [r]⟩, h.futs⟩ := by
  simp [Heap.send, hc, hcap]

theorem broadcast_fresh (r : Result) : ∀ (cs : List Nat) (h : Heap), cs.Nodup →
    (∀ c ∈ cs, h.chans[c]? = some ⟨1, []⟩) →
    ∃ h1, broadcast r cs h = some h1 ∧ h1.futs = h.futs ∧
      h1.chans.length = h.chans.length ∧
      (∀ c ∈ cs, h1.chans[c]? = some ⟨1, [r]⟩) ∧
      (∀ c, c ∉ cs → h1.chans[c]? = h.chans[c]?) := by
  intro cs
  induction cs with
  | nil => intro h _ _; exact ⟨h, rfl, rfl, rfl, by simp, by simp⟩
  | cons c cs ih =>
    intro h hnd hall
    have hc := hall c (by simp)
    rw [List.nodup_cons] at hnd
    have hne : ∀ d ∈ cs, c ≠ d := fun d hd hcd => hnd.1 (hcd ▸ hd)
    obtain ⟨h1, hb, hf, hl, hin, hout⟩ := ih ⟨h.chans.set c ⟨1, [r]⟩, h.futs⟩ hnd.2 (by
      intro d hd
      simp only []
      rw [List.getElem?_set_ne (hne d hd)]
      exact hall d (by simp [hd]))
    refine ⟨h1, ?_, hf, ?_, ?_, ?_⟩
    · simp [broadcast, send_empty h c 1 r hc, hb]
    · simpa using hl
    · intro d hd
      rcases List.mem_cons.1 hd with rfl | hd
      · rw [hout _ hnd.1]
        have hlt : d < h.chans.length := by
          by_contra hge
          rw [List.getElem?_eq_none (by omega)] at hc
          cases hc
        simp [List.getElem?_set_self, hlt]
      · exact hin d hd
    · intro d hd
      simp only [List.mem_cons, not_or] at hd
      rw [hout d hd.2]
      simp only []
      rw [List.getElem?_set_ne (Ne.symm hd.1)]

theorem waitSeq_ready (F L : Nat) (r : Result) :
    ∀ (calls : List (Future × Bool)) (h : Heap), (calls.map Prod.fst).Nodup →
    (∀ c ∈ calls, ∃ i, c.1 = Future.ptr (F + i) ∧ h.futs[F + i]? = some ⟨L + i, 0⟩ ∧
      h.chans[L + i]? = some ⟨1, [r]⟩) →
    (waitSeq (calls.map fun c => (c.1, Context.Background, c.2)) h).1 =
      List.replicate calls.length (WaitOutcome.returned r.V r.Err) := by
  intro calls
  induction calls with
  | nil => intro h _ _; simp [waitSeq]
  | cons c calls ih =>
    intro h hnd hall
    obtain ⟨i, hi, hf, hc⟩ := hall c (by simp)
    rw [List.map_cons, List.nodup_cons] at hnd
    simp only [List.map_cons, waitSeq, hi, Future.Wait, future_Wait_ready h _ _ _ r [] c.2 hf hc,
      List.length_cons, List.replicate_succ]
    congr 1
    apply ih _ hnd.2
    intro d hd
    obtain ⟨j, hj, hfj, hcj⟩ := hall d (by simp [hd])
    have hij : i ≠ j := by
      rintro rfl
      exact hnd.1 (List.mem_map.2 ⟨d, hd, by rw [hj, hi]⟩)
    refine ⟨j, hj, ?_, ?_⟩
    · simp only []
      rw [List.getElem?_set_ne (by omega)]
      exact hfj
    · simp only []
      rw [List.getElem?_set_ne (by omega)]
      exact hcj

theorem getElem?_append_replicate {α : Type} (base : List α) (n i : Nat) (a : α) (hi : i < n) :
    (base ++ List.replicate n a)[base.length + i]? = some a := by
  rw [List.getElem?_append_right (by omega)]
  simp [hi]

theorem getElem?_append_map_range {α : Type} (base : List α) (n i : Nat) (g : Nat → α)
    (hi : i < n) :
    (base ++ (List.range n).map g)[base.length + i]? = some (g i) := by
  rw [List.getElem?_append_right (by omega)]
  simp [hi]

/-- Calls of `Future()` made one after another: for every value `v` and error `e`
and every number `n` of futures obtained that way from a fresh promise before
completion, the first `Complete(v, e)` returns nil, and afterwards the first
`Wait` on each of those futures, taken in any order with a never-cancelled token,
returns `(v, e)`. -/
theorem promise_complete_then_wait (v : Val) (e : error) (n : Nat) (m : Heap)
    (calls : List (Future × Bool))
    (hperm : (calls.map Prod.fst).Perm (futuresN n NewPromise m).1) :
    ∃ p2 h2, (futuresN n NewPromise m).2.1.Complete v e (futuresN n NewPromise m).2.2
        = some (none, p2, h2) ∧
      (waitSeq (calls.map fun c => (c.1, Context.Background, c.2)) h2).1 =
        List.replicate n (WaitOutcome.returned v e) := by
  rw [NewPromise, futuresN_pending] at hperm ⊢
  simp only [List.nil_append] at hperm ⊢
  have hnd : ((List.range n).map (fun i => m.chans.length + i)).Nodup :=
    (List.nodup_range n).map (fun a b hab => by simpa using hab)
  obtain ⟨h2, hb, hf, hl, hin, hout⟩ := broadcast_fresh (newResult v e)
    ((List.range n).map (fun i => m.chans.length + i))
    ⟨m.chans ++ List.replicate n ⟨1, []⟩,
      m.futs ++ (List.range n).map (fun i => ⟨m.chans.length + i, 0⟩)⟩ hnd (by
      intro c hc
      obtain ⟨i, hi, rfl⟩ := List.mem_map.1 hc
      rw [List.mem_range] at hi
      exact getElem?_append_replicate _ _ _ _ hi)
  refine ⟨⟨(List.range n).map (fun i => m.chans.length + i), some (newResult v e)⟩, h2,
    by simp [promise.Complete, hb], ?_⟩
  have hlen : calls.length = n := by
    have := hperm.length_eq
    simpa using this
  have hnd2 : (calls.map Prod.fst).Nodup :=
    hperm.nodup_iff.2 ((List.nodup_range n).map (fun a b hab => by simpa using hab))
  rw [waitSeq_ready m.futs.length m.chans.length (newResult v e) calls h2 hnd2, hlen]
  · rfl
  · intro c hc
    have hmem : c.1 ∈ (List.range n).map (fun i => Future.ptr (m.futs.length + i)) :=
      hperm.subset (List.mem_map.2 ⟨c, hc, rfl⟩)
    obtain ⟨i, hi, hci⟩ := List.mem_map.1 hmem
    rw [List.mem_range] at hi
    refine ⟨i, hci.symm, ?_, ?_⟩
    · rw [hf]
      exact getElem?_append_map_range _ _ _ _ hi
    · exact hin _ (List.mem_map.2 ⟨i, List.mem_range.2 hi, rfl⟩)

/-! ## Frame facts -/

theorem recv_some (h : Heap) (c : Nat) (r : Result) (h1 : Heap) (hr : h.recv c = some (r, h1)) :
    ∃ cap rest, h.chans[c]? = some ⟨cap, r :: rest⟩ ∧
      h1 = ⟨h.chans.set c ⟨cap, rest⟩, h.futs⟩ := by
  unfold Heap.recv at hr
  cases hc : h.chans[c]? with
  | none => simp [hc] at hr
  | some ch =>
    obtain ⟨cap, buf⟩ := ch
    cases buf with
    | nil => simp [hc] at hr
    | cons r0 rest =>
      simp only [hc, Option.some.injEq, Prod.mk.injEq] at hr
      exact ⟨cap, rest, by rw [hr.1], hr.2.symm⟩

theorem recv_keeps_empty (h : Heap) (c d cap : Nat) (r : Result) (h1 : Heap)
    (hr : h.recv c = some (r, h1)) (hd : h.chans[d]? = some ⟨cap, []⟩) :
    h1.chans[d]? = some ⟨cap, []⟩ := by
  obtain ⟨cap1, rest, hc, rfl⟩ := recv_some h c r h1 hr
  have hne : c ≠ d := by
    rintro rfl
    rw [hc] at hd
    cases hd
  simp only []
  rw [List.getElem?_set_ne hne]
  exact hd

theorem select_keeps_empty (c : Nat) (ctx : Context) (pick : Bool) (h : Heap) (d cap : Nat)
    (hd : h.chans[d]? = some ⟨cap, []⟩) :
    (future.select c ctx pick h).2.chans[d]? = some ⟨cap, []⟩ := by
  unfold future.select
  cases hr : h.recv c with
  | none => cases ctx.Err <;> simpa using hd
  | some rh =>
    obtain ⟨r, h1⟩ := rh
    have h1d := recv_keeps_empty h c d cap r h1 hr hd
    cases ctx.Err with
    | none => simpa using h1d
    | some e => cases pick <;> simpa using by assumption

theorem select_futs (c : Nat) (ctx : Context) (pick : Bool) (h : Heap) :
    (future.select c ctx pick h).2.futs = h.futs := by
  unfold future.select
  cases hr : h.recv c with
  | none => cases ctx.Err <;> rfl
  | some rh =>
    obtain ⟨r, h1⟩ := rh
    obtain ⟨cap1, rest, hc, rfl⟩ := recv_some h c r h1 hr
    cases ctx.Err with
    | none => rfl
    | some e => cases pick <;> rfl

theorem cas_chans (h : Heap) (id : Nat) (b : Bool) (h1 : Heap)
    (hc : h.compareAndSwapDone id 0 1 = some (b, h1)) : h1.chans = h.chans := by
  unfold Heap.compareAndSwapDone at hc
  cases hf : h.futs[id]? with
  | none => simp [hf] at hc
  | some f =>
    simp only [hf] at hc
    split at hc
    · simp only [Option.some.injEq, Prod.mk.injEq] at hc
      rw [← hc.2]
    · simp only [Option.some.injEq, Prod.mk.injEq] at hc
      rw [← hc.2]

theorem Wait_keeps_empty (f : Future) (ctx : Context) (pick : Bool) (h : Heap) (d cap : Nat)
    (hd : h.chans[d]? = some ⟨cap, []⟩) :
    (f.Wait ctx pick h).2.chans[d]? = some ⟨cap, []⟩ := by
  cases f with
  | fixed ff => simpa [Future.Wait] using hd
  | ptr id =>
    simp only [Future.Wait, future.Wait]
    cases hf : h.futs[id]? with
    | none => simpa using hd
    | some fu =>
      cases hc : h.compareAndSwapDone id 0 1 with
      | none => simpa using hd
      | some bh =>
        obtain ⟨b, h1⟩ := bh
        have h1c := cas_chans h id b h1 hc
        cases b with
        | false => simpa [h1c] using hd
        | true =>
          simp only [Bool.not_true, Bool.false_eq_true, if_false]
          exact select_keeps_empty _ _ _ _ _ _ (by rw [h1c]; exact hd)

theorem Fresh_future (p : promise) (h : Heap) (hp : p.result = none) (hfr : p.Fresh h) :
    (p.Future h).2.1.Fresh (p.Future h).2.2 ∧ (p.Future h).2.1.result = none := by
  obtain ⟨cs, res⟩ := p
  simp only at hp
  subst hp
  obtain ⟨hnd, hall⟩ := hfr
  simp only at hnd hall
  have hlt : ∀ c ∈ cs, c < h.chans.length := by
    intro c hc
    by_contra hge
    have := hall c hc
    rw [List.getElem?_eq_none (by omega)] at this
    cases this
  refine ⟨⟨?_, ?_⟩, rfl⟩
  · simp only [promise.Future, Heap.makeChan, newFuture]
    rw [List.nodup_append]
    refine ⟨hnd, by simp, ?_⟩
    intro a ha hb
    simp only [List.mem_singleton] at hb
    have := hlt a ha
    omega
  · intro c hc
    simp only [promise.Future, Heap.makeChan, newFuture, List.mem_append,
      List.mem_singleton] at hc ⊢
    rcases hc with hc | rfl
    · rw [List.getElem?_append_left (hlt c hc)]
      exact hall c hc
    · simp

theorem Fresh_runCalls : ∀ (pre : List Call) (p : promise) (h : Heap),
    (∀ c ∈ pre, c.isComplete = false) → p.result = none → p.Fresh h →
    ∃ p1 h1, runCalls pre p h = some (p1, h1) ∧ p1.result = none ∧ p1.Fresh h1 := by
  intro pre
  induction pre with
  | nil => intro p h _ hp hfr; exact ⟨p, h, rfl, hp, hfr⟩
  | cons call pre ih =>
    intro p h hpre hp hfr
    have hrest : ∀ c ∈ pre, c.isComplete = false := fun c hc => hpre c (by simp [hc])
    have hcall := hpre call (by simp)
    cases call with
    | complete v e => simp [Call.isComplete] at hcall
    | future =>
      obtain ⟨hfr1, hp1⟩ := Fresh_future p h hp hfr
      simpa [runCalls, Call.run] using ih _ _ hrest hp1 hfr1
    | wait f ctx pick =>
      have hfr1 : p.Fresh (f.Wait ctx pick h).2 :=
        ⟨hfr.1, fun c hc => Wait_keeps_empty f ctx pick h c 1 (hfr.2 c hc)⟩
      simpa [runCalls, Call.run] using ih _ _ hrest hp hfr1

theorem Complete_done (cs : List Nat) (r : Result) (v : Val) (e : error) (h : Heap) :
    promise.Complete ⟨cs, some r⟩ v e h = some (some ErrAlreadyDone, ⟨cs, some r⟩, h) := by
  simp [promise.Complete]

theorem completeSeq_done (cs : List Nat) (r : Result) (h : Heap) :
    ∀ later : List (Val × error), completeSeq later ⟨cs, some r⟩ h =
      some (List.replicate later.length (some ErrAlreadyDone), ⟨cs, some r⟩, h) := by
  intro later
  induction later with
  | nil => simp [completeSeq]
  | cons ve later ih =>
    obtain ⟨v, e⟩ := ve
    simp [completeSeq, Complete_done, ih, List.replicate_succ]

theorem waitSeq_fixed (v : Val) (e : error) : ∀ (calls : List (Context × Bool)) (h : Heap),
    waitSeq (calls.map fun c => (Fixed v e, c.1, c.2)) h =
      (List.replicate calls.length (WaitOutcome.returned v e), h) := by
  intro calls
  induction calls with
  | nil => intro h; simp [waitSeq]
  | cons c calls ih =>
    intro h
    simp only [List.map_cons, waitSeq, List.length_cons, List.replicate_succ]
    rw [ih]
    simp [Fixed, Future.Wait, fixedFuture.Wait]

theorem send_some (h : Heap) (c : Nat) (r : Result) (h1 : Heap) (hs : h.send c r = some h1) :
    ∃ ch, h.chans[c]? = some ch ∧ ch.buf.length < ch.cap ∧
      h1 = ⟨h.chans.set c ⟨ch.cap, ch.buf ++ [r]⟩, h.futs⟩ := by
  unfold Heap.send at hs
  cases hc : h.chans[c]? with
  | none => simp [hc] at hs
  | some ch =>
    simp only [hc] at hs
    by_cases hlt : ch.buf.length < ch.cap
    · simp only [hlt, if_true, Option.some.injEq] at hs
      exact ⟨ch, rfl, hlt, hs.symm⟩
    · simp [hlt] at hs

theorem cas_some (h : Heap) (id : Nat) (b : Bool) (h1 : Heap)
    (hc : h.compareAndSwapDone id 0 1 = some (b, h1)) :
    ∃ f, h.futs[id]? = some f ∧
      ((f.done = 0 ∧ b = true ∧ h1 = ⟨h.chans, h.futs.set id ⟨f.c, 1⟩⟩) ∨
        (f.done ≠ 0 ∧ b = false ∧ h1 = h)) := by
  unfold Heap.compareAndSwapDone at hc
  cases hf : h.futs[id]? with
  | none => simp [hf] at hc
  | some f =>
    simp only [hf] at hc
    by_cases h0 : f.done = 0
    · simp only [h0, if_true, Option.some.injEq, Prod.mk.injEq] at hc
      exact ⟨f, rfl, Or.inl ⟨h0, hc.1.symm, hc.2.symm⟩⟩
    · simp only [h0, if_false, Option.some.injEq, Prod.mk.injEq] at hc
      exact ⟨f, rfl, Or.inr ⟨h0, hc.1.symm, hc.2.symm⟩⟩

theorem apply_keeps_done (h : Heap) (op : HeapOp) (id : Nat) (f : future)
    (hf : h.futs[id]? = some f) (hd : f.done ≠ 0) : (h.apply op).futs[id]? = some f := by
  have hlt : id < h.futs.length := by
    by_contra hge
    rw [List.getElem?_eq_none (by omega)] at hf
    cases hf
  cases op with
  | makeChan cap => simpa [Heap.apply, Heap.makeChan] using hf
  | newFuture c =>
    simp only [Heap.apply, newFuture]
    rw [List.getElem?_append_left hlt]
    exact hf
  | send c r =>
    simp only [Heap.apply]
    cases hs : h.send c r with
    | none => exact hf
    | some h1 =>
      obtain ⟨ch, _, _, rfl⟩ := send_some h c r h1 hs
      exact hf
  | recv c =>
    simp only [Heap.apply]
    cases hr : h.recv c with
    | none => exact hf
    | some rh =>
      obtain ⟨r, h1⟩ := rh
      obtain ⟨cap, rest, _, rfl⟩ := recv_some h c r h1 hr
      exact hf
  | cas id2 =>
    simp only [Heap.apply]
    cases hc : h.compareAndSwapDone id2 0 1 with
    | none => exact hf
    | some bh =>
      obtain ⟨b, h1⟩ := bh
      obtain ⟨f2, hf2, hcase | hcase⟩ := cas_some h id2 b h1 hc
      · obtain ⟨h0, -, rfl⟩ := hcase
        have hne : id2 ≠ id := by
          rintro rfl
          rw [hf] at hf2
          cases hf2
          exact hd h0
        simp only []
        rw [List.getElem?_set_ne hne]
        exact hf
      · obtain ⟨-, -, rfl⟩ := hcase
        exact hf

theorem applyAll_keeps_done : ∀ (ops : List HeapOp) (h : Heap) (id : Nat) (f : future),
    h.futs[id]? = some f → f.done ≠ 0 → (h.applyAll ops).futs[id]? = some f := by
  intro ops
  induction ops with
  | nil => intro h id f hf _; exact hf
  | cons op ops ih =>
    intro h id f hf hd
    exact ih _ id f (apply_keeps_done h op id f hf hd) hd

theorem Wait_sets_done (h : Heap) (id : Nat) (f : future) (ctx : Context) (pick : Bool)
    (hf : h.futs[id]? = some f) :
    ∃ g, (future.Wait id ctx pick h).2.futs[id]? = some g ∧ g.done ≠ 0 := by
  have hlt : id < h.futs.length := by
    by_contra hge
    rw [List.getElem?_eq_none (by omega)] at hf
    cases hf
  simp only [future.Wait, hf, Heap.compareAndSwapDone]
  by_cases h0 : f.done = 0
  · simp only [h0, if_true, Bool.not_true, Bool.false_eq_true, if_false]
    rw [select_futs]
    exact ⟨⟨f.c, 1⟩, by simp [List.getElem?_set_self, hlt], by simp⟩
  · simp only [h0, if_false, Bool.not_false, if_true]
    exact ⟨f, hf, h0⟩

/-! ## The promise and its futures -/

/-- Claim C2: on a promise on which futures were obtained and waited on in any way, the
first `Complete(v, e)` returns nil and stores `(v, e)`; every later `Complete`
returns `ErrAlreadyDone` and changes neither the promise nor the heap, whatever
the heap has become, and a `Future()` taken afterwards is `Fixed(v, e)`, whose
`Wait` yields `(v, e)`. -/
theorem complete_only_first_succeeds (m : Heap) (pre : List Call) (v : Val) (e : error)
    (later : List (Val × error)) (hpre : ∀ c ∈ pre, c.isComplete = false) :
    ∃ p1 h1 p2 h2, runCalls pre NewPromise m = some (p1, h1) ∧
      p1.Complete v e h1 = some (none, p2, h2) ∧
      p2.result = some (newResult v e) ∧
      completeSeq ((v, e) :: later) p1 h1 =
        some (none :: List.replicate later.length (some ErrAlreadyDone), p2, h2) ∧
      (∀ (h : Heap) (v2 : Val) (e2 : error),
        p2.Complete v2 e2 h = some (some ErrAlreadyDone, p2, h)) ∧
      (∀ (h : Heap) (ctx : Context) (pick : Bool),
        p2.Future h = (Fixed v e, p2, h) ∧
        (p2.Future h).1.Wait ctx pick h = (WaitOutcome.returned v e, h)) := by
  obtain ⟨p1, h1, hrun, hres, hfr⟩ := Fresh_runCalls pre NewPromise m hpre rfl
    ⟨by simp [NewPromise], by simp [NewPromise]⟩
  obtain ⟨cs, res⟩ := p1
  simp only at hres
  subst hres
  obtain ⟨h2, hb, -, -, -, -⟩ := broadcast_fresh (newResult v e) cs h1 hfr.1 hfr.2
  have hc : promise.Complete ⟨cs, none⟩ v e h1 =
      some (none, ⟨cs, some (newResult v e)⟩, h2) := by
    simp [promise.Complete, hb]
  refine ⟨⟨cs, none⟩, h1, ⟨cs, some (newResult v e)⟩, h2, hrun, hc, rfl, ?_, ?_, ?_⟩
  · simp [completeSeq, hc, completeSeq_done]
  · intro h v2 e2
    exact Complete_done cs _ v2 e2 h
  · intro h ctx pick
    simp [promise.Future, newResult, Fixed, Future.Wait, fixedFuture.Wait]

/-- Claim C3: once `Wait` has been called on a channel-backed future, however that
first call ended and whatever happened to the heap since (a Result delivered
late, other receives, other futures), every further `Wait` on it returns
`(nil, ErrAlreadyDone)` and leaves the heap, and so the backing channel, as it is. -/
theorem wait_after_first_is_already_done (h : Heap) (id : Nat) (f : future)
    (ctx1 : Context) (pick1 : Bool) (ops : List HeapOp) (ctx2 : Context) (pick2 : Bool)
    (hf : h.futs[id]? = some f) :
    future.Wait id ctx2 pick2 ((future.Wait id ctx1 pick1 h).2.applyAll ops) =
      (WaitOutcome.returned Val.nil (some ErrAlreadyDone),
        (future.Wait id ctx1 pick1 h).2.applyAll ops) := by
  obtain ⟨g, hg, hd⟩ := Wait_sets_done h id f ctx1 pick1 hf
  exact future_Wait_done _ id g ctx2 pick2 (applyAll_keeps_done ops _ id g hg hd) hd

/-- Claim C4: after `Complete(v, e)` has returned nil, `Future()` returns `Fixed(v, e)`
and changes neither the promise (no channel is registered) nor the heap, and
any number of `Wait` calls on that future, with any tokens, all return `(v, e)`. -/
theorem future_of_completed_promise (p p2 : promise) (h h2 h3 h4 : Heap) (v : Val) (e : error)
    (calls : List (Context × Bool)) (hc : p.Complete v e h = some (none, p2, h2)) :
    p2.Future h3 = (Fixed v e, p2, h3) ∧
      waitSeq (calls.map fun c => ((p2.Future h3).1, c.1, c.2)) h4 =
        (List.replicate calls.length (WaitOutcome.returned v e), h4) := by
  have hp2 : p2.result = some (newResult v e) := by
    unfold promise.Complete at hc
    cases hr : p.result with
    | some r => simp [hr] at hc
    | none =>
      simp only [hr] at hc
      cases hb : broadcast (newResult v e) p.cs h with
      | none => simp [hb] at hc
      | some hb1 =>
        simp only [hb, Option.some.injEq, Prod.mk.injEq, true_and] at hc
        rw [← hc.1]
  have hfut : p2.Future h3 = (Fixed v e, p2, h3) := by
    simp [promise.Future, hp2, newResult]
  refine ⟨hfut, ?_⟩
  rw [hfut]
  exact waitSeq_fixed v e calls h4

/-! ## Immediate futures -/

/-- Claim C5: `Wait` on `Fixed(v, err)` returns `(v, err)`, on `Success(v)` returns
`(v, nil)`, on `Failure(err)` returns `(nil, err)`, for every token and without
touching the heap; any sequence of `Wait` calls on the same immediate future
returns that same pair every time. -/
theorem fixed_wait_is_constant (v : Val) (err : error) (ctx : Context) (pick : Bool) (h : Heap)
    (calls : List (Context × Bool)) :
    (Fixed v err).Wait ctx pick h = (WaitOutcome.returned v err, h) ∧
      (Success v).Wait ctx pick h = (WaitOutcome.returned v none, h) ∧
      (Failure err).Wait ctx pick h = (WaitOutcome.returned Val.nil err, h) ∧
      waitSeq (calls.map fun c => (Fixed v err, c.1, c.2)) h =
        (List.replicate calls.length (WaitOutcome.returned v err), h) :=
  ⟨rfl, rfl, rfl, waitSeq_fixed v err calls h⟩

/-! ## Cancellation -/

/-- Claim C8: the first `Wait` on a channel-backed future whose channel is empty, with
a token that is already cancelled with error `e`, returns `(nil, e)`; it only
sets the `done` flag. -/
theorem wait_cancelled_on_empty (h : Heap) (id c cap : Nat) (e : ErrVal) (pick : Bool)
    (hf : h.futs[id]? = some ⟨c, 0⟩) (hc : h.chans[c]? = some ⟨cap, []⟩) :
    future.Wait id ⟨some e⟩ pick h =
      (WaitOutcome.returned Val.nil (some e), ⟨h.chans, h.futs.set id ⟨c, 1⟩⟩) := by
  simp [future.Wait, Heap.compareAndSwapDone, hf, future.select, Heap.recv, hc]

/-- Claim C10, as stated, fails: with the Result `(1, nil)` already on the channel and
the token cancelled before `Wait` is called, both `select` cases are ready, and
when the `select` takes `<-ctx.Done()` the call returns `(nil, context.Canceled)`
and leaves the Result unread. -/
theorem wait_cancelled_after_delivery_may_drop_result :
    let h : Heap := ⟨[⟨1, [⟨Val.int 1, none⟩]⟩], [⟨0, 0⟩]⟩
    h.futs[0]? = some ⟨0, 0⟩ ∧ h.chans[0]? = some ⟨1, [⟨Val.int 1, none⟩]⟩ ∧
      future.Wait 0 ⟨some ErrVal.canceled⟩ false h =
        (WaitOutcome.returned Val.nil (some ErrVal.canceled),
          ⟨[⟨1, [⟨Val.int 1, none⟩]⟩], [⟨0, 1⟩]⟩) ∧
      (future.Wait 0 ⟨some ErrVal.canceled⟩ false h).1 ≠
        WaitOutcome.returned (Val.int 1) none := by
  decide

/-- Claim C10, amended: with a Result `r` on the channel at the first `Wait`, the call
returns `r.V, r.Err` and consumes `r` when the token is not cancelled, or when
it is cancelled and the `select` takes the receive; when the token is cancelled
with `e` and the `select` takes `<-ctx.Done()`, the call returns `(nil, e)` and
`r` stays on the channel. -/
theorem wait_with_result_delivered (h : Heap) (id c cap : Nat) (r : Result)
    (rest : List Result) (ctx : Context) (pick : Bool)
    (hf : h.futs[id]? = some ⟨c, 0⟩) (hc : h.chans[c]? = some ⟨cap, r :: rest⟩) :
    future.Wait id ctx pick h =
      if ctx.Err = none ∨ pick = true then
        (WaitOutcome.returned r.V r.Err, ⟨h.chans.set c ⟨cap, rest⟩, h.futs.set id ⟨c, 1⟩⟩)
      else
        (WaitOutcome.returned Val.nil ctx.Err, ⟨h.chans, h.futs.set id ⟨c, 1⟩⟩) := by
  obtain ⟨err⟩ := ctx
  cases err with
  | none => simp [future.Wait, Heap.compareAndSwapDone, hf, future.select, Heap.recv, hc]
  | some e =>
    cases pick <;>
      simp [future.Wait, Heap.compareAndSwapDone, hf, future.select, Heap.recv, hc]

/-! ## The objects set up by `Go` -/

theorem getElem?_lt {α : Type} (l : List α) (i : Nat) (a : α) (h : l[i]? = some a) :
    i < l.length := by
  by_contra hge
  rw [List.getElem?_eq_none (by omega)] at h
  cases h

theorem spawn_inv (h : Heap) : (spawn h).Inv h.chans.length h.futs.length none := by
  simp [Spawned.Inv, spawn, promise.Future, NewPromise, Heap.makeChan, newFuture]

theorem Spawned.complete_of_pending (oc fid : Nat) (o : Spawned) (v : Val) (e : error)
    (hi : o.Inv oc fid none) : (o.complete v e).Inv oc fid (some ⟨v, e⟩) := by
  obtain ⟨ht, hp, hfut, hc, hcase⟩ := hi
  have hs : o.h.send oc ⟨v, e⟩ = some ⟨o.h.chans.set oc ⟨1, [⟨v, e⟩]⟩, o.h.futs⟩ :=
    send_empty o.h oc 1 _ hc (by decide)
  have hlt := getElem?_lt _ _ _ hc
  have hcomp : o.complete v e =
      { o with h := ⟨o.h.chans.set oc ⟨1, [⟨v, e⟩]⟩, o.h.futs⟩, p := ⟨[oc], some ⟨v, e⟩⟩,
               task := Task.finished } := by
    simp [Spawned.complete, ht, hp, promise.Complete, broadcast, newResult, hs]
  rw [hcomp]
  refine ⟨rfl, rfl, hfut, ?_⟩
  rcases hcase with ⟨hw, hf⟩ | ⟨hw, hf⟩
  · exact Or.inl ⟨hw, hf, by simp [hlt]⟩
  · exact Or.inr (Or.inl ⟨hw, hf, by simp [hlt]⟩)

theorem Spawned.complete_of_done (oc fid : Nat) (o : Spawned) (r : Result) (v : Val) (e : error)
    (hi : o.Inv oc fid (some r)) : o.complete v e = o := by
  simp [Spawned.complete, hi.1]

theorem Spawned.wait_inv (oc fid : Nat) (o : Spawned) (x : Option Result) (pick : Bool)
    (hi : o.Inv oc fid x) : (o.wait pick).Inv oc fid x := by
  cases x with
  | none =>
    obtain ⟨ht, hp, hfut, hc, hcase⟩ := hi
    rcases hcase with ⟨hw, hf⟩ | ⟨hw, hf⟩
    · have hlt := getElem?_lt _ _ _ hf
      refine ⟨ht, hp, hfut, ?_, Or.inr ⟨?_, ?_⟩⟩ <;>
        simp [Spawned.wait, hw, hfut, Waiter.step, Heap.compareAndSwapDone, hf, hc, hlt]
    · refine ⟨ht, hp, hfut, ?_, Or.inr ⟨?_, ?_⟩⟩ <;>
        simp [Spawned.wait, hw, hfut, Waiter.step, hf, future.select, Heap.recv, hc,
          Context.Background]
  | some r =>
    obtain ⟨ht, hp, hfut, hcase⟩ := hi
    rcases hcase with ⟨hw, hf, hc⟩ | ⟨hw, hf, hc⟩ | ⟨hw, hf, hc⟩
    · have hlt := getElem?_lt _ _ _ hf
      refine ⟨ht, hp, hfut, Or.inr (Or.inl ⟨?_, ?_, ?_⟩)⟩ <;>
        simp [Spawned.wait, hw, hfut, Waiter.step, Heap.compareAndSwapDone, hf, hc, hlt]
    · have hlt := getElem?_lt _ _ _ hc
      refine ⟨ht, hp, hfut, Or.inr (Or.inr ⟨?_, ?_, ?_⟩)⟩ <;>
        simp [Spawned.wait, hw, hfut, Waiter.step, hf, future.select, Heap.recv, hc,
          Context.Background, hlt]
    · refine ⟨ht, hp, hfut, Or.inr (Or.inr ⟨?_, ?_, ?_⟩)⟩ <;>
        simp [Spawned.wait, hw, hfut, Waiter.step, hf, hc]

theorem Spawned.wait_got (o : Spawned) (v : Val) (e : error) (pick : Bool)
    (hg : o.caller = Waiter.got v e) : (o.wait pick).caller = Waiter.got v e := by
  simp [Spawned.wait, hg, Waiter.step]

theorem Spawned.got_of_inv (oc fid : Nat) (o : Spawned) (x : Option Result) (v : Val)
    (e : error) (hi : o.Inv oc fid x) (hg : o.caller = Waiter.got v e) : x = some ⟨v, e⟩ := by
  cases x with
  | none =>
    obtain ⟨-, -, -, -, hcase⟩ := hi
    rcases hcase with ⟨hw, -⟩ | ⟨hw, -⟩ <;> rw [hw] at hg <;> cases hg
  | some r =>
    obtain ⟨-, -, -, hcase⟩ := hi
    rcases hcase with ⟨hw, -⟩ | ⟨hw, -⟩ | ⟨hw, -⟩ <;> rw [hw] at hg <;> cases hg
    rfl

theorem Spawned.task_of_inv (oc fid : Nat) (o : Spawned) (x : Option Result)
    (hi : o.Inv oc fid x) : o.task = Task.pending ∨ o.task = Task.finished := by
  cases x with
  | none => exact Or.inl hi.1
  | some r => exact Or.inr hi.1

/-- A change of the heap that leaves the promise's channel and the returned
future as they are keeps the invariant. -/
theorem Spawned.frame (oc fid : Nat) (o : Spawned) (x : Option Result) (h1 : Heap)
    (hi : o.Inv oc fid x) (hc : h1.chans[oc]? = o.h.chans[oc]?)
    (hf : h1.futs[fid]? = o.h.futs[fid]?) : Spawned.Inv oc fid { o with h := h1 } x := by
  cases x with
  | none => simpa [Spawned.Inv, hc, hf] using hi
  | some r => simpa [Spawned.Inv, hc, hf] using hi

/-! ## Heap operations of other goroutines -/

theorem apply_frame (h : Heap) (op : HeapOp) (oc fid : Nat)
    (hav : op.avoids [oc] (Future.ptr fid) = true) (hoc : oc < h.chans.length)
    (hfid : fid < h.futs.length) :
    (h.apply op).chans[oc]? = h.chans[oc]? ∧ (h.apply op).futs[fid]? = h.futs[fid]? := by
  cases op with
  | makeChan cap =>
    show (h.chans ++ [⟨cap, []⟩])[oc]? = h.chans[oc]? ∧ h.futs[fid]? = h.futs[fid]?
    exact ⟨List.getElem?_append_left hoc, rfl⟩
  | newFuture c =>
    show h.chans[oc]? = h.chans[oc]? ∧ (h.futs ++ [⟨c, 0⟩])[fid]? = h.futs[fid]?
    exact ⟨rfl, List.getElem?_append_left hfid⟩
  | send c r =>
    simp only [HeapOp.avoids, List.mem_singleton, decide_eq_true_eq] at hav
    simp only [Heap.apply]
    cases hs : h.send c r with
    | none => exact ⟨rfl, rfl⟩
    | some h1 =>
      obtain ⟨ch, _, _, rfl⟩ := send_some h c r h1 hs
      exact ⟨List.getElem?_set_ne hav, rfl⟩
  | recv c =>
    simp only [HeapOp.avoids, List.mem_singleton, decide_eq_true_eq] at hav
    simp only [Heap.apply]
    cases hr : h.recv c with
    | none => exact ⟨rfl, rfl⟩
    | some rh =>
      obtain ⟨r, h1⟩ := rh
      obtain ⟨cap, rest, _, rfl⟩ := recv_some h c r h1 hr
      exact ⟨List.getElem?_set_ne hav, rfl⟩
  | cas id =>
    simp only [HeapOp.avoids, decide_eq_true_eq, ne_eq, Future.ptr.injEq] at hav
    simp only [Heap.apply]
    cases hc : h.compareAndSwapDone id 0 1 with
    | none => exact ⟨rfl, rfl⟩
    | some bh =>
      obtain ⟨b, h1⟩ := bh
      obtain ⟨f2, hf2, hcase | hcase⟩ := cas_some h id b h1 hc
      · obtain ⟨-, -, rfl⟩ := hcase
        exact ⟨rfl, List.getElem?_set_ne (fun hx => hav hx.symm)⟩
      · obtain ⟨-, -, rfl⟩ := hcase
        exact ⟨rfl, rfl⟩

theorem apply_foreign (h : Heap) (op : HeapOp) (oc fid : Nat)
    (hav : op.avoids [oc] (Future.ptr fid) = true) (hfid : fid < h.futs.length)
    (hfor : h.Foreign oc fid) : (h.apply op).Foreign oc fid := by
  intro id g hid hg
  cases op with
  | makeChan cap => exact hfor id g hid hg
  | newFuture c =>
    simp only [HeapOp.avoids, List.mem_singleton, decide_eq_true_eq] at hav
    simp only [Heap.apply, newFuture] at hg
    by_cases hlt : id < h.futs.length
    · rw [List.getElem?_append_left hlt] at hg
      exact hfor id g hid hg
    · rw [List.getElem?_append_right (by omega)] at hg
      have hg2 := hg
      rw [List.getElem?_eq_some_iff] at hg2
      obtain ⟨_, hg3⟩ := hg2
      simp only [List.getElem_singleton] at hg3
      rw [← hg3]
      exact hav
  | send c r =>
    simp only [Heap.apply] at hg
    cases hs : h.send c r with
    | none => rw [hs] at hg; exact hfor id g hid hg
    | some h1 =>
      obtain ⟨ch, _, _, rfl⟩ := send_some h c r h1 hs
      rw [hs] at hg
      exact hfor id g hid hg
  | recv c =>
    simp only [Heap.apply] at hg
    cases hr : h.recv c with
    | none => rw [hr] at hg; exact hfor id g hid hg
    | some rh =>
      obtain ⟨r, h1⟩ := rh
      obtain ⟨cap, rest, _, rfl⟩ := recv_some h c r h1 hr
      rw [hr] at hg
      exact hfor id g hid hg
  | cas id2 =>
    simp only [Heap.apply] at hg
    cases hc : h.compareAndSwapDone id2 0 1 with
    | none => rw [hc] at hg; exact hfor id g hid hg
    | some bh =>
      obtain ⟨b, h1⟩ := bh
      rw [hc] at hg
      obtain ⟨f2, hf2, hcase | hcase⟩ := cas_some h id2 b h1 hc
      · obtain ⟨-, -, rfl⟩ := hcase
        simp only [] at hg
        by_cases hidd : id2 = id
        · subst hidd
          rw [List.getElem?_set_self (getElem?_lt _ _ _ hf2)] at hg
          cases hg
          exact hfor id2 f2 hid hf2
        · rw [List.getElem?_set_ne hidd] at hg
          exact hfor id g hid hg
      · obtain ⟨-, -, rfl⟩ := hcase
        exact hfor id g hid hg

theorem Spawned.env_inv (oc fid : Nat) (o : Spawned) (x : Option Result) (op : HeapOp)
    (hi : o.Inv oc fid x) : (o.env op).Inv oc fid x := by
  have hp : o.p.cs = [oc] ∧ o.fut = Future.ptr fid ∧ oc < o.h.chans.length ∧
      fid < o.h.futs.length := by
    cases x with
    | none =>
      obtain ⟨-, hp, hfut, hc, hcase⟩ := hi
      refine ⟨by rw [hp], hfut, getElem?_lt _ _ _ hc, ?_⟩
      rcases hcase with ⟨-, hf⟩ | ⟨-, hf⟩ <;> exact getElem?_lt _ _ _ hf
    | some r =>
      obtain ⟨-, hp, hfut, hcase⟩ := hi
      refine ⟨by rw [hp], hfut, ?_⟩
      rcases hcase with ⟨-, hf, hc⟩ | ⟨-, hf, hc⟩ | ⟨-, hf, hc⟩ <;>
        exact ⟨getElem?_lt _ _ _ hc, getElem?_lt _ _ _ hf⟩
  obtain ⟨hcs, hfut, hoc, hfid⟩ := hp
  unfold Spawned.env
  by_cases hav : op.avoids o.p.cs o.fut = true
  · rw [if_pos hav]
    rw [hcs, hfut] at hav
    obtain ⟨hc, hf⟩ := apply_frame o.h op oc fid hav hoc hfid
    exact Spawned.frame oc fid o x _ hi hc hf
  · rw [if_neg hav]
    exact hi

theorem Spawned.env_foreign (oc fid : Nat) (o : Spawned) (x : Option Result) (op : HeapOp)
    (hi : o.Inv oc fid x) (hfor : o.h.Foreign oc fid) : (o.env op).h.Foreign oc fid := by
  have hp : o.p.cs = [oc] ∧ o.fut = Future.ptr fid ∧ fid < o.h.futs.length := by
    cases x with
    | none =>
      obtain ⟨-, hp, hfut, hc, hcase⟩ := hi
      refine ⟨by rw [hp], hfut, ?_⟩
      rcases hcase with ⟨-, hf⟩ | ⟨-, hf⟩ <;> exact getElem?_lt _ _ _ hf
    | some r =>
      obtain ⟨-, hp, hfut, hcase⟩ := hi
      refine ⟨by rw [hp], hfut, ?_⟩
      rcases hcase with ⟨-, hf, hc⟩ | ⟨-, hf, hc⟩ | ⟨-, hf, hc⟩ <;>
        exact getElem?_lt _ _ _ hf
  obtain ⟨hcs, hfut, hfid⟩ := hp
  unfold Spawned.env
  by_cases hav : op.avoids o.p.cs o.fut = true
  · rw [if_pos hav]
    rw [hcs, hfut] at hav
    exact apply_foreign o.h op oc fid hav hfid hfor
  · rw [if_neg hav]
    exact hfor

/-! ## Progress along a schedule -/

/-- Milestones `φ 0, φ 1, ...` that no move undoes and that the moves of `req`
reach one after the other are all reached by every schedule that contains
`req` as a subsequence. -/
theorem sublist_progress {σ α : Type} (step : σ → α → σ) (φ : Nat → σ → Prop) (req : List α)
    (hstable : ∀ k s a, φ k s → φ k (step s a))
    (hadv : ∀ k s (hk : k < req.length), φ k s → φ (k + 1) (step s req[k])) :
    ∀ (sched : List α) (k : Nat) (s : σ), k ≤ req.length → (req.drop k).Sublist sched →
      φ k s → φ req.length (sched.foldl step s) := by
  intro sched
  induction sched with
  | nil =>
    intro k s hk hsub hφ
    have hnil : req.drop k = [] := List.sublist_nil.1 hsub
    have hk2 : req.length ≤ k := List.drop_eq_nil_iff.1 hnil
    have hkeq : k = req.length := by omega
    subst hkeq
    exact hφ
  | cons a sched ih =>
    intro k s hk hsub hφ
    rw [List.foldl_cons]
    rcases List.sublist_cons_iff.1 hsub with h1 | ⟨r, hr, h2⟩
    · exact ih k _ hk h1 (hstable k s a hφ)
    · have hlt : k < req.length := by
        by_contra hge
        rw [List.drop_eq_nil_of_le (by omega)] at hr
        cases hr
      rw [List.drop_eq_getElem_cons hlt] at hr
      injection hr with ha ht
      subst ha
      exact ih (k + 1) _ hlt (ht ▸ h2) (hadv k s hlt hφ)

theorem GoState.go_run_eq_foldl (sched : List GoStep) :
    ∀ s : GoState, s.run sched = sched.foldl GoState.step s := by
  induction sched with
  | nil => intro s; rfl
  | cons st sched ih => intro s; exact ih (s.step st)

theorem Waiter.got_of_rank (w : Waiter) (h : 2 ≤ w.rank) : ∃ v e, w = Waiter.got v e := by
  cases w with
  | idle => simp [Waiter.rank] at h
  | inSelect => simp [Waiter.rank] at h
  | got v e => exact ⟨v, e, rfl⟩

theorem Spawned.wait_rank_mono (oc fid : Nat) (o : Spawned) (x : Option Result) (pick : Bool)
    (hi : o.Inv oc fid x) : o.caller.rank ≤ (o.wait pick).caller.rank := by
  cases x with
  | none =>
    obtain ⟨-, -, hfut, hc, hcase⟩ := hi
    rcases hcase with ⟨hw, hf⟩ | ⟨hw, hf⟩
    · rw [hw]
      exact Nat.zero_le _
    · simp [Spawned.wait, hw, hfut, Waiter.step, hf, future.select, Heap.recv, hc,
        Context.Background, Waiter.rank]
  | some r =>
    obtain ⟨-, -, hfut, hcase⟩ := hi
    rcases hcase with ⟨hw, hf, hc⟩ | ⟨hw, hf, hc⟩ | ⟨hw, hf, hc⟩
    · rw [hw]
      exact Nat.zero_le _
    · have hlt := getElem?_lt _ _ _ hc
      simp [Spawned.wait, hw, hfut, Waiter.step, hf, future.select, Heap.recv, hc,
        Context.Background, hlt, Waiter.rank]
    · rw [Spawned.wait_got o _ _ pick hw, hw]

theorem Spawned.wait_rank_done (oc fid : Nat) (o : Spawned) (r : Result) (pick : Bool)
    (hi : o.Inv oc fid (some r)) :
    min 2 (o.caller.rank + 1) ≤ (o.wait pick).caller.rank := by
  obtain ⟨-, -, hfut, hcase⟩ := hi
  rcases hcase with ⟨hw, hf, hc⟩ | ⟨hw, hf, hc⟩ | ⟨hw, hf, hc⟩
  · have hlt := getElem?_lt _ _ _ hf
    simp [Spawned.wait, hw, hfut, Waiter.step, Heap.compareAndSwapDone, hf, hlt, Waiter.rank]
  · have hlt := getElem?_lt _ _ _ hc
    simp [Spawned.wait, hw, hfut, Waiter.step, hf, future.select, Heap.recv, hc,
      Context.Background, hlt, Waiter.rank]
  · rw [Spawned.wait_got o _ _ pick hw]
    simp [Waiter.rank]

theorem Spawned.complete_caller (o : Spawned) (v : Val) (e : error) :
    (o.complete v e).caller = o.caller := by
  unfold Spawned.complete
  repeat' split
  all_goals rfl

theorem Spawned.env_caller (o : Spawned) (op : HeapOp) : (o.env op).caller = o.caller := by
  unfold Spawned.env
  split <;> rfl

/-! ## `Go` -/

theorem GoState.go_step_inv (oc fid : Nat) (s : GoState) (st : GoStep) (x : Option Result)
    (hi : s.o.Inv oc fid x) (hx : x = none ∨ x = some ⟨(s.f ()).1, (s.f ()).2⟩) :
    (s.step st).f = s.f ∧ ∃ y, (s.step st).o.Inv oc fid y ∧
      (y = none ∨ y = some ⟨(s.f ()).1, (s.f ()).2⟩) := by
  refine ⟨by cases st <;> rfl, ?_⟩
  cases st with
  | task =>
    rcases hx with rfl | rfl
    · exact ⟨_, Spawned.complete_of_pending oc fid s.o _ _ hi, Or.inr rfl⟩
    · refine ⟨_, ?_, Or.inr rfl⟩
      simp only [GoState.step]
      rw [Spawned.complete_of_done oc fid s.o _ _ _ hi]
      exact hi
  | wait pick => exact ⟨x, Spawned.wait_inv oc fid s.o x pick hi, hx⟩
  | env op => exact ⟨x, Spawned.env_inv oc fid s.o x op hi, hx⟩

theorem GoState.go_run_inv (oc fid : Nat) : ∀ (sched : List GoStep) (s : GoState)
    (x : Option Result), s.o.Inv oc fid x → (x = none ∨ x = some ⟨(s.f ()).1, (s.f ()).2⟩) →
    (s.run sched).f = s.f ∧ ∃ y, (s.run sched).o.Inv oc fid y ∧
      (y = none ∨ y = some ⟨(s.f ()).1, (s.f ()).2⟩) := by
  intro sched
  induction sched with
  | nil => intro s x hi hx; exact ⟨rfl, x, hi, hx⟩
  | cons st sched ih =>
    intro s x hi hx
    obtain ⟨hf, y, hy, hyx⟩ := GoState.go_step_inv oc fid s st x hi hx
    obtain ⟨hf2, z, hz, hzx⟩ := ih (s.step st) y hy (by rw [hf]; exact hyx)
    exact ⟨by rw [← hf]; exact hf2, z, hz, by rw [← hf]; exact hzx⟩

theorem GoState.go_run_append (s : GoState) (a b : List GoStep) :
    s.run (a ++ b) = (s.run a).run b := by
  induction a generalizing s with
  | nil => rfl
  | cons st a ih => exact ih (s.step st)

theorem GoState.progress (oc fid : Nat) (f : Unit → Val × error) (p1 p2 : Bool)
    (sched : List GoStep) (s : GoState) (x : Option Result)
    (hfair : [GoStep.task, GoStep.wait p1, GoStep.wait p2].Sublist sched)
    (hf : s.f = f) (hi : s.o.Inv oc fid x) (hx : x = none ∨ x = some ⟨(f ()).1, (f ()).2⟩) :
    (s.run sched).o.Inv oc fid (some ⟨(f ()).1, (f ()).2⟩) ∧
      (s.run sched).o.caller = Waiter.got (f ()).1 (f ()).2 := by
  have key := sublist_progress GoState.step
    (fun k t => t.f = f ∧ ∃ y, t.o.Inv oc fid y ∧ (y = none ∨ y = some ⟨(f ()).1, (f ()).2⟩) ∧
      (1 ≤ k → y = some ⟨(f ()).1, (f ()).2⟩) ∧ (2 ≤ k → 1 ≤ t.o.caller.rank) ∧
      (3 ≤ k → 2 ≤ t.o.caller.rank))
    [GoStep.task, GoStep.wait p1, GoStep.wait p2]
    (by
      intro k t a ⟨htf, y, hy, hyx, h1, h2, h3⟩
      cases a with
      | task =>
        refine ⟨htf, ?_⟩
        rcases hyx with rfl | rfl
        · exact ⟨_, by simp only [GoState.step, htf]; exact Spawned.complete_of_pending oc fid t.o _ _ hy,
            Or.inr rfl, fun _ => rfl,
            by simp only [GoState.step]; rw [Spawned.complete_caller]; exact h2,
            by simp only [GoState.step]; rw [Spawned.complete_caller]; exact h3⟩
        · refine ⟨_, ?_, Or.inr rfl, fun _ => rfl, ?_, ?_⟩
          · simp only [GoState.step]
            rw [Spawned.complete_of_done oc fid t.o _ _ _ hy]
            exact hy
          · simp only [GoState.step]; rw [Spawned.complete_caller]; exact h2
          · simp only [GoState.step]; rw [Spawned.complete_caller]; exact h3
      | wait pick =>
        have hm := Spawned.wait_rank_mono oc fid t.o y pick hy
        exact ⟨htf, y, Spawned.wait_inv oc fid t.o y pick hy, hyx, h1,
          fun hk => Nat.le_trans (h2 hk) hm, fun hk => Nat.le_trans (h3 hk) hm⟩
      | env op =>
        exact ⟨htf, y, Spawned.env_inv oc fid t.o y op hy, hyx, h1,
          by simp only [GoState.step]; rw [Spawned.env_caller]; exact h2,
          by simp only [GoState.step]; rw [Spawned.env_caller]; exact h3⟩)
    (by
      intro k t hk ⟨htf, y, hy, hyx, h1, h2, h3⟩
      simp only [List.length_cons, List.length_nil] at hk
      have hk3 : k = 0 ∨ k = 1 ∨ k = 2 := by omega
      rcases hk3 with rfl | rfl | rfl
      · refine ⟨htf, ?_⟩
        rcases hyx with rfl | rfl
        · exact ⟨_, by simp only [List.getElem_cons_zero, GoState.step, htf]
                       exact Spawned.complete_of_pending oc fid t.o _ _ hy,
            Or.inr rfl, fun _ => rfl, fun hc => absurd hc (by omega),
            fun hc => absurd hc (by omega)⟩
        · refine ⟨_, ?_, Or.inr rfl, fun _ => rfl, fun hc => absurd hc (by omega),
            fun hc => absurd hc (by omega)⟩
          simp only [List.getElem_cons_zero, GoState.step]
          rw [Spawned.complete_of_done oc fid t.o _ _ _ hy]
          exact hy
      · have hy1 := h1 (by omega)
        subst hy1
        have hd := Spawned.wait_rank_done oc fid t.o _ p1 hy
        refine ⟨htf, _, Spawned.wait_inv oc fid t.o _ p1 hy, Or.inr rfl, fun _ => rfl, ?_,
          fun hc => absurd hc (by omega)⟩
        intro _
        show 1 ≤ (t.o.wait p1).caller.rank
        omega
      · have hy1 := h1 (by omega)
        subst hy1
        have hd := Spawned.wait_rank_done oc fid t.o _ p2 hy
        have h21 := h2 (by omega)
        refine ⟨htf, _, Spawned.wait_inv oc fid t.o _ p2 hy, Or.inr rfl, fun _ => rfl, ?_, ?_⟩
        · intro _
          show 1 ≤ (t.o.wait p2).caller.rank
          omega
        · intro _
          show 2 ≤ (t.o.wait p2).caller.rank
          omega)
    sched 0 s (Nat.zero_le _) hfair
    ⟨hf, x, hi, hx, fun hc => absurd hc (by omega), fun hc => absurd hc (by omega),
      fun hc => absurd hc (by omega)⟩
  rw [← GoState.go_run_eq_foldl] at key
  obtain ⟨-, y, hy, -, h1, -, h3⟩ := key
  have hy1 := h1 (by simp)
  subst hy1
  obtain ⟨v, e, hg⟩ := Waiter.got_of_rank _ (h3 (by simp))
  have := Spawned.got_of_inv oc fid _ _ v e hy hg
  cases this
  exact ⟨hy, hg⟩

/-- Claim C9: around `Go(f)`, under every schedule of the goroutine, the caller and
the rest of the program, the call of `Complete` never fails or blocks (the
goroutine is before it or past it with nil, never in the `panic` branch), and
a `Wait` with a never-cancelled token that has returned has returned exactly
`f()`; and under every continuation in which the goroutine moves and the
caller then moves twice, whatever else happens in between, the `Wait` has
returned `f()` and `Complete` has returned nil. -/
theorem go_wait_returns_result (f : Unit → Val × error) (h : Heap)
    (sched sched2 : List GoStep) (p1 p2 : Bool)
    (hfair : [GoStep.task, GoStep.wait p1, GoStep.wait p2].Sublist sched2) :
    (((Go f h).run sched).o.task = Task.pending ∨
        ((Go f h).run sched).o.task = Task.finished) ∧
      (∀ v e, ((Go f h).run sched).o.caller = Waiter.got v e → (v, e) = f ()) ∧
      ((Go f h).run (sched ++ sched2)).o.caller = Waiter.got (f ()).1 (f ()).2 ∧
      ((Go f h).run (sched ++ sched2)).o.task = Task.finished := by
  obtain ⟨hf, y, hy, hyx⟩ := GoState.go_run_inv h.chans.length h.futs.length sched (Go f h) none
    (spawn_inv h) (Or.inl rfl)
  have hf0 : (Go f h).f = f := rfl
  rw [hf0] at hf hyx
  refine ⟨Spawned.task_of_inv _ _ _ _ hy, ?_, ?_⟩
  · intro v e hg
    have := Spawned.got_of_inv _ _ _ _ v e hy hg
    rcases hyx with rfl | rfl
    · cases this
    · cases this
      rfl
  · rw [GoState.go_run_append]
    obtain ⟨hdone, hgot⟩ := GoState.progress h.chans.length h.futs.length f p1 p2 sched2 _ y
      hfair hf hy hyx
    exact ⟨hgot, hdone.1⟩

/-- A concrete run for C9: the caller enters its `Wait` first, another goroutine
allocates a channel, the goroutine of `Go` completes, and the caller receives. -/
theorem go_wait_returns_result_witness :
    [GoStep.task, GoStep.wait true, GoStep.wait false].Sublist
        [GoStep.wait true, GoStep.env (HeapOp.makeChan 1), GoStep.task, GoStep.wait true,
          GoStep.wait false] ∧
      ((Go (fun _ => (Val.int 1, some (ErrVal.other 0))) ⟨[], []⟩).run
        ([] ++ [GoStep.wait true, GoStep.env (HeapOp.makeChan 1), GoStep.task, GoStep.wait true,
          GoStep.wait false])).o.caller = Waiter.got (Val.int 1) (some (ErrVal.other 0)) :=
  ⟨by decide,
    (go_wait_returns_result (fun _ => (Val.int 1, some (ErrVal.other 0))) ⟨[], []⟩ []
      [GoStep.wait true, GoStep.env (HeapOp.makeChan 1), GoStep.task, GoStep.wait true,
        GoStep.wait false] true false (by decide)).2.2.1⟩

/-! ## `Any`: the heap under the workers -/

theorem select_heap (c : Nat) (ctx : Context) (pick : Bool) (h : Heap) :
    (future.select c ctx pick h).2 = h ∨
      (future.select c ctx pick h).2 = h.apply (HeapOp.recv c) := by
  unfold future.select
  cases hr : h.recv c with
  | none => cases ctx.Err <;> exact Or.inl rfl
  | some rh =>
    obtain ⟨r, h1⟩ := rh
    cases ctx.Err with
    | none => exact Or.inr (by simp [Heap.apply, hr])
    | some e =>
      cases pick
      · exact Or.inl rfl
      · exact Or.inr (by simp [Heap.apply, hr])

theorem Waiter.step_heap (w : Waiter) (f : Future) (ctx : Context) (pick : Bool) (h : Heap)
    (oc fid : Nat) (hne : f ≠ Future.ptr fid) (hfor : h.Foreign oc fid) :
    (w.step f ctx pick h).2 = h ∨
      ∃ op, op.avoids [oc] (Future.ptr fid) = true ∧ (w.step f ctx pick h).2 = h.apply op := by
  cases w with
  | got v e => exact Or.inl rfl
  | idle =>
    cases f with
    | fixed ff => exact Or.inl rfl
    | ptr id =>
      refine Or.inr ⟨HeapOp.cas id, ?_, ?_⟩
      · simp only [HeapOp.avoids, decide_eq_true_eq]
        exact fun hx => hne hx.symm
      · simp only [Waiter.step, Heap.apply]
        cases h.compareAndSwapDone id 0 1 with
        | none => rfl
        | some bh =>
          obtain ⟨b, h1⟩ := bh
          cases b <;> rfl
  | inSelect =>
    cases f with
    | fixed ff => exact Or.inl rfl
    | ptr id =>
      simp only [Waiter.step]
      cases hf : h.futs[id]? with
      | none => exact Or.inl rfl
      | some fu =>
        have hc : fu.c ≠ oc := hfor id fu (fun hx => hne (by rw [hx])) hf
        have hsel := select_heap fu.c ctx pick h
        have hres : ∀ (x : WaitOutcome × Heap),
            (match x with
              | (WaitOutcome.returned v e, h1) => (Waiter.got v e, h1)
              | (WaitOutcome.blocked, h1) => (Waiter.inSelect, h1)).2 = x.2 := by
          intro x
          obtain ⟨out, h1⟩ := x
          cases out <;> rfl
        simp only []
        rw [hres]
        rcases hsel with hsel | hsel
        · exact Or.inl hsel
        · exact Or.inr ⟨HeapOp.recv fu.c, by simpa [HeapOp.avoids] using hc, hsel⟩

theorem Waiter.step_frame (w : Waiter) (f : Future) (ctx : Context) (pick : Bool) (h : Heap)
    (oc fid : Nat) (hne : f ≠ Future.ptr fid) (hfor : h.Foreign oc fid)
    (hoc : oc < h.chans.length) (hfid : fid < h.futs.length) :
    (w.step f ctx pick h).2.chans[oc]? = h.chans[oc]? ∧
      (w.step f ctx pick h).2.futs[fid]? = h.futs[fid]? ∧
      (w.step f ctx pick h).2.Foreign oc fid := by
  rcases Waiter.step_heap w f ctx pick h oc fid hne hfor with heq | ⟨op, hav, heq⟩
  · rw [heq]
    exact ⟨rfl, rfl, hfor⟩
  · rw [heq]
    obtain ⟨hc, hf⟩ := apply_frame h op oc fid hav hoc hfid
    exact ⟨hc, hf, apply_foreign h op oc fid hav hfid hfor⟩

theorem Spawned.bounds (oc fid : Nat) (o : Spawned) (x : Option Result)
    (hi : o.Inv oc fid x) : oc < o.h.chans.length ∧ fid < o.h.futs.length := by
  cases x with
  | none =>
    obtain ⟨-, -, -, hc, hcase⟩ := hi
    refine ⟨getElem?_lt _ _ _ hc, ?_⟩
    rcases hcase with ⟨-, hf⟩ | ⟨-, hf⟩ <;> exact getElem?_lt _ _ _ hf
  | some r =>
    obtain ⟨-, -, -, hcase⟩ := hi
    rcases hcase with ⟨-, hf, hc⟩ | ⟨-, hf, hc⟩ | ⟨-, hf, hc⟩ <;>
      exact ⟨getElem?_lt _ _ _ hc, getElem?_lt _ _ _ hf⟩

theorem foreign_of_futs (h h1 : Heap) (oc fid : Nat) (hfor : h.Foreign oc fid)
    (hf : ∀ id, id ≠ fid → h1.futs[id]? = h.futs[id]?) : h1.Foreign oc fid := by
  intro id g hid hg
  rw [hf id hid] at hg
  exact hfor id g hid hg

theorem Spawned.complete_futs (oc fid : Nat) (o : Spawned) (x : Option Result) (v : Val)
    (e : error) (hi : o.Inv oc fid x) : (o.complete v e).h.futs = o.h.futs := by
  cases x with
  | some r => rw [Spawned.complete_of_done oc fid o r v e hi]
  | none =>
    obtain ⟨ht, hp, hfut, hc, hcase⟩ := hi
    have hs : o.h.send oc ⟨v, e⟩ = some ⟨o.h.chans.set oc ⟨1, [⟨v, e⟩]⟩, o.h.futs⟩ :=
      send_empty o.h oc 1 _ hc (by decide)
    simp [Spawned.complete, ht, hp, promise.Complete, broadcast, newResult, hs]

theorem Spawned.wait_foreign (oc fid : Nat) (o : Spawned) (x : Option Result) (pick : Bool)
    (hi : o.Inv oc fid x) (hfor : o.h.Foreign oc fid) : (o.wait pick).h.Foreign oc fid := by
  have hfut : o.fut = Future.ptr fid := by
    cases x with
    | none => exact hi.2.2.1
    | some r => exact hi.2.2.1
  apply foreign_of_futs o.h _ oc fid hfor
  intro id hid
  simp only [Spawned.wait, hfut]
  cases o.caller with
  | got v e => rfl
  | idle =>
    simp only [Waiter.step]
    cases hc : o.h.compareAndSwapDone fid 0 1 with
    | none => rfl
    | some bh =>
      obtain ⟨b, h1⟩ := bh
      obtain ⟨f2, hf2, hcase | hcase⟩ := cas_some o.h fid b h1 hc
      · obtain ⟨-, rfl, rfl⟩ := hcase
        exact List.getElem?_set_ne (fun hx => hid hx.symm)
      · obtain ⟨-, rfl, rfl⟩ := hcase
        rfl
  | inSelect =>
    simp only [Waiter.step]
    cases hf : o.h.futs[fid]? with
    | none => rfl
    | some fu =>
      have hsel := select_futs fu.c Context.Background pick o.h
      simp only []
      generalize future.select fu.c Context.Background pick o.h = x at hsel
      obtain ⟨out, h1⟩ := x
      simp only at hsel
      cases out <;> simp [hsel]

/-! ## `Any`: the race -/

theorem firstOk_append (arr : List (Nat × Result)) (i : Nat) (r : Result) :
    firstOk (arr ++ [(i, r)]) = (firstOk arr).or (if r.Err = none then some r else none) := by
  unfold firstOk
  rw [List.map_append, List.find?_append]
  congr 1
  cases hr : r.Err <;> simp [List.find?, hr]

theorem lastErr_append (arr : List (Nat × Result)) (i : Nat) (r : Result) :
    lastErr (arr ++ [(i, r)]) = r.Err := by
  simp [lastErr, List.getLast?_concat]

theorem count_sent_set (ws : List Worker) (i : Nat) (old new : Worker)
    (h : ws[i]? = some old) (hold : old ≠ Worker.sent) :
    (ws.set i new).count Worker.sent =
      ws.count Worker.sent + (if new = Worker.sent then 1 else 0) := by
  obtain ⟨hlt, hget⟩ := List.getElem?_eq_some_iff.1 h
  rw [List.count_set _ _ _ _ hlt, hget]
  have h1 : (old == Worker.sent) = false := by simpa using hold
  rw [h1]
  by_cases hn : new = Worker.sent
  · simp [hn]
  · have h2 : (new == Worker.sent) = false := by simpa using hn
    simp [h2, hn]

theorem getElem?_set_some {α : Type} (l : List α) (i j : Nat) (a b : α)
    (h : (l.set i a)[j]? = some b) : (j = i ∧ b = a) ∨ (j ≠ i ∧ l[j]? = some b) := by
  by_cases hji : j = i
  · subst hji
    have hlt : j < l.length := by
      have := getElem?_lt _ _ _ h
      simpa using this
    rw [List.getElem?_set_self hlt] at h
    cases h
    exact Or.inl ⟨rfl, rfl⟩
  · rw [List.getElem?_set_ne (fun hx => hji hx.symm)] at h
    exact Or.inr ⟨hji, h⟩

theorem AnyState.quit_inv (fs : List Future) (oc fid : Nat) (s : AnyState) (i : Nat)
    (r : Result) (hi : s.Inv fs oc fid) (hwi : s.workers[i]? = some (Worker.sending r)) :
    AnyState.Inv fs oc fid { s with workers := s.workers.set i Worker.quit } := by
  refine ⟨hi.hfs, by simpa using hi.hlen, ?_, hi.hloop, ?_, ?_, hi.hidx, hi.hout, hi.hforeign,
    hi.hptr⟩
  · simp only []
    rw [count_sent_set _ _ _ _ hwi (by simp)]
    simpa using hi.hcount
  · intro j v e hj
    rcases getElem?_set_some _ _ _ _ _ hj with ⟨-, hq⟩ | ⟨-, hold⟩
    · cases hq
    · exact hi.hwait j v e hold
  · intro j r2 ff hf hcase
    rcases hcase with hin | hw
    · exact hi.hfixed j r2 ff hf (Or.inl hin)
    · rcases getElem?_set_some _ _ _ _ _ hw with ⟨-, hq⟩ | ⟨-, hold⟩
      · cases hq
      · exact hi.hfixed j r2 ff hf (Or.inr hold)

theorem AnyState.deliver_inv (fs : List Future) (oc fid : Nat) (s : AnyState) (i k : Nat)
    (r : Result) (err : error) (hi : s.Inv fs oc fid)
    (hwi : s.workers[i]? = some (Worker.sending r)) (hb : s.body = Body.loop (k + 1) err) :
    (s.deliver i k r).Inv fs oc fid := by
  have hloop := hi.hloop
  rw [hb] at hloop
  obtain ⟨hcan, hfirst, hlen, herr⟩ := hloop
  refine ⟨hi.hfs, by simpa [AnyState.deliver] using hi.hlen, ?_, ?_, ?_, ?_, ?_, ?_,
    hi.hforeign, hi.hptr⟩
  · simp only [AnyState.deliver]
    rw [count_sent_set _ _ _ _ hwi (by simp)]
    simpa using hi.hcount
  · simp only [AnyState.deliver, Body.receive, hcan]
    cases hr : r.Err with
    | none =>
      refine ⟨by simp [Body.isReturned], Or.inl ⟨r, ?_, rfl, rfl⟩⟩
      rw [firstOk_append, hfirst]
      simp [hr]
    | some e =>
      refine ⟨by simp [Body.isReturned], ?_, ?_, ?_⟩
      · rw [firstOk_append, hfirst]
        simp [hr]
      · simp only [List.length_append, List.length_singleton]
        omega
      · rw [lastErr_append, hr]
  · intro j v e hj
    simp only [AnyState.deliver] at hj
    rcases getElem?_set_some _ _ _ _ _ hj with ⟨-, hq⟩ | ⟨-, hold⟩
    · cases hq
    · exact hi.hwait j v e hold
  · intro j r2 ff hf hcase
    simp only [AnyState.deliver, List.mem_append, List.mem_singleton, Prod.mk.injEq] at hcase
    rcases hcase with (hin | ⟨rfl, rfl⟩) | hw
    · exact hi.hfixed j r2 ff hf (Or.inl hin)
    · exact hi.hfixed j r2 ff hf (Or.inr hwi)
    · rcases getElem?_set_some _ _ _ _ _ hw with ⟨-, hq⟩ | ⟨-, hold⟩
      · cases hq
      · exact hi.hfixed j r2 ff hf (Or.inr hold)
  · intro j r2 hin
    simp only [AnyState.deliver, List.mem_append, List.mem_singleton, Prod.mk.injEq] at hin
    rcases hin with hin | ⟨rfl, rfl⟩
    · exact hi.hidx j r2 hin
    · rw [← hi.hlen]
      exact getElem?_lt _ _ _ hwi
  · obtain ⟨x, hx, hxb⟩ := hi.hout
    refine ⟨x, hx, ?_⟩
    intro r2 hr2
    have := hxb r2 hr2
    rw [hb] at this
    cases this

theorem AnyState.waiting_inv (fs : List Future) (oc fid : Nat) (s : AnyState) (i : Nat)
    (f : Future) (w : Waiter) (pick : Bool) (nw : Worker) (hi : s.Inv fs oc fid)
    (hfi : s.fs[i]? = some f) (hwi : s.workers[i]? = some (Worker.waiting w))
    (hnw : (∃ v e, (w.step f (anyCtx s.cancelled) pick s.o.h).1 = Waiter.got v e ∧
        nw = Worker.sending (newResult v e)) ∨
      nw = Worker.waiting Waiter.idle ∨ nw = Worker.waiting Waiter.inSelect) :
    AnyState.Inv fs oc fid
      { s with o := { s.o with h := (w.step f (anyCtx s.cancelled) pick s.o.h).2 }
               workers := s.workers.set i nw } := by
  obtain ⟨x, hx, hxb⟩ := hi.hout
  obtain ⟨hoc, hfid⟩ := Spawned.bounds oc fid s.o x hx
  have hmem : f ∈ fs := by
    rw [← hi.hfs]
    exact List.mem_iff_getElem?.2 ⟨i, hfi⟩
  have hne : f ≠ Future.ptr fid := by
    intro hf
    rw [hf] at hmem
    exact hi.hptr fid hmem rfl
  obtain ⟨hc, hf, hfor⟩ := Waiter.step_frame w f (anyCtx s.cancelled) pick s.o.h oc fid hne
    hi.hforeign hoc hfid
  have hns : nw ≠ Worker.sent := by
    rcases hnw with ⟨v, e, -, rfl⟩ | rfl | rfl <;> simp
  refine ⟨hi.hfs, by simpa using hi.hlen, ?_, hi.hloop, ?_, ?_, hi.hidx, ?_, hfor, hi.hptr⟩
  · simp only []
    rw [count_sent_set _ _ _ _ hwi (by simp)]
    simpa [hns] using hi.hcount
  · intro j v e hj
    rcases getElem?_set_some _ _ _ _ _ hj with ⟨-, hq⟩ | ⟨-, hold⟩
    · rcases hnw with ⟨v, e, -, rfl⟩ | rfl | rfl <;> cases hq
    · exact hi.hwait j v e hold
  · intro j r2 ff hff hcase
    rcases hcase with hin | hw
    · exact hi.hfixed j r2 ff hff (Or.inl hin)
    · rcases getElem?_set_some _ _ _ _ _ hw with ⟨rfl, hq⟩ | ⟨-, hold⟩
      · rcases hnw with ⟨v, e, hstep, rfl⟩ | rfl | rfl
        · cases hq
          rw [hi.hfs] at hfi
          rw [hfi] at hff
          cases hff
          cases w with
          | idle =>
            simp only [Waiter.step, fixedFuture.Wait] at hstep
            cases hstep
            rfl
          | inSelect => simp [Waiter.step] at hstep
          | got v2 e2 => exact absurd hwi (hi.hwait j v2 e2)
        · cases hq
        · cases hq
      · exact hi.hfixed j r2 ff hff (Or.inr hold)
  · exact ⟨x, Spawned.frame oc fid s.o x _ hx hc hf, hxb⟩

theorem AnyState.workerStep_waiting (s : AnyState) (i : Nat) (pick : Bool) (f : Future)
    (w : Waiter) (hfi : s.fs[i]? = some f) (hwi : s.workers[i]? = some (Worker.waiting w)) :
    s.workerStep i pick =
      { s with o := { s.o with h := (w.step f (anyCtx s.cancelled) pick s.o.h).2 }
               workers := s.workers.set i
                 (match (w.step f (anyCtx s.cancelled) pick s.o.h).1 with
                  | Waiter.got v e => Worker.sending (newResult v e)
                  | w1 => Worker.waiting w1) } := by
  simp only [AnyState.workerStep, hfi, hwi]
  generalize w.step f (anyCtx s.cancelled) pick s.o.h = res
  obtain ⟨w1, h1⟩ := res
  cases w1 <;> rfl

theorem Body.cases3 (b : Body) :
    (∃ k err, b = Body.loop (k + 1) err) ∨ (∃ err, b = Body.loop 0 err) ∨
      (∃ v e, b = Body.returned v e) := by
  cases b with
  | returned v e => exact Or.inr (Or.inr ⟨v, e, rfl⟩)
  | loop k err =>
    cases k with
    | zero => exact Or.inr (Or.inl ⟨err, rfl⟩)
    | succ k => exact Or.inl ⟨k, err, rfl⟩

theorem AnyState.workerStep_deliver (s : AnyState) (i k : Nat) (pick : Bool) (f : Future)
    (r : Result) (err : error) (hfi : s.fs[i]? = some f)
    (hwi : s.workers[i]? = some (Worker.sending r)) (hb : s.body = Body.loop (k + 1) err)
    (hcan : s.cancelled = false) : s.workerStep i pick = s.deliver i k r := by
  simp only [AnyState.workerStep, hfi, hwi, hb, hcan]

theorem AnyState.workerStep_idle (s : AnyState) (i : Nat) (pick : Bool) (f : Future)
    (r : Result) (err : error) (hfi : s.fs[i]? = some f)
    (hwi : s.workers[i]? = some (Worker.sending r)) (hb : s.body = Body.loop 0 err)
    (hcan : s.cancelled = false) : s.workerStep i pick = s := by
  simp only [AnyState.workerStep, hfi, hwi, hb, hcan]

theorem AnyState.workerStep_quit (s : AnyState) (i : Nat) (pick : Bool) (f : Future)
    (r : Result) (v : Val) (e : error) (hfi : s.fs[i]? = some f)
    (hwi : s.workers[i]? = some (Worker.sending r)) (hb : s.body = Body.returned v e)
    (hcan : s.cancelled = true) :
    s.workerStep i pick = { s with workers := s.workers.set i Worker.quit } := by
  simp only [AnyState.workerStep, hfi, hwi, hb, hcan]

theorem AnyState.step_body_zero (s : AnyState) (err : error) (hb : s.body = Body.loop 0 err) :
    s.step AnyStep.body = { s with body := Body.returned Val.nil err, cancelled := true } := by
  simp only [AnyState.step, hb]

theorem AnyState.step_body_succ (s : AnyState) (k : Nat) (err : error)
    (hb : s.body = Body.loop (k + 1) err) : s.step AnyStep.body = s := by
  simp only [AnyState.step, hb]

theorem AnyState.step_body_returned (s : AnyState) (v : Val) (e : error)
    (hb : s.body = Body.returned v e) : s.step AnyStep.body = s := by
  simp only [AnyState.step, hb]

theorem AnyState.step_complete_returned (s : AnyState) (v : Val) (e : error)
    (hb : s.body = Body.returned v e) :
    s.step AnyStep.complete = { s with o := s.o.complete v e } := by
  simp only [AnyState.step, hb]

theorem AnyState.step_complete_loop (s : AnyState) (k : Nat) (err : error)
    (hb : s.body = Body.loop k err) : s.step AnyStep.complete = s := by
  simp only [AnyState.step, hb]

theorem AnyState.cancelled_of_inv (fs : List Future) (oc fid : Nat) (s : AnyState)
    (hi : s.Inv fs oc fid) : s.cancelled = s.body.isReturned := by
  have hloop := hi.hloop
  cases hb : s.body with
  | loop k err => rw [hb] at hloop; exact hloop.1
  | returned v e => rw [hb] at hloop; exact hloop.1

theorem AnyState.workerStep_inv (fs : List Future) (oc fid : Nat) (s : AnyState) (i : Nat)
    (pick : Bool) (hi : s.Inv fs oc fid) : (s.workerStep i pick).Inv fs oc fid := by
  cases hfi : s.fs[i]? with
  | none => simpa [AnyState.workerStep, hfi] using hi
  | some f =>
    cases hwi : s.workers[i]? with
    | none => simpa [AnyState.workerStep, hfi, hwi] using hi
    | some wk =>
      cases wk with
      | sent => simpa [AnyState.workerStep, hfi, hwi] using hi
      | quit => simpa [AnyState.workerStep, hfi, hwi] using hi
      | waiting w =>
        rw [AnyState.workerStep_waiting s i pick f w hfi hwi]
        apply AnyState.waiting_inv fs oc fid s i f w pick _ hi hfi hwi
        cases hres : (w.step f (anyCtx s.cancelled) pick s.o.h).1 with
        | got v e => exact Or.inl ⟨v, e, rfl, rfl⟩
        | idle => exact Or.inr (Or.inl rfl)
        | inSelect => exact Or.inr (Or.inr rfl)
      | sending r =>
        have hcan := AnyState.cancelled_of_inv fs oc fid s hi
        rcases Body.cases3 s.body with ⟨k, err, hb⟩ | ⟨err, hb⟩ | ⟨v, e, hb⟩
        · rw [AnyState.workerStep_deliver s i k pick f r err hfi hwi hb (by rw [hcan, hb]; rfl)]
          exact AnyState.deliver_inv fs oc fid s i k r err hi hwi hb
        · rw [AnyState.workerStep_idle s i pick f r err hfi hwi hb (by rw [hcan, hb]; rfl)]
          exact hi
        · rw [AnyState.workerStep_quit s i pick f r v e hfi hwi hb (by rw [hcan, hb]; rfl)]
          exact AnyState.quit_inv fs oc fid s i r hi hwi

theorem AnyState.step_inv (fs : List Future) (oc fid : Nat) (s : AnyState) (st : AnyStep)
    (hi : s.Inv fs oc fid) : (s.step st).Inv fs oc fid := by
  cases st with
  | worker i pick => exact AnyState.workerStep_inv fs oc fid s i pick hi
  | body =>
    rcases Body.cases3 s.body with ⟨k, err, hb⟩ | ⟨err, hb⟩ | ⟨v, e, hb⟩
    · rw [AnyState.step_body_succ s k err hb]
      exact hi
    · rw [AnyState.step_body_zero s err hb]
      have hloop := hi.hloop
      rw [hb] at hloop
      obtain ⟨hcan, hfirst, hlen, herr⟩ := hloop
      refine ⟨hi.hfs, hi.hlen, hi.hcount, ?_, hi.hwait, hi.hfixed, hi.hidx, ?_, hi.hforeign,
        hi.hptr⟩
      · exact ⟨rfl, Or.inr ⟨hfirst, by simpa using hlen, rfl, herr⟩⟩
      · obtain ⟨x, hx, hxb⟩ := hi.hout
        refine ⟨x, hx, ?_⟩
        intro r2 hr2
        have := hxb r2 hr2
        rw [hb] at this
        cases this
    · rw [AnyState.step_body_returned s v e hb]
      exact hi
  | complete =>
    cases hb : s.body with
    | loop k err =>
      rw [AnyState.step_complete_loop s k err hb]
      exact hi
    | returned v e =>
      rw [AnyState.step_complete_returned s v e hb]
      obtain ⟨x, hx, hxb⟩ := hi.hout
      refine ⟨hi.hfs, hi.hlen, hi.hcount, hi.hloop, hi.hwait, hi.hfixed, hi.hidx, ?_, ?_,
        hi.hptr⟩
      · cases x with
        | none =>
          exact ⟨some ⟨v, e⟩, Spawned.complete_of_pending oc fid s.o v e hx, by
            intro r2 hr2
            cases hr2
            exact hb⟩
        | some r =>
          refine ⟨some r, ?_, hxb⟩
          simp only []
          rw [Spawned.complete_of_done oc fid s.o r v e hx]
          exact hx
      · exact foreign_of_futs s.o.h _ oc fid hi.hforeign (by
          intro id _
          simp only []
          rw [Spawned.complete_futs oc fid s.o x v e hx])
  | wait pick =>
    obtain ⟨x, hx, hxb⟩ := hi.hout
    exact ⟨hi.hfs, hi.hlen, hi.hcount, hi.hloop, hi.hwait, hi.hfixed, hi.hidx,
      ⟨x, Spawned.wait_inv oc fid s.o x pick hx, hxb⟩,
      Spawned.wait_foreign oc fid s.o x pick hx hi.hforeign, hi.hptr⟩
  | env op =>
    obtain ⟨x, hx, hxb⟩ := hi.hout
    exact ⟨hi.hfs, hi.hlen, hi.hcount, hi.hloop, hi.hwait, hi.hfixed, hi.hidx,
      ⟨x, Spawned.env_inv oc fid s.o x op hx, hxb⟩,
      Spawned.env_foreign oc fid s.o x op hx hi.hforeign, hi.hptr⟩

theorem AnyState.run_inv (fs : List Future) (oc fid : Nat) : ∀ (sched : List AnyStep)
    (s : AnyState), s.Inv fs oc fid → (s.run sched).Inv fs oc fid := by
  intro sched
  induction sched with
  | nil => intro s hi; exact hi
  | cons st sched ih => intro s hi; exact ih _ (AnyState.step_inv fs oc fid s st hi)

theorem AnyState.run_append (s : AnyState) (a b : List AnyStep) :
    s.run (a ++ b) = (s.run a).run b := by
  induction a generalizing s with
  | nil => rfl
  | cons st a ih => exact ih (s.step st)

theorem Any_inv (fs : List Future) (h : Heap) (hclosed : h.Closed) (hholds : h.Holds fs) :
    (Any fs h).Inv fs h.chans.length h.futs.length := by
  refine ⟨rfl, by simp [Any], ?_, ?_, ?_, ?_, by simp [Any], ⟨none, spawn_inv h, by simp⟩,
    ?_, ?_⟩
  · simp only [Any, List.length_nil]
    rw [List.count_eq_zero]
    simp
  · exact ⟨rfl, rfl, by simp [Any], rfl⟩
  · intro i v e hw
    simp only [Any, List.getElem?_map] at hw
    cases hfi : fs[i]? <;> simp [hfi] at hw
  · intro i r ff _ hcase
    rcases hcase with hin | hw
    · simp [Any] at hin
    · simp only [Any, List.getElem?_map] at hw
      cases hfi : fs[i]? <;> simp [hfi] at hw
  · intro id g hid hg
    simp only [spawn, promise.Future, NewPromise, Heap.makeChan, newFuture, Any] at hg
    by_cases hlt : id < h.futs.length
    · rw [List.getElem?_append_left hlt] at hg
      have := hclosed g (List.mem_iff_getElem?.2 ⟨id, hg⟩)
      omega
    · have := getElem?_lt _ _ _ hg
      simp only [List.length_append, List.length_singleton] at this
      omega
  · intro id hmem
    have := hholds id hmem
    omega

/-! ## `Any`: what a worker step changes -/

theorem AnyState.workerStep_fs (s : AnyState) (j : Nat) (pick : Bool) :
    (s.workerStep j pick).fs = s.fs := by
  unfold AnyState.workerStep
  repeat' split
  all_goals rfl

theorem AnyState.workerStep_other (s : AnyState) (i j : Nat) (pick : Bool) (hij : i ≠ j) :
    (s.workerStep j pick).workers[i]? = s.workers[i]? := by
  unfold AnyState.workerStep
  repeat' split
  all_goals first
    | rfl
    | exact List.getElem?_set_ne (fun hx => hij hx.symm)

theorem AnyState.workerStep_arrivals (s : AnyState) (j : Nat) (pick : Bool) :
    (s.workerStep j pick).arrivals = s.arrivals ∨
      ∃ r, (s.workerStep j pick).arrivals = s.arrivals ++ [(j, r)] := by
  unfold AnyState.workerStep
  repeat' split
  all_goals first
    | exact Or.inl rfl
    | exact Or.inr ⟨_, rfl⟩

theorem AnyState.step_fs (s : AnyState) (st : AnyStep) : (s.step st).fs = s.fs := by
  cases st with
  | worker j pick => exact AnyState.workerStep_fs s j pick
  | body => simp only [AnyState.step]; split <;> rfl
  | complete => simp only [AnyState.step]; split <;> rfl
  | wait pick => rfl
  | env op => rfl

theorem AnyState.step_workers (s : AnyState) (st : AnyStep) (i : Nat)
    (hst : ∀ pick, st ≠ AnyStep.worker i pick) : (s.step st).workers[i]? = s.workers[i]? := by
  cases st with
  | worker j pick =>
    exact AnyState.workerStep_other s i j pick (fun hx => hst pick (by rw [hx]))
  | body => simp only [AnyState.step]; split <;> rfl
  | complete => simp only [AnyState.step]; split <;> rfl
  | wait pick => rfl
  | env op => rfl

theorem AnyState.step_arrivals (s : AnyState) (st : AnyStep) :
    (s.step st).arrivals = s.arrivals ∨
      ∃ j r, (s.step st).arrivals = s.arrivals ++ [(j, r)] := by
  cases st with
  | worker j pick =>
    rcases AnyState.workerStep_arrivals s j pick with h | ⟨r, h⟩
    · exact Or.inl h
    · exact Or.inr ⟨j, r, h⟩
  | body => simp only [AnyState.step]; split <;> exact Or.inl rfl
  | complete => simp only [AnyState.step]; split <;> exact Or.inl rfl
  | wait pick => exact Or.inl rfl
  | env op => exact Or.inl rfl

theorem AnyState.step_firstOk (s : AnyState) (st : AnyStep) (r0 : Result)
    (h : firstOk s.arrivals = some r0) : firstOk (s.step st).arrivals = some r0 := by
  rcases AnyState.step_arrivals s st with heq | ⟨j, r, heq⟩
  · rw [heq]; exact h
  · rw [heq, firstOk_append, h]; rfl

theorem AnyState.all_sent (fs : List Future) (oc fid : Nat) (s : AnyState)
    (hi : s.Inv fs oc fid) (hfull : s.arrivals.length = fs.length) (i : Nat) (w : Worker)
    (hw : s.workers[i]? = some w) : w = Worker.sent := by
  have hc : s.workers.count Worker.sent = s.workers.length := by
    rw [hi.hcount, hfull, hi.hlen]
  exact (List.count_eq_length.1 hc w (List.mem_iff_getElem?.2 ⟨i, hw⟩)).symm

theorem AnyState.returned_ok (fs : List Future) (oc fid : Nat) (s : AnyState)
    (hi : s.Inv fs oc fid) (i : Nat) (w : Worker) (v : Val) (e : error)
    (hw : s.workers[i]? = some w) (hns : w ≠ Worker.sent) (hb : s.body = Body.returned v e) :
    ∃ r0, firstOk s.arrivals = some r0 ∧ v = r0.V ∧ e = none := by
  have hloop := hi.hloop
  rw [hb] at hloop
  rcases hloop.2 with hok | ⟨-, hfull, -, -⟩
  · exact hok
  · exact absurd (AnyState.all_sent fs oc fid s hi hfull i w hw) hns

theorem AnyState.loop_pos (fs : List Future) (oc fid : Nat) (s : AnyState)
    (hi : s.Inv fs oc fid) (i : Nat) (w : Worker) (k : Nat) (err : error)
    (hw : s.workers[i]? = some w) (hns : w ≠ Worker.sent) (hb : s.body = Body.loop k err) :
    ∃ k1, k = k1 + 1 := by
  have hloop := hi.hloop
  rw [hb] at hloop
  obtain ⟨-, -, hlen, -⟩ := hloop
  cases k with
  | succ k1 => exact ⟨k1, rfl⟩
  | zero => exact absurd (AnyState.all_sent fs oc fid s hi (by simpa using hlen) i w hw) hns

/-! ## `Any`: a success wins -/

theorem AnyState.worker_of_index (fs : List Future) (oc fid : Nat) (s : AnyState)
    (hi : s.Inv fs oc fid) (i : Nat) (w : Worker) (hw : s.workers[i]? = some w) :
    ∃ f, s.fs[i]? = some f := by
  have hlt : i < s.fs.length := by
    rw [hi.hfs, ← hi.hlen]
    exact getElem?_lt _ _ _ hw
  exact ⟨s.fs[i], List.getElem?_eq_getElem hlt⟩

theorem AnyState.workerStep_ok (fs : List Future) (oc fid : Nat) (s : AnyState) (i : Nat)
    (pick : Bool) (r : Result) (hi : s.Inv fs oc fid)
    (hw : s.workers[i]? = some (Worker.sending r)) (hr : r.Err = none) :
    (firstOk (s.workerStep i pick).arrivals).isSome := by
  obtain ⟨f, hfi⟩ := AnyState.worker_of_index fs oc fid s hi i _ hw
  have hcan := AnyState.cancelled_of_inv fs oc fid s hi
  rcases Body.cases3 s.body with ⟨k, err, hb⟩ | ⟨err, hb⟩ | ⟨v, e, hb⟩
  · rw [AnyState.workerStep_deliver s i k pick f r err hfi hw hb (by rw [hcan, hb]; rfl)]
    simp only [AnyState.deliver]
    rw [firstOk_append]
    cases firstOk s.arrivals <;> simp [hr]
  · obtain ⟨k1, hk⟩ := AnyState.loop_pos fs oc fid s hi i _ 0 err hw (by simp) hb
    omega
  · rw [AnyState.workerStep_quit s i pick f r v e hfi hw hb (by rw [hcan, hb]; rfl)]
    obtain ⟨r0, h0, -, -⟩ := AnyState.returned_ok fs oc fid s hi i _ v e hw (by simp) hb
    simp [h0]

theorem AnyState.workerStep_fixed (s : AnyState) (i : Nat) (pick : Bool) (ff : fixedFuture)
    (hw : s.workers[i]? = some (Worker.waiting Waiter.idle))
    (hf : s.fs[i]? = some (Future.fixed ff)) :
    (s.workerStep i pick).workers[i]? = some (Worker.sending ⟨ff.v, ff.err⟩) ∧
      (s.workerStep i pick).arrivals = s.arrivals := by
  rw [AnyState.workerStep_waiting s i pick _ _ hf hw]
  refine ⟨?_, rfl⟩
  simp only [Waiter.step, fixedFuture.Wait, newResult]
  exact List.getElem?_set_self (getElem?_lt _ _ _ hw)

theorem AnyState.step_okAt (fs : List Future) (oc fid : Nat) (s : AnyState) (st : AnyStep)
    (i : Nat) (hi : s.Inv fs oc fid) (hok : s.OkAt i) : (s.step st).OkAt i := by
  by_cases hsome : (firstOk s.arrivals).isSome
  · obtain ⟨r0, h0⟩ := Option.isSome_iff_exists.1 hsome
    exact Or.inr (Or.inr (by rw [AnyState.step_firstOk s st r0 h0]; rfl))
  · by_cases hst : ∀ pick, st ≠ AnyStep.worker i pick
    · rcases hok with ⟨r, hw, hr⟩ | ⟨ff, hw, hf, herr⟩ | h3
      · exact Or.inl ⟨r, by rw [AnyState.step_workers s st i hst]; exact hw, hr⟩
      · exact Or.inr (Or.inl ⟨ff, by rw [AnyState.step_workers s st i hst]; exact hw,
          by rw [AnyState.step_fs]; exact hf, herr⟩)
      · exact absurd h3 hsome
    · simp only [ne_eq, not_forall, not_not] at hst
      obtain ⟨pick, rfl⟩ := hst
      rcases hok with ⟨r, hw, hr⟩ | ⟨ff, hw, hf, herr⟩ | h3
      · exact Or.inr (Or.inr (AnyState.workerStep_ok fs oc fid s i pick r hi hw hr))
      · exact Or.inl ⟨_, (AnyState.workerStep_fixed s i pick ff hw hf).1, herr⟩
      · exact absurd h3 hsome

theorem AnyState.run_okAt (fs : List Future) (oc fid : Nat) (i : Nat) :
    ∀ (sched : List AnyStep) (s : AnyState), s.Inv fs oc fid → s.OkAt i →
      (s.run sched).OkAt i := by
  intro sched
  induction sched with
  | nil => intro s _ hok; exact hok
  | cons st sched ih =>
    intro s hi hok
    exact ih _ (AnyState.step_inv fs oc fid s st hi) (AnyState.step_okAt fs oc fid s st i hi hok)

theorem AnyState.body_of_firstOk (fs : List Future) (oc fid : Nat) (s : AnyState)
    (r0 : Result) (hi : s.Inv fs oc fid) (h0 : firstOk s.arrivals = some r0) :
    s.body = Body.returned r0.V none := by
  have hloop := hi.hloop
  cases hb : s.body with
  | loop k err =>
    rw [hb] at hloop
    rw [hloop.2.1] at h0
    cases h0
  | returned v e =>
    rw [hb] at hloop
    rcases hloop.2 with ⟨r, hr, hv, he⟩ | ⟨hnone, -⟩
    · rw [h0] at hr
      cases hr
      rw [hv, he]
    · rw [hnone] at h0
      cases h0

theorem AnyState.got_ok (fs : List Future) (oc fid : Nat) (s : AnyState) (i : Nat) (v : Val)
    (e : error) (hi : s.Inv fs oc fid) (hok : s.OkAt i) (hg : s.o.caller = Waiter.got v e) :
    ∃ r0, firstOk s.arrivals = some r0 ∧ v = r0.V ∧ e = none := by
  obtain ⟨x, hx, hxb⟩ := hi.hout
  have hxe := Spawned.got_of_inv oc fid s.o x v e hx hg
  have hb := hxb _ hxe
  simp only at hb
  have hloop := hi.hloop
  rw [hb] at hloop
  rcases hloop.2 with h1 | ⟨hnone, hfull, -, -⟩
  · exact h1
  · rcases hok with ⟨r, hw, -⟩ | ⟨ff, hw, -, -⟩ | h3
    · exact absurd (AnyState.all_sent fs oc fid s hi hfull i _ hw) (by simp)
    · exact absurd (AnyState.all_sent fs oc fid s hi hfull i _ hw) (by simp)
    · rw [hnone] at h3
      cases h3

theorem firstOk_mem (arr : List (Nat × Result)) (r0 : Result) (h : firstOk arr = some r0) :
    r0.Err = none ∧ ∃ j, (j, r0) ∈ arr := by
  unfold firstOk at h
  have h1 := List.find?_some h
  have h2 := List.mem_of_find?_eq_some h
  obtain ⟨x, hx, rfl⟩ := List.mem_map.1 h2
  exact ⟨by simpa using h1, x.1, hx⟩

/-! ## `Any`: when every input fails -/

theorem AnyState.workerStep_arrival (s : AnyState) (j : Nat) (pick : Bool) :
    (s.workerStep j pick).arrivals = s.arrivals ∨
      ∃ r, s.workers[j]? = some (Worker.sending r) ∧
        (s.workerStep j pick).arrivals = s.arrivals ++ [(j, r)] := by
  unfold AnyState.workerStep
  repeat' split
  all_goals first
    | exact Or.inl rfl
    | exact Or.inr ⟨_, by assumption, rfl⟩

theorem AnyState.step_arrival (s : AnyState) (st : AnyStep) :
    (s.step st).arrivals = s.arrivals ∨
      ∃ j r, s.workers[j]? = some (Worker.sending r) ∧
        (s.step st).arrivals = s.arrivals ++ [(j, r)] := by
  cases st with
  | worker j pick =>
    rcases AnyState.workerStep_arrival s j pick with h | ⟨r, hw, h⟩
    · exact Or.inl h
    · exact Or.inr ⟨j, r, hw, h⟩
  | body => simp only [AnyState.step]; split <;> exact Or.inl rfl
  | complete => simp only [AnyState.step]; split <;> exact Or.inl rfl
  | wait pick => exact Or.inl rfl
  | env op => exact Or.inl rfl

/-- Worker `j` holds a failed Result or has delivered one. -/
theorem AnyState.workerStep_fail (fs : List Future) (oc fid : Nat) (s : AnyState) (j : Nat)
    (pick : Bool) (hi : s.Inv fs oc fid) (hf : s.AllFail) (w : Worker)
    (hw : (s.workerStep j pick).workers[j]? = some w) :
    w = Worker.sent ∨ ∃ r, w = Worker.sending r ∧ r.Err ≠ none := by
  have hlt : j < s.workers.length := by
    have := getElem?_lt _ _ _ hw
    by_contra hge
    have hnone : s.workers[j]? = none := List.getElem?_eq_none (by omega)
    simp [AnyState.workerStep, hnone] at this
    omega
  obtain ⟨w0, hw0⟩ : ∃ w0, s.workers[j]? = some w0 :=
    ⟨s.workers[j], List.getElem?_eq_getElem hlt⟩
  obtain ⟨f, hfi⟩ := AnyState.worker_of_index fs oc fid s hi j w0 hw0
  have hcan := AnyState.cancelled_of_inv fs oc fid s hi
  rcases hf.2 j w0 hw0 with rfl | ⟨r, rfl, hr⟩ | ⟨rfl, ff, hff, herr⟩
  · simp only [AnyState.workerStep, hfi, hw0] at hw
    cases hw
    exact Or.inl rfl
  · rcases Body.cases3 s.body with ⟨k, err, hb⟩ | ⟨err, hb⟩ | ⟨v, e, hb⟩
    · rw [AnyState.workerStep_deliver s j k pick f r err hfi hw0 hb (by rw [hcan, hb]; rfl)]
        at hw
      simp only [AnyState.deliver, List.getElem?_set_self hlt] at hw
      cases hw
      exact Or.inl rfl
    · obtain ⟨k1, hk⟩ := AnyState.loop_pos fs oc fid s hi j _ 0 err hw0 (by simp) hb
      omega
    · obtain ⟨r0, h0, -, -⟩ := AnyState.returned_ok fs oc fid s hi j _ v e hw0 (by simp) hb
      rw [hf.1] at h0
      cases h0
  · rw [(AnyState.workerStep_fixed s j pick ff hw0 hff).1] at hw
    cases hw
    exact Or.inr ⟨_, rfl, herr⟩

/-- A worker that holds a failed Result delivers it when it moves. -/
theorem AnyState.workerStep_sent (fs : List Future) (oc fid : Nat) (s : AnyState) (j : Nat)
    (pick : Bool) (hi : s.Inv fs oc fid) (hf : s.AllFail)
    (h1 : ∀ w, s.workers[j]? = some w → w = Worker.sent ∨ ∃ r, w = Worker.sending r ∧ r.Err ≠ none)
    (w : Worker) (hw : (s.workerStep j pick).workers[j]? = some w) : w = Worker.sent := by
  have hlt : j < s.workers.length := by
    have := getElem?_lt _ _ _ hw
    by_contra hge
    have hnone : s.workers[j]? = none := List.getElem?_eq_none (by omega)
    simp [AnyState.workerStep, hnone] at this
    omega
  obtain ⟨w0, hw0⟩ : ∃ w0, s.workers[j]? = some w0 :=
    ⟨s.workers[j], List.getElem?_eq_getElem hlt⟩
  obtain ⟨f, hfi⟩ := AnyState.worker_of_index fs oc fid s hi j w0 hw0
  have hcan := AnyState.cancelled_of_inv fs oc fid s hi
  rcases h1 w0 hw0 with rfl | ⟨r, rfl, hr⟩
  · simp only [AnyState.workerStep, hfi, hw0] at hw
    cases hw
    rfl
  · rcases Body.cases3 s.body with ⟨k, err, hb⟩ | ⟨err, hb⟩ | ⟨v, e, hb⟩
    · rw [AnyState.workerStep_deliver s j k pick f r err hfi hw0 hb (by rw [hcan, hb]; rfl)]
        at hw
      simp only [AnyState.deliver, List.getElem?_set_self hlt] at hw
      cases hw
      rfl
    · obtain ⟨k1, hk⟩ := AnyState.loop_pos fs oc fid s hi j _ 0 err hw0 (by simp) hb
      omega
    · obtain ⟨r0, h0, -, -⟩ := AnyState.returned_ok fs oc fid s hi j _ v e hw0 (by simp) hb
      rw [hf.1] at h0
      cases h0

theorem AnyState.step_allFail (fs : List Future) (oc fid : Nat) (s : AnyState) (st : AnyStep)
    (hi : s.Inv fs oc fid) (hf : s.AllFail) : (s.step st).AllFail := by
  refine ⟨?_, ?_⟩
  · rcases AnyState.step_arrival s st with heq | ⟨j, r, hw, heq⟩
    · rw [heq]; exact hf.1
    · rw [heq, firstOk_append, hf.1]
      rcases hf.2 j _ hw with h | ⟨r2, h, hr⟩ | ⟨h, -⟩
      · cases h
      · cases h
        simp [hr]
      · cases h
  · intro i w hw
    by_cases hst : ∀ pick, st ≠ AnyStep.worker i pick
    · rw [AnyState.step_workers s st i hst] at hw
      rw [AnyState.step_fs]
      exact hf.2 i w hw
    · simp only [ne_eq, not_forall, not_not] at hst
      obtain ⟨pick, rfl⟩ := hst
      rcases AnyState.workerStep_fail fs oc fid s i pick hi hf w hw with h | h
      · exact Or.inl h
      · exact Or.inr (Or.inl h)

/-- A family of facts about single workers, kept by every move and
established for worker `j` by a move of worker `j`, holds after a schedule for
every worker that moves in it. -/
theorem AnyState.pass (G : AnyState → Prop) (P : AnyState → Nat → Prop)
    (hG : ∀ s st, G s → G (s.step st))
    (hkeep : ∀ s st j, G s → P s j → P (s.step st) j)
    (hest : ∀ s j pick, G s → P (s.step (AnyStep.worker j pick)) j) :
    ∀ (sched : List AnyStep) (s : AnyState), G s →
      G (s.run sched) ∧
      ∀ j, ((∃ pick, AnyStep.worker j pick ∈ sched) ∨ P s j) → P (s.run sched) j := by
  intro sched
  induction sched with
  | nil =>
    intro s hg
    refine ⟨hg, ?_⟩
    intro j hj
    rcases hj with ⟨pick, hj⟩ | hj
    · cases hj
    · exact hj
  | cons st sched ih =>
    intro s hg
    obtain ⟨hg2, hp2⟩ := ih (s.step st) (hG _ _ hg)
    refine ⟨hg2, ?_⟩
    intro j hj
    apply hp2 j
    rcases hj with ⟨pick, hj⟩ | hj
    · rcases List.mem_cons.1 hj with rfl | hj
      · exact Or.inr (hest s j pick hg)
      · exact Or.inl ⟨pick, hj⟩
    · exact Or.inr (hkeep s _ j hg hj)

/-! ## `Any`: what no move undoes -/

theorem AnyState.run_eq_foldl (sched : List AnyStep) :
    ∀ s : AnyState, s.run sched = sched.foldl AnyState.step s := by
  induction sched with
  | nil => intro s; rfl
  | cons st sched ih => intro s; exact ih (s.step st)

theorem AnyState.workerStep_caller (s : AnyState) (j : Nat) (pick : Bool) :
    (s.workerStep j pick).o.caller = s.o.caller ∧ (s.workerStep j pick).o.task = s.o.task := by
  unfold AnyState.workerStep
  repeat' split
  all_goals exact ⟨rfl, rfl⟩

theorem AnyState.workerStep_returned (s : AnyState) (j : Nat) (pick : Bool) (v : Val)
    (e : error) (hb : s.body = Body.returned v e) :
    (s.workerStep j pick).body = Body.returned v e := by
  unfold AnyState.workerStep
  repeat' split
  all_goals first
    | exact hb
    | (exfalso; simp_all)

theorem AnyState.step_returned (s : AnyState) (st : AnyStep) (v : Val) (e : error)
    (hb : s.body = Body.returned v e) : (s.step st).body = Body.returned v e := by
  cases st with
  | worker j pick => exact AnyState.workerStep_returned s j pick v e hb
  | body => rw [AnyState.step_body_returned s v e hb]; exact hb
  | complete => rw [AnyState.step_complete_returned s v e hb]; exact hb
  | wait pick => exact hb
  | env op => exact hb

theorem AnyState.step_task (s : AnyState) (st : AnyStep) (ht : s.o.task = Task.finished) :
    (s.step st).o.task = Task.finished := by
  cases st with
  | worker j pick =>
    show (s.workerStep j pick).o.task = Task.finished
    rw [(AnyState.workerStep_caller s j pick).2]
    exact ht
  | body =>
    simp only [AnyState.step]
    split <;> exact ht
  | complete =>
    simp only [AnyState.step]
    split
    · simp only [Spawned.complete, ht]
    · exact ht
  | wait pick => exact ht
  | env op =>
    simp only [AnyState.step, Spawned.env]
    split <;> exact ht

theorem AnyState.step_rank (fs : List Future) (oc fid : Nat) (s : AnyState) (st : AnyStep)
    (hi : s.Inv fs oc fid) : s.o.caller.rank ≤ (s.step st).o.caller.rank := by
  cases st with
  | worker j pick =>
    show s.o.caller.rank ≤ (s.workerStep j pick).o.caller.rank
    rw [(AnyState.workerStep_caller s j pick).1]
  | body =>
    simp only [AnyState.step]
    split <;> exact Nat.le_refl _
  | complete =>
    simp only [AnyState.step]
    split
    · simp only [Spawned.complete_caller]
      exact Nat.le_refl _
    · exact Nat.le_refl _
  | wait pick =>
    obtain ⟨x, hx, -⟩ := hi.hout
    exact Spawned.wait_rank_mono oc fid s.o x pick hx
  | env op =>
    simp only [AnyState.step, Spawned.env_caller]
    exact Nat.le_refl _

/-- Once the promise is completed, each move of the caller brings its `Wait`
one stage further. -/
theorem AnyState.wait_rank (fs : List Future) (oc fid : Nat) (s : AnyState) (pick : Bool)
    (hi : s.Inv fs oc fid) (ht : s.o.task = Task.finished) :
    min 2 (s.o.caller.rank + 1) ≤ (s.step (AnyStep.wait pick)).o.caller.rank := by
  obtain ⟨x, hx, -⟩ := hi.hout
  cases x with
  | none =>
    rw [hx.1] at ht
    cases ht
  | some r => exact Spawned.wait_rank_done oc fid s.o r pick hx

/-- Once the function has returned, the move of the goroutine of `Go` completes
the promise. -/
theorem AnyState.complete_finishes (fs : List Future) (oc fid : Nat) (s : AnyState) (v : Val)
    (e : error) (hi : s.Inv fs oc fid) (hb : s.body = Body.returned v e) :
    (s.step AnyStep.complete).o.task = Task.finished := by
  rw [AnyState.step_complete_returned s v e hb]
  obtain ⟨x, hx, -⟩ := hi.hout
  cases x with
  | none => exact (Spawned.complete_of_pending oc fid s.o v e hx).1
  | some r =>
    simp only []
    rw [Spawned.complete_of_done oc fid s.o r v e hx]
    exact hx.1

theorem Holds_fixed (h : Heap) (fs : List Future) (hfs : ∀ f ∈ fs, ∃ ff, f = Future.fixed ff) :
    h.Holds fs := by
  intro id hmem
  obtain ⟨ff, hff⟩ := hfs _ hmem
  cases hff

theorem AnyState.isSome_keep (s : AnyState) (st : AnyStep)
    (h : (firstOk s.arrivals).isSome) : (firstOk (s.step st).arrivals).isSome := by
  obtain ⟨r0, h0⟩ := Option.isSome_iff_exists.1 h
  rw [AnyState.step_firstOk s st r0 h0]
  rfl

theorem AnyState.step_holds_ok (fs : List Future) (oc fid : Nat) (s : AnyState) (st : AnyStep)
    (i : Nat) (hi : s.Inv fs oc fid)
    (h1 : (∃ r, s.workers[i]? = some (Worker.sending r) ∧ r.Err = none) ∨
      (firstOk s.arrivals).isSome) :
    (∃ r, (s.step st).workers[i]? = some (Worker.sending r) ∧ r.Err = none) ∨
      (firstOk (s.step st).arrivals).isSome := by
  rcases h1 with ⟨r, hw, hr⟩ | h3
  · by_cases hst : ∀ pick, st ≠ AnyStep.worker i pick
    · exact Or.inl ⟨r, by rw [AnyState.step_workers s st i hst]; exact hw, hr⟩
    · simp only [ne_eq, not_forall, not_not] at hst
      obtain ⟨pick, rfl⟩ := hst
      exact Or.inr (AnyState.workerStep_ok fs oc fid s i pick r hi hw hr)
  · exact Or.inr (AnyState.isSome_keep s st h3)

/-- Once worker `i` holds or is about to hold a Result without error, every
schedule in which worker `i` moves twice, then the goroutine of `Go` moves,
then the caller moves twice, ends with the caller's `Wait` returned. -/
theorem AnyState.ok_progress (fs : List Future) (oc fid : Nat) (s : AnyState) (i : Nat)
    (p1 p2 p3 p4 : Bool) (sched : List AnyStep)
    (hfair : [AnyStep.worker i p1, AnyStep.worker i p2, AnyStep.complete, AnyStep.wait p3,
      AnyStep.wait p4].Sublist sched)
    (hi : s.Inv fs oc fid) (hok : s.OkAt i) :
    ∃ v e, (s.run sched).o.caller = Waiter.got v e := by
  have key := sublist_progress AnyState.step
    (fun k t => t.Inv fs oc fid ∧ t.OkAt i ∧
      (1 ≤ k → (∃ r, t.workers[i]? = some (Worker.sending r) ∧ r.Err = none) ∨
        (firstOk t.arrivals).isSome) ∧
      (2 ≤ k → (firstOk t.arrivals).isSome) ∧
      (3 ≤ k → t.o.task = Task.finished) ∧
      (4 ≤ k → 1 ≤ t.o.caller.rank) ∧ (5 ≤ k → 2 ≤ t.o.caller.rank))
    [AnyStep.worker i p1, AnyStep.worker i p2, AnyStep.complete, AnyStep.wait p3,
      AnyStep.wait p4]
    (by
      intro k t a ⟨hti, htok, h1, h2, h3, h4, h5⟩
      have hm := AnyState.step_rank fs oc fid t a hti
      exact ⟨AnyState.step_inv fs oc fid t a hti, AnyState.step_okAt fs oc fid t a i hti htok,
        fun hk => AnyState.step_holds_ok fs oc fid t a i hti (h1 hk),
        fun hk => AnyState.isSome_keep t a (h2 hk),
        fun hk => AnyState.step_task t a (h3 hk),
        fun hk => Nat.le_trans (h4 hk) hm, fun hk => Nat.le_trans (h5 hk) hm⟩)
    (by
      intro k t hk ⟨hti, htok, h1, h2, h3, h4, h5⟩
      simp only [List.length_cons, List.length_nil] at hk
      have hk5 : k = 0 ∨ k = 1 ∨ k = 2 ∨ k = 3 ∨ k = 4 := by omega
      have hinv : ∀ a, (t.step a).Inv fs oc fid := fun a => AnyState.step_inv fs oc fid t a hti
      have hokk : ∀ a, (t.step a).OkAt i := fun a => AnyState.step_okAt fs oc fid t a i hti htok
      rcases hk5 with rfl | rfl | rfl | rfl | rfl
      · refine ⟨hinv _, hokk _, ?_, fun hc => absurd hc (by omega),
          fun hc => absurd hc (by omega), fun hc => absurd hc (by omega),
          fun hc => absurd hc (by omega)⟩
        intro _
        rcases htok with ⟨r, hw, hr⟩ | ⟨ff, hw, hf, herr⟩ | h3
        · exact Or.inr (AnyState.workerStep_ok fs oc fid t i p1 r hti hw hr)
        · exact Or.inl ⟨_, (AnyState.workerStep_fixed t i p1 ff hw hf).1, herr⟩
        · exact Or.inr (AnyState.isSome_keep t _ h3)
      · have hsome : (firstOk (t.step (AnyStep.worker i p2)).arrivals).isSome := by
          rcases h1 (by omega) with ⟨r, hw, hr⟩ | h3
          · exact AnyState.workerStep_ok fs oc fid t i p2 r hti hw hr
          · exact AnyState.isSome_keep t _ h3
        exact ⟨hinv _, hokk _, fun _ => Or.inr hsome, fun _ => hsome,
          fun hc => absurd hc (by omega), fun hc => absurd hc (by omega),
          fun hc => absurd hc (by omega)⟩
      · have hsome := h2 (by omega)
        obtain ⟨r0, h0⟩ := Option.isSome_iff_exists.1 hsome
        have hb := AnyState.body_of_firstOk fs oc fid t r0 hti h0
        have hm := AnyState.step_rank fs oc fid t AnyStep.complete hti
        exact ⟨hinv _, hokk _, fun _ => Or.inr (AnyState.isSome_keep t _ hsome),
          fun _ => AnyState.isSome_keep t _ hsome,
          fun _ => AnyState.complete_finishes fs oc fid t _ _ hti hb,
          fun hc => absurd hc (by omega), fun hc => absurd hc (by omega)⟩
      · have hd := AnyState.wait_rank fs oc fid t p3 hti (h3 (by omega))
        exact ⟨hinv _, hokk _, fun _ => Or.inr (AnyState.isSome_keep t _ (h2 (by omega))),
          fun _ => AnyState.isSome_keep t _ (h2 (by omega)),
          fun _ => AnyState.step_task t _ (h3 (by omega)),
          fun _ => by
            show 1 ≤ (t.step (AnyStep.wait p3)).o.caller.rank
            omega,
          fun hc => absurd hc (by omega)⟩
      · have hd := AnyState.wait_rank fs oc fid t p4 hti (h3 (by omega))
        have h41 := h4 (by omega)
        exact ⟨hinv _, hokk _, fun _ => Or.inr (AnyState.isSome_keep t _ (h2 (by omega))),
          fun _ => AnyState.isSome_keep t _ (h2 (by omega)),
          fun _ => AnyState.step_task t _ (h3 (by omega)),
          fun _ => by
            show 1 ≤ (t.step (AnyStep.wait p4)).o.caller.rank
            omega,
          fun _ => by
            show 2 ≤ (t.step (AnyStep.wait p4)).o.caller.rank
            omega⟩)
    sched 0 s (Nat.zero_le _) hfair
    ⟨hi, hok, fun hc => absurd hc (by omega), fun hc => absurd hc (by omega),
      fun hc => absurd hc (by omega), fun hc => absurd hc (by omega),
      fun hc => absurd hc (by omega)⟩
  rw [← AnyState.run_eq_foldl] at key
  exact Waiter.got_of_rank _ (key.2.2.2.2.2.2 (by simp))

theorem AnyState.ok_core (fs : List Future) (oc fid : Nat) (s : AnyState) (i : Nat)
    (sched2 sched3 : List AnyStep) (p1 p2 p3 p4 : Bool) (hi : s.Inv fs oc fid) (hok : s.OkAt i)
    (hfair : [AnyStep.worker i p1, AnyStep.worker i p2, AnyStep.complete, AnyStep.wait p3,
      AnyStep.wait p4].Sublist sched3) :
    (∀ v e, (s.run sched2).o.caller = Waiter.got v e →
        ∃ j r0, firstOk (s.run sched2).arrivals = some r0 ∧ (j, r0) ∈ (s.run sched2).arrivals ∧
          r0.Err = none ∧ v = r0.V ∧ e = none) ∧
      ∃ j r0, firstOk (s.run sched3).arrivals = some r0 ∧ (j, r0) ∈ (s.run sched3).arrivals ∧
        r0.Err = none ∧ (s.run sched3).o.caller = Waiter.got r0.V none := by
  have hsafe : ∀ (sc : List AnyStep) v e, (s.run sc).o.caller = Waiter.got v e →
      ∃ j r0, firstOk (s.run sc).arrivals = some r0 ∧ (j, r0) ∈ (s.run sc).arrivals ∧
        r0.Err = none ∧ v = r0.V ∧ e = none := by
    intro sc v e hg
    have hi2 := AnyState.run_inv fs oc fid sc s hi
    have hok2 := AnyState.run_okAt fs oc fid i sc s hi hok
    obtain ⟨r0, h0, hv, he⟩ := AnyState.got_ok fs oc fid _ i v e hi2 hok2 hg
    obtain ⟨herr, j, hj⟩ := firstOk_mem _ r0 h0
    exact ⟨j, r0, h0, hj, herr, hv, he⟩
  refine ⟨hsafe sched2, ?_⟩
  obtain ⟨v, e, hg⟩ := AnyState.ok_progress fs oc fid s i p1 p2 p3 p4 sched3 hfair hi hok
  obtain ⟨j, r0, h0, hj, herr, hv, he⟩ := hsafe sched3 v e hg
  exact ⟨j, r0, h0, hj, herr, by rw [hg, hv, he]⟩

/-- Claim C6: around `Any(fs...)`, once a worker holds a Result without error (or is
about to take one from an immediate future), then under every further schedule
of the workers, the loop, the caller and the rest of the program, a `Wait` on
the returned future that has returned has returned `(v, nil)` with `v` the
value of the first Result without error in arrival order; and under every
further schedule `fair` in which that worker moves twice, then the promise is
completed, then the caller moves twice, whatever else happens in between, the
`Wait` has returned that pair. In particular, for
`Any(Failure(e), Failure(e), Success(x), Failure(e))` with `e` non-nil, under
every schedule a returned `Wait` has returned `(x, nil)`, and it has returned
under every schedule `fair2` in which worker 2, the completion and the caller
move as above. -/
theorem any_first_success_wins (fs : List Future) (h : Heap)
    (sched more fair fair2 : List AnyStep) (i : Nat) (p1 p2 p3 p4 q1 q2 q3 q4 : Bool)
    (ev : ErrVal) (x : Val) (hclosed : h.Closed) (hholds : h.Holds fs)
    (hok : ((Any fs h).run sched).OkAt i)
    (hfair : [AnyStep.worker i p1, AnyStep.worker i p2, AnyStep.complete, AnyStep.wait p3,
      AnyStep.wait p4].Sublist fair)
    (hfair2 : [AnyStep.worker 2 q1, AnyStep.worker 2 q2, AnyStep.complete, AnyStep.wait q3,
      AnyStep.wait q4].Sublist fair2) :
    (∀ v e, ((Any fs h).run (sched ++ more)).o.caller = Waiter.got v e →
        ∃ j r0, firstOk ((Any fs h).run (sched ++ more)).arrivals = some r0 ∧
          (j, r0) ∈ ((Any fs h).run (sched ++ more)).arrivals ∧
          r0.Err = none ∧ v = r0.V ∧ e = none) ∧
      (∃ j r0, firstOk ((Any fs h).run (sched ++ fair)).arrivals = some r0 ∧
          (j, r0) ∈ ((Any fs h).run (sched ++ fair)).arrivals ∧ r0.Err = none ∧
          ((Any fs h).run (sched ++ fair)).o.caller = Waiter.got r0.V none) ∧
      (∀ v e, ((Any [Failure (some ev), Failure (some ev), Success x, Failure (some ev)] h).run
          more).o.caller = Waiter.got v e → v = x ∧ e = none) ∧
      ((Any [Failure (some ev), Failure (some ev), Success x, Failure (some ev)] h).run
          fair2).o.caller = Waiter.got x none := by
  have hi := AnyState.run_inv fs h.chans.length h.futs.length sched (Any fs h)
    (Any_inv fs h hclosed hholds)
  obtain ⟨hsafe, hlive⟩ := AnyState.ok_core fs h.chans.length h.futs.length _ i more fair
    p1 p2 p3 p4 hi hok hfair
  rw [AnyState.run_append, AnyState.run_append]
  refine ⟨hsafe, hlive, ?_⟩
  have hi4 := Any_inv [Failure (some ev), Failure (some ev), Success x, Failure (some ev)] h
    hclosed (Holds_fixed h _ (by
      intro f hf
      simp only [List.mem_cons, List.mem_singleton, List.not_mem_nil, or_false] at hf
      rcases hf with rfl | rfl | rfl | rfl <;> exact ⟨_, rfl⟩))
  have hok4 : (Any [Failure (some ev), Failure (some ev), Success x, Failure (some ev)]
      h).OkAt 2 := Or.inr (Or.inl ⟨⟨x, none⟩, rfl, rfl, rfl⟩)
  obtain ⟨hsafe4, j0, r0, h0, hj0, herr0, hg⟩ := AnyState.ok_core _ h.chans.length
    h.futs.length _ 2 more fair2 q1 q2 q3 q4 hi4 hok4 hfair2
  have hi5 := fun sc => AnyState.run_inv _ h.chans.length h.futs.length sc _ hi4
  have hval : ∀ (sc : List AnyStep) (j : Nat) (r : Result),
      (j, r) ∈ ((Any [Failure (some ev), Failure (some ev), Success x, Failure (some ev)]
        h).run sc).arrivals → r.Err = none → r.V = x := by
    intro sc j r hj hr
    have hlt := (hi5 sc).hidx j r hj
    have hfix := (hi5 sc).hfixed j r
    simp only [List.length_cons, List.length_nil] at hlt
    have hcases : j = 0 ∨ j = 1 ∨ j = 2 ∨ j = 3 := by omega
    rcases hcases with rfl | rfl | rfl | rfl
    · have := hfix ⟨Val.nil, some ev⟩ rfl (Or.inl hj)
      rw [this] at hr
      cases hr
    · have := hfix ⟨Val.nil, some ev⟩ rfl (Or.inl hj)
      rw [this] at hr
      cases hr
    · have := hfix ⟨x, none⟩ rfl (Or.inl hj)
      rw [this]
    · have := hfix ⟨Val.nil, some ev⟩ rfl (Or.inl hj)
      rw [this] at hr
      cases hr
  refine ⟨?_, ?_⟩
  · intro v e hgot
    obtain ⟨j, r1, -, hj, herr, hv, he⟩ := hsafe4 v e hgot
    exact ⟨by rw [hv]; exact hval more j r1 hj herr, he⟩
  · rw [hg, hval _ j0 r0 hj0 herr0]

theorem lastErr_mem (arr : List (Nat × Result)) (hne : arr ≠ []) :
    ∃ j r, (j, r) ∈ arr ∧ lastErr arr = r.Err := by
  obtain ⟨jr, hjr⟩ : ∃ jr, arr.getLast? = some jr := by
    cases h : arr.getLast? with
    | none => exact absurd (List.getLast?_eq_none_iff.1 h) hne
    | some jr => exact ⟨jr, rfl⟩
  refine ⟨jr.1, jr.2, List.mem_of_getLast?_eq_some hjr, ?_⟩
  simp [lastErr, hjr]

theorem AnyState.got_fail (fs : List Future) (oc fid : Nat) (s : AnyState) (v : Val)
    (e : error) (hi : s.Inv fs oc fid) (hf : s.AllFail) (hg : s.o.caller = Waiter.got v e) :
    v = Val.nil ∧ e = lastErr s.arrivals ∧ s.arrivals.length = fs.length := by
  obtain ⟨x, hx, hxb⟩ := hi.hout
  have hxe := Spawned.got_of_inv oc fid s.o x v e hx hg
  have hb := hxb _ hxe
  simp only at hb
  have hloop := hi.hloop
  rw [hb] at hloop
  rcases hloop.2 with ⟨r, hr, -, -⟩ | ⟨-, hfull, hv, he⟩
  · rw [hf.1] at hr
    cases hr
  · exact ⟨hv, he, hfull⟩

theorem AnyState.run_allFail (fs : List Future) (oc fid : Nat) :
    ∀ (sched : List AnyStep) (s : AnyState), s.Inv fs oc fid → s.AllFail →
      (s.run sched).AllFail := by
  intro sched
  induction sched with
  | nil => intro s _ hf; exact hf
  | cons st sched ih =>
    intro s hi hf
    exact ih _ (AnyState.step_inv fs oc fid s st hi) (AnyState.step_allFail fs oc fid s st hi hf)

theorem AnyState.step_all_sent (fs : List Future) (oc fid : Nat) (s : AnyState) (st : AnyStep)
    (hi : s.Inv fs oc fid) (hf : s.AllFail)
    (hs : ∀ (j : Nat) (w : Worker), s.workers[j]? = some w → w = Worker.sent) :
    ∀ (j : Nat) (w : Worker), (s.step st).workers[j]? = some w → w = Worker.sent := by
  intro j w hw
  by_cases hst : ∀ pick, st ≠ AnyStep.worker j pick
  · rw [AnyState.step_workers s st j hst] at hw
    exact hs j w hw
  · simp only [ne_eq, not_forall, not_not] at hst
    obtain ⟨pick, rfl⟩ := hst
    exact AnyState.workerStep_sent fs oc fid s j pick hi hf
      (fun w0 hw0 => Or.inl (hs j w0 hw0)) w hw

/-- Once every worker has delivered, the move of the loop makes the function
return. -/
theorem AnyState.body_returns (fs : List Future) (oc fid : Nat) (s : AnyState)
    (hi : s.Inv fs oc fid)
    (hs : ∀ (j : Nat) (w : Worker), s.workers[j]? = some w → w = Worker.sent) :
    ∃ v e, (s.step AnyStep.body).body = Body.returned v e := by
  have hfull : s.arrivals.length = fs.length := by
    rw [← hi.hcount, ← hi.hlen]
    apply List.count_eq_length.2
    intro w hw
    obtain ⟨j, hj⟩ := List.mem_iff_getElem?.1 hw
    exact (hs j w hj).symm
  have hloop := hi.hloop
  rcases Body.cases3 s.body with ⟨k, err, hb⟩ | ⟨err, hb⟩ | ⟨v, e, hb⟩
  · rw [hb] at hloop
    have := hloop.2.2.1
    omega
  · rw [AnyState.step_body_zero s err hb]
    exact ⟨_, _, rfl⟩
  · rw [AnyState.step_body_returned s v e hb]
    exact ⟨v, e, hb⟩

/-- Once every worker holds or is about to hold a failed Result, every schedule
made of a part in which every worker moves, a second such part, and a part in
which the loop, the goroutine of `Go` and twice the caller move in that order,
ends with the caller's `Wait` returned. -/
theorem AnyState.fail_progress (fs : List Future) (oc fid : Nat) (s : AnyState)
    (a b c : List AnyStep) (p3 p4 : Bool) (hi : s.Inv fs oc fid) (hf : s.AllFail)
    (hca : ∀ j, j < fs.length → ∃ pick, AnyStep.worker j pick ∈ a)
    (hcb : ∀ j, j < fs.length → ∃ pick, AnyStep.worker j pick ∈ b)
    (hfair : [AnyStep.body, AnyStep.complete, AnyStep.wait p3, AnyStep.wait p4].Sublist c) :
    ∃ v e, (s.run (a ++ (b ++ c))).o.caller = Waiter.got v e := by
  -- first part: every worker comes to hold its failed Result
  have hG : ∀ (t : AnyState) (st : AnyStep), (t.Inv fs oc fid ∧ t.AllFail) →
      ((t.step st).Inv fs oc fid ∧ (t.step st).AllFail) := fun t st hg =>
    ⟨AnyState.step_inv fs oc fid t st hg.1, AnyState.step_allFail fs oc fid t st hg.1 hg.2⟩
  have hkeep1 : ∀ (t : AnyState) (st : AnyStep) (j : Nat), (t.Inv fs oc fid ∧ t.AllFail) →
      (∀ w, t.workers[j]? = some w →
        w = Worker.sent ∨ ∃ r, w = Worker.sending r ∧ r.Err ≠ none) →
      ∀ w, (t.step st).workers[j]? = some w →
        w = Worker.sent ∨ ∃ r, w = Worker.sending r ∧ r.Err ≠ none := by
    intro t st j hg hp w hw
    by_cases hst : ∀ pick, st ≠ AnyStep.worker j pick
    · rw [AnyState.step_workers t st j hst] at hw
      exact hp w hw
    · simp only [ne_eq, not_forall, not_not] at hst
      obtain ⟨pick, rfl⟩ := hst
      exact AnyState.workerStep_fail fs oc fid t j pick hg.1 hg.2 w hw
  obtain ⟨hg3, hp3⟩ := AnyState.pass (fun t => t.Inv fs oc fid ∧ t.AllFail)
    (fun t j => ∀ w, t.workers[j]? = some w →
      w = Worker.sent ∨ ∃ r, w = Worker.sending r ∧ r.Err ≠ none)
    hG hkeep1 (fun t j pick hg w hw => AnyState.workerStep_fail fs oc fid t j pick hg.1 hg.2 w hw)
    a s ⟨hi, hf⟩
  have hall1 : ∀ (j : Nat) (w : Worker), (s.run a).workers[j]? = some w →
      w = Worker.sent ∨ ∃ r, w = Worker.sending r ∧ r.Err ≠ none := by
    intro j
    apply hp3 j
    by_cases hj : j < fs.length
    · exact Or.inl (hca j hj)
    · refine Or.inr ?_
      intro w hw
      have := getElem?_lt _ _ _ hw
      rw [hi.hlen] at this
      omega
  -- second part: every worker delivers
  obtain ⟨hg4, hp4⟩ := AnyState.pass
    (fun t => (t.Inv fs oc fid ∧ t.AllFail) ∧ ∀ (j : Nat) (w : Worker),
      t.workers[j]? = some w → w = Worker.sent ∨ ∃ r, w = Worker.sending r ∧ r.Err ≠ none)
    (fun t j => ∀ w, t.workers[j]? = some w → w = Worker.sent)
    (fun t st hg => ⟨hG t st hg.1, fun j => hkeep1 t st j hg.1 (hg.2 j)⟩)
    (by
      intro t st j hg hp w hw
      by_cases hst : ∀ pick, st ≠ AnyStep.worker j pick
      · rw [AnyState.step_workers t st j hst] at hw
        exact hp w hw
      · simp only [ne_eq, not_forall, not_not] at hst
        obtain ⟨pick, rfl⟩ := hst
        exact AnyState.workerStep_sent fs oc fid t j pick hg.1.1 hg.1.2 (hg.2 j) w hw)
    (fun t j pick hg w hw =>
      AnyState.workerStep_sent fs oc fid t j pick hg.1.1 hg.1.2 (hg.2 j) w hw)
    b (s.run a) ⟨hg3, hall1⟩
  rw [AnyState.run_append, AnyState.run_append]
  generalize (s.run a).run b = t at hg4 hp4
  obtain ⟨⟨hit, hft⟩, -⟩ := hg4
  have hsent : ∀ (j : Nat) (w : Worker), t.workers[j]? = some w → w = Worker.sent := by
    intro j
    apply hp4 j
    by_cases hj : j < fs.length
    · exact Or.inl (hcb j hj)
    · refine Or.inr ?_
      intro w hw
      have := getElem?_lt _ _ _ hw
      rw [hg3.1.hlen] at this
      omega
  -- third part: the loop leaves, the promise is completed, the caller receives
  have key := sublist_progress AnyState.step
    (fun k u => u.Inv fs oc fid ∧ u.AllFail ∧
      (∀ (j : Nat) (w : Worker), u.workers[j]? = some w → w = Worker.sent) ∧
      (1 ≤ k → ∃ v e, u.body = Body.returned v e) ∧
      (2 ≤ k → u.o.task = Task.finished) ∧
      (3 ≤ k → 1 ≤ u.o.caller.rank) ∧ (4 ≤ k → 2 ≤ u.o.caller.rank))
    [AnyStep.body, AnyStep.complete, AnyStep.wait p3, AnyStep.wait p4]
    (by
      intro k u st ⟨hui, huf, hus, h1, h2, h3, h4⟩
      have hm := AnyState.step_rank fs oc fid u st hui
      refine ⟨AnyState.step_inv fs oc fid u st hui, AnyState.step_allFail fs oc fid u st hui huf,
        AnyState.step_all_sent fs oc fid u st hui huf hus, ?_,
        fun hk => AnyState.step_task u st (h2 hk),
        fun hk => Nat.le_trans (h3 hk) hm, fun hk => Nat.le_trans (h4 hk) hm⟩
      intro hk
      obtain ⟨v, e, hb⟩ := h1 hk
      exact ⟨v, e, AnyState.step_returned u st v e hb⟩)
    (by
      intro k u hk ⟨hui, huf, hus, h1, h2, h3, h4⟩
      simp only [List.length_cons, List.length_nil] at hk
      have hk4 : k = 0 ∨ k = 1 ∨ k = 2 ∨ k = 3 := by omega
      have hbase : ∀ st, (u.step st).Inv fs oc fid ∧ (u.step st).AllFail ∧
          ∀ (j : Nat) (w : Worker), (u.step st).workers[j]? = some w → w = Worker.sent :=
        fun st => ⟨AnyState.step_inv fs oc fid u st hui,
          AnyState.step_allFail fs oc fid u st hui huf,
          AnyState.step_all_sent fs oc fid u st hui huf hus⟩
      rcases hk4 with rfl | rfl | rfl | rfl
      · exact ⟨(hbase _).1, (hbase _).2.1, (hbase _).2.2,
          fun _ => AnyState.body_returns fs oc fid u hui hus,
          fun hc => absurd hc (by omega), fun hc => absurd hc (by omega),
          fun hc => absurd hc (by omega)⟩
      · obtain ⟨v, e, hb⟩ := h1 (by omega)
        exact ⟨(hbase _).1, (hbase _).2.1, (hbase _).2.2,
          fun _ => ⟨v, e, AnyState.step_returned u _ v e hb⟩,
          fun _ => AnyState.complete_finishes fs oc fid u v e hui hb,
          fun hc => absurd hc (by omega), fun hc => absurd hc (by omega)⟩
      · obtain ⟨v, e, hb⟩ := h1 (by omega)
        have hd := AnyState.wait_rank fs oc fid u p3 hui (h2 (by omega))
        exact ⟨(hbase _).1, (hbase _).2.1, (hbase _).2.2,
          fun _ => ⟨v, e, AnyState.step_returned u _ v e hb⟩,
          fun _ => AnyState.step_task u _ (h2 (by omega)),
          fun _ => by
            show 1 ≤ (u.step (AnyStep.wait p3)).o.caller.rank
            omega,
          fun hc => absurd hc (by omega)⟩
      · obtain ⟨v, e, hb⟩ := h1 (by omega)
        have hd := AnyState.wait_rank fs oc fid u p4 hui (h2 (by omega))
        have h31 := h3 (by omega)
        exact ⟨(hbase _).1, (hbase _).2.1, (hbase _).2.2,
          fun _ => ⟨v, e, AnyState.step_returned u _ v e hb⟩,
          fun _ => AnyState.step_task u _ (h2 (by omega)),
          fun _ => by
            show 1 ≤ (u.step (AnyStep.wait p4)).o.caller.rank
            omega,
          fun _ => by
            show 2 ≤ (u.step (AnyStep.wait p4)).o.caller.rank
            omega⟩)
    c 0 t (Nat.zero_le _) hfair
    ⟨hit, hft, hsent, fun hc => absurd hc (by omega), fun hc => absurd hc (by omega),
      fun hc => absurd hc (by omega), fun hc => absurd hc (by omega)⟩
  rw [← AnyState.run_eq_foldl] at key
  exact Waiter.got_of_rank _ (key.2.2.2.2.2.2 (by simp))

theorem AnyState.fail_core (fs : List Future) (oc fid : Nat) (s : AnyState)
    (more a b c : List AnyStep) (p3 p4 : Bool) (hi : s.Inv fs oc fid) (hf : s.AllFail)
    (hca : ∀ j, j < fs.length → ∃ pick, AnyStep.worker j pick ∈ a)
    (hcb : ∀ j, j < fs.length → ∃ pick, AnyStep.worker j pick ∈ b)
    (hfair : [AnyStep.body, AnyStep.complete, AnyStep.wait p3, AnyStep.wait p4].Sublist c) :
    (∀ v e, (s.run more).o.caller = Waiter.got v e →
        v = Val.nil ∧ e = lastErr (s.run more).arrivals ∧
          (s.run more).arrivals.length = fs.length ∧ firstOk (s.run more).arrivals = none) ∧
      (s.run (a ++ (b ++ c))).o.caller =
        Waiter.got Val.nil (lastErr (s.run (a ++ (b ++ c))).arrivals) ∧
      (s.run (a ++ (b ++ c))).arrivals.length = fs.length ∧
      firstOk (s.run (a ++ (b ++ c))).arrivals = none := by
  have hsafe : ∀ (sc : List AnyStep) v e, (s.run sc).o.caller = Waiter.got v e →
      v = Val.nil ∧ e = lastErr (s.run sc).arrivals ∧
        (s.run sc).arrivals.length = fs.length ∧ firstOk (s.run sc).arrivals = none := by
    intro sc v e hg
    have hi2 := AnyState.run_inv fs oc fid sc s hi
    have hf2 := AnyState.run_allFail fs oc fid sc s hi hf
    obtain ⟨hv, he, hlen⟩ := AnyState.got_fail fs oc fid _ v e hi2 hf2 hg
    exact ⟨hv, he, hlen, hf2.1⟩
  refine ⟨hsafe more, ?_⟩
  obtain ⟨v, e, hg⟩ := AnyState.fail_progress fs oc fid s a b c p3 p4 hi hf hca hcb hfair
  obtain ⟨hv, he, hlen, hnone⟩ := hsafe _ v e hg
  exact ⟨by rw [hg, hv, he], hlen, hnone⟩

theorem Any_allFail_fixed (fs : List Future) (h : Heap)
    (hfs : ∀ f ∈ fs, ∃ ff, f = Future.fixed ff ∧ ff.err ≠ none) : (Any fs h).AllFail := by
  refine ⟨rfl, ?_⟩
  intro i w hw
  simp only [Any, List.getElem?_map] at hw
  cases hfi : fs[i]? with
  | none => simp [hfi] at hw
  | some f =>
    simp only [hfi, Option.map_some', Option.some.injEq] at hw
    obtain ⟨ff, rfl, herr⟩ := hfs f (List.mem_iff_getElem?.2 ⟨i, hfi⟩)
    exact Or.inr (Or.inr ⟨hw.symm, ff, hfi, herr⟩)

/-- Claim C7: around `Any(fs...)` with `fs` non-empty, once every worker holds a
Result with a non-nil error (or is about to take one from an immediate future,
or has delivered one), then under every further schedule a `Wait` on the
returned future that has returned has returned `(nil, e_last)`, with `e_last`
the error of the last arrival, after one arrival per input, all failures; and
under every further schedule made of a part `a` in which every worker moves, a
part `b` in which every worker moves, and a part `c` in which the loop, the
completion and twice the caller move in that order, whatever else happens in
between, the `Wait` has returned `(nil, e_last)`. The value is nil whatever
values the failed Results carried. In particular with as many inputs, all
`Failure(e)` with `e` non-nil, under every schedule a returned `Wait` has
returned `(nil, e)`, and it has returned it after `a`, `b` and `c`. -/
theorem any_all_failures_gives_last_error (fs : List Future) (h : Heap)
    (sched more a b c : List AnyStep) (p3 p4 : Bool) (ev : ErrVal)
    (hne : fs ≠ []) (hclosed : h.Closed) (hholds : h.Holds fs)
    (hfail : ((Any fs h).run sched).AllFail)
    (hca : ∀ j, j < fs.length → ∃ pick, AnyStep.worker j pick ∈ a)
    (hcb : ∀ j, j < fs.length → ∃ pick, AnyStep.worker j pick ∈ b)
    (hfair : [AnyStep.body, AnyStep.complete, AnyStep.wait p3, AnyStep.wait p4].Sublist c) :
    (∀ v e, ((Any fs h).run (sched ++ more)).o.caller = Waiter.got v e →
        v = Val.nil ∧ e = lastErr ((Any fs h).run (sched ++ more)).arrivals ∧
          ((Any fs h).run (sched ++ more)).arrivals.length = fs.length ∧
          firstOk ((Any fs h).run (sched ++ more)).arrivals = none) ∧
      (((Any fs h).run (sched ++ (a ++ (b ++ c)))).o.caller =
          Waiter.got Val.nil (lastErr ((Any fs h).run (sched ++ (a ++ (b ++ c)))).arrivals) ∧
        ((Any fs h).run (sched ++ (a ++ (b ++ c)))).arrivals.length = fs.length ∧
        firstOk ((Any fs h).run (sched ++ (a ++ (b ++ c)))).arrivals = none) ∧
      (∀ v e, ((Any (List.replicate fs.length (Failure (some ev))) h).run more).o.caller =
          Waiter.got v e → v = Val.nil ∧ e = some ev) ∧
      ((Any (List.replicate fs.length (Failure (some ev))) h).run (a ++ (b ++ c))).o.caller =
        Waiter.got Val.nil (some ev) := by
  have hi := AnyState.run_inv fs h.chans.length h.futs.length sched (Any fs h)
    (Any_inv fs h hclosed hholds)
  obtain ⟨hsafe, hlive⟩ := AnyState.fail_core fs h.chans.length h.futs.length _ more a b c
    p3 p4 hi hfail hca hcb hfair
  rw [AnyState.run_append, AnyState.run_append]
  refine ⟨hsafe, hlive, ?_⟩
  have hpos : 0 < fs.length := List.length_pos.2 hne
  have hfixed : ∀ f ∈ List.replicate fs.length (Failure (some ev)),
      ∃ ff, f = Future.fixed ff ∧ ff.err ≠ none := by
    intro f hf
    rw [List.eq_of_mem_replicate hf]
    exact ⟨⟨Val.nil, some ev⟩, rfl, by simp⟩
  have hiF := Any_inv (List.replicate fs.length (Failure (some ev))) h hclosed
    (Holds_fixed h _ (fun f hf => by
      obtain ⟨ff, hff, -⟩ := hfixed f hf
      exact ⟨ff, hff⟩))
  have hfF := Any_allFail_fixed (List.replicate fs.length (Failure (some ev))) h hfixed
  have hlenF : (List.replicate fs.length (Failure (some ev))).length = fs.length := by simp
  obtain ⟨hsafeF, hgotF, hfullF, -⟩ := AnyState.fail_core _ h.chans.length h.futs.length _
    more a b c p3 p4 hiF hfF (by rw [hlenF]; exact hca) (by rw [hlenF]; exact hcb) hfair
  have hlast : ∀ (sc : List AnyStep),
      ((Any (List.replicate fs.length (Failure (some ev))) h).run sc).arrivals.length =
        (List.replicate fs.length (Failure (some ev))).length →
      lastErr ((Any (List.replicate fs.length (Failure (some ev))) h).run sc).arrivals =
        some ev := by
    intro sc hlen
    have hiS := AnyState.run_inv _ h.chans.length h.futs.length sc _ hiF
    have hnil : ((Any (List.replicate fs.length (Failure (some ev))) h).run sc).arrivals ≠
        [] := by
      intro hnil
      rw [hnil, hlenF] at hlen
      simp only [List.length_nil] at hlen
      omega
    obtain ⟨j, r, hj, hr⟩ := lastErr_mem _ hnil
    have hlt := hiS.hidx j r hj
    have hfj : (List.replicate fs.length (Failure (some ev)))[j]? =
        some (Future.fixed ⟨Val.nil, some ev⟩) := by
      rw [List.getElem?_eq_getElem hlt]
      simp [Failure, Fixed]
    rw [hr, hiS.hfixed j r _ hfj (Or.inl hj)]
  refine ⟨?_, ?_⟩
  · intro v e hg
    obtain ⟨hv, he, hlen, -⟩ := hsafeF v e hg
    exact ⟨hv, by rw [he, hlast more hlen]⟩
  · rw [hgotF, hlast _ hfullF]

/-! ## Concrete runs -/

/-- Two futures obtained one after the other from a fresh promise, waited on in
reverse order after `Complete(7, err)`. -/
theorem promise_complete_then_wait_witness :
    (([(Future.ptr 1, true), (Future.ptr 0, false)] : List (Future × Bool)).map Prod.fst).Perm
        (futuresN 2 NewPromise ⟨[], []⟩).1 ∧
      ∃ p2 h2, (futuresN 2 NewPromise ⟨[], []⟩).2.1.Complete (Val.int 7) (some (ErrVal.other 3))
          (futuresN 2 NewPromise ⟨[], []⟩).2.2 = some (none, p2, h2) ∧
        (waitSeq ([(Future.ptr 1, true), (Future.ptr 0, false)].map
          fun c => (c.1, Context.Background, c.2)) h2).1 =
          List.replicate 2 (WaitOutcome.returned (Val.int 7) (some (ErrVal.other 3))) :=
  ⟨List.Perm.swap _ _ _,
    promise_complete_then_wait (Val.int 7) (some (ErrVal.other 3)) 2 ⟨[], []⟩
      [(Future.ptr 1, true), (Future.ptr 0, false)] (List.Perm.swap _ _ _)⟩

/-- A concrete run for C2: two futures, a cancelled `Wait` on the first, then
`Complete(1, err)` followed by `Complete(2, nil)`. -/
theorem complete_only_first_succeeds_witness :
    (∀ c ∈ [Call.future, Call.wait (Future.ptr 0) ⟨some ErrVal.canceled⟩ true, Call.future],
        c.isComplete = false) ∧
      ∃ p1 h1 p2 h2,
        runCalls [Call.future, Call.wait (Future.ptr 0) ⟨some ErrVal.canceled⟩ true, Call.future]
          NewPromise ⟨[], []⟩ = some (p1, h1) ∧
        p1.Complete (Val.int 1) (some (ErrVal.other 0)) h1 = some (none, p2, h2) ∧
        p2.result = some (newResult (Val.int 1) (some (ErrVal.other 0))) ∧
        completeSeq [(Val.int 1, some (ErrVal.other 0)), (Val.int 2, none)] p1 h1 =
          some ([none, some ErrAlreadyDone], p2, h2) :=
  ⟨by decide, by
    obtain ⟨p1, h1, p2, h2, hr, hc, hres, hseq, -, -⟩ :=
      complete_only_first_succeeds ⟨[], []⟩
        [Call.future, Call.wait (Future.ptr 0) ⟨some ErrVal.canceled⟩ true, Call.future]
        (Val.int 1) (some (ErrVal.other 0)) [(Val.int 2, none)] (by decide)
    exact ⟨p1, h1, p2, h2, hr, hc, hres, hseq⟩⟩

/-- A concrete run for C3: the first `Wait` ends with the cancellation error,
the Result is delivered afterwards, and the second `Wait` leaves it unread. -/
theorem wait_after_first_is_already_done_witness :
    (⟨[⟨1, []⟩], [⟨0, 0⟩]⟩ : Heap).futs[0]? = some ⟨0, 0⟩ ∧
      (future.Wait 0 ⟨some ErrVal.canceled⟩ true ⟨[⟨1, []⟩], [⟨0, 0⟩]⟩).1 =
        WaitOutcome.returned Val.nil (some ErrVal.canceled) ∧
      future.Wait 0 Context.Background true
          ⟨[⟨1, [⟨Val.int 4, none⟩]⟩], [⟨0, 1⟩]⟩ =
        (WaitOutcome.returned Val.nil (some ErrAlreadyDone),
          ⟨[⟨1, [⟨Val.int 4, none⟩]⟩], [⟨0, 1⟩]⟩) :=
  ⟨rfl, rfl,
    wait_after_first_is_already_done ⟨[⟨1, []⟩], [⟨0, 0⟩]⟩ 0 ⟨0, 0⟩ ⟨some ErrVal.canceled⟩ true
      [HeapOp.send 0 ⟨Val.int 4, none⟩] Context.Background true rfl⟩

/-- A concrete run for C4: a promise with one registered channel is completed
with `(1, err)`; `Future()` then returns `Fixed(1, err)`. -/
theorem future_of_completed_promise_witness :
    promise.Complete ⟨[0], none⟩ (Val.int 1) (some (ErrVal.other 0)) ⟨[⟨1, []⟩], [⟨0, 0⟩]⟩ =
        some (none, ⟨[0], some ⟨Val.int 1, some (ErrVal.other 0)⟩⟩,
          ⟨[⟨1, [⟨Val.int 1, some (ErrVal.other 0)⟩]⟩], [⟨0, 0⟩]⟩) ∧
      promise.Future ⟨[0], some ⟨Val.int 1, some (ErrVal.other 0)⟩⟩ ⟨[], []⟩ =
        (Fixed (Val.int 1) (some (ErrVal.other 0)),
          ⟨[0], some ⟨Val.int 1, some (ErrVal.other 0)⟩⟩, ⟨[], []⟩) :=
  ⟨rfl,
    (future_of_completed_promise ⟨[0], none⟩ ⟨[0], some ⟨Val.int 1, some (ErrVal.other 0)⟩⟩
      ⟨[⟨1, []⟩], [⟨0, 0⟩]⟩ ⟨[⟨1, [⟨Val.int 1, some (ErrVal.other 0)⟩]⟩], [⟨0, 0⟩]⟩ ⟨[], []⟩
      ⟨[], []⟩ (Val.int 1) (some (ErrVal.other 0)) [(⟨some ErrVal.canceled⟩, false)] rfl).1⟩

/-- A concrete run for C8: empty channel, deadline already exceeded. -/
theorem wait_cancelled_on_empty_witness :
    (⟨[⟨1, []⟩], [⟨0, 0⟩]⟩ : Heap).futs[0]? = some ⟨0, 0⟩ ∧
      (⟨[⟨1, []⟩], [⟨0, 0⟩]⟩ : Heap).chans[0]? = some ⟨1, []⟩ ∧
      future.Wait 0 ⟨some ErrVal.deadlineExceeded⟩ true ⟨[⟨1, []⟩], [⟨0, 0⟩]⟩ =
        (WaitOutcome.returned Val.nil (some ErrVal.deadlineExceeded),
          ⟨[⟨1, []⟩], [⟨0, 1⟩]⟩) :=
  ⟨rfl, rfl,
    wait_cancelled_on_empty ⟨[⟨1, []⟩], [⟨0, 0⟩]⟩ 0 0 1 ErrVal.deadlineExceeded true rfl rfl⟩

/-- A concrete run for C10: Result on the channel, token cancelled, and the
`select` takes the receive. -/
theorem wait_with_result_delivered_witness :
    (⟨[⟨1, [⟨Val.int 1, none⟩]⟩], [⟨0, 0⟩]⟩ : Heap).futs[0]? = some ⟨0, 0⟩ ∧
      (⟨[⟨1, [⟨Val.int 1, none⟩]⟩], [⟨0, 0⟩]⟩ : Heap).chans[0]? =
        some ⟨1, [⟨Val.int 1, none⟩]⟩ ∧
      future.Wait 0 ⟨some ErrVal.canceled⟩ true ⟨[⟨1, [⟨Val.int 1, none⟩]⟩], [⟨0, 0⟩]⟩ =
        (WaitOutcome.returned (Val.int 1) none, ⟨[⟨1, []⟩], [⟨0, 1⟩]⟩) :=
  ⟨rfl, rfl,
    wait_with_result_delivered ⟨[⟨1, [⟨Val.int 1, none⟩]⟩], [⟨0, 0⟩]⟩ 0 0 1 ⟨Val.int 1, none⟩ []
      ⟨some ErrVal.canceled⟩ true rfl rfl⟩

/-- A concrete run for C6: `Any(Failure(e), f)` with `f` a channel-backed future
holding `(5, nil)`; the failure arrives first and the race resolves to `(5, nil)`. -/
theorem any_first_success_wins_witness :
    (⟨[⟨1, [⟨Val.int 5, none⟩]⟩], [⟨0, 0⟩]⟩ : Heap).Closed ∧
      (⟨[⟨1, [⟨Val.int 5, none⟩]⟩], [⟨0, 0⟩]⟩ : Heap).Holds
        [Failure (some (ErrVal.other 1)), Future.ptr 0] ∧
      ((Any [Failure (some (ErrVal.other 1)), Future.ptr 0]
        ⟨[⟨1, [⟨Val.int 5, none⟩]⟩], [⟨0, 0⟩]⟩).run
          [AnyStep.worker 1 true, AnyStep.worker 1 true]).OkAt 1 ∧
      [AnyStep.worker 1 true, AnyStep.worker 1 false, AnyStep.complete, AnyStep.wait true,
          AnyStep.wait true].Sublist
        [AnyStep.worker 0 true, AnyStep.worker 0 true, AnyStep.worker 1 true,
          AnyStep.wait false, AnyStep.worker 1 false, AnyStep.complete, AnyStep.wait true,
          AnyStep.wait true] ∧
      ((Any [Failure (some (ErrVal.other 1)), Future.ptr 0]
        ⟨[⟨1, [⟨Val.int 5, none⟩]⟩], [⟨0, 0⟩]⟩).run
          ([AnyStep.worker 1 true, AnyStep.worker 1 true] ++
            [AnyStep.worker 0 true, AnyStep.worker 0 true, AnyStep.worker 1 true,
              AnyStep.wait false, AnyStep.worker 1 false, AnyStep.complete, AnyStep.wait true,
              AnyStep.wait true])).o.caller = Waiter.got (Val.int 5) none := by
  have hclosed : (⟨[⟨1, [⟨Val.int 5, none⟩]⟩], [⟨0, 0⟩]⟩ : Heap).Closed := by
    intro g hg
    simp only [List.mem_singleton] at hg
    subst hg
    decide
  have hholds : (⟨[⟨1, [⟨Val.int 5, none⟩]⟩], [⟨0, 0⟩]⟩ : Heap).Holds
      [Failure (some (ErrVal.other 1)), Future.ptr 0] := by
    intro id hid
    simp only [Failure, Fixed, List.mem_cons, Future.ptr.injEq, List.mem_singleton,
      List.not_mem_nil, or_false] at hid
    rcases hid with hid | hid
    · cases hid
    · subst hid
      decide
  have hok : ((Any [Failure (some (ErrVal.other 1)), Future.ptr 0]
      ⟨[⟨1, [⟨Val.int 5, none⟩]⟩], [⟨0, 0⟩]⟩).run
        [AnyStep.worker 1 true, AnyStep.worker 1 true]).OkAt 1 :=
    Or.inl ⟨⟨Val.int 5, none⟩, by decide, rfl⟩
  refine ⟨hclosed, hholds, hok, by decide, ?_⟩
  obtain ⟨j, r0, h0, -, -, hg⟩ := (any_first_success_wins
    [Failure (some (ErrVal.other 1)), Future.ptr 0] ⟨[⟨1, [⟨Val.int 5, none⟩]⟩], [⟨0, 0⟩]⟩
    [AnyStep.worker 1 true, AnyStep.worker 1 true] []
    [AnyStep.worker 0 true, AnyStep.worker 0 true, AnyStep.worker 1 true,
      AnyStep.wait false, AnyStep.worker 1 false, AnyStep.complete, AnyStep.wait true,
      AnyStep.wait true]
    [AnyStep.worker 2 true, AnyStep.worker 2 true, AnyStep.complete, AnyStep.wait true,
      AnyStep.wait true]
    1 true false true true true true true true
    (ErrVal.other 1) (Val.int 1) hclosed hholds hok (by decide) (by decide)).2.1
  rw [hg]
  have h1 : firstOk ((Any [Failure (some (ErrVal.other 1)), Future.ptr 0]
      ⟨[⟨1, [⟨Val.int 5, none⟩]⟩], [⟨0, 0⟩]⟩).run
        ([AnyStep.worker 1 true, AnyStep.worker 1 true] ++
          [AnyStep.worker 0 true, AnyStep.worker 0 true, AnyStep.worker 1 true,
            AnyStep.wait false, AnyStep.worker 1 false, AnyStep.complete, AnyStep.wait true,
            AnyStep.wait true])).arrivals = some ⟨Val.int 5, none⟩ := by decide
  rw [h1] at h0
  cases h0
  rfl

/-- A concrete run for C7: `Any(Failure(e1), f)` with `f` a channel-backed future
holding `(9, e2)`; `(9, e2)` arrives first, `(nil, e1)` last, and the race resolves
to `(nil, e1)`. -/
theorem any_all_failures_gives_last_error_witness :
    [Failure (some (ErrVal.other 1)), Future.ptr 0] ≠ [] ∧
      (⟨[⟨1, [⟨Val.int 9, some (ErrVal.other 2)⟩]⟩], [⟨0, 0⟩]⟩ : Heap).Closed ∧
      (⟨[⟨1, [⟨Val.int 9, some (ErrVal.other 2)⟩]⟩], [⟨0, 0⟩]⟩ : Heap).Holds
        [Failure (some (ErrVal.other 1)), Future.ptr 0] ∧
      ((Any [Failure (some (ErrVal.other 1)), Future.ptr 0]
        ⟨[⟨1, [⟨Val.int 9, some (ErrVal.other 2)⟩]⟩], [⟨0, 0⟩]⟩).run
          [AnyStep.worker 1 true, AnyStep.worker 1 true]).AllFail ∧
      (∀ j, j < [Failure (some (ErrVal.other 1)), Future.ptr 0].length →
        ∃ pick, AnyStep.worker j pick ∈
          [AnyStep.worker 1 true, AnyStep.env (HeapOp.makeChan 1), AnyStep.worker 0 true]) ∧
      (∀ j, j < [Failure (some (ErrVal.other 1)), Future.ptr 0].length →
        ∃ pick, AnyStep.worker j pick ∈ [AnyStep.worker 0 false, AnyStep.worker 1 false]) ∧
      [AnyStep.body, AnyStep.complete, AnyStep.wait true, AnyStep.wait false].Sublist
        [AnyStep.wait true, AnyStep.body, AnyStep.complete, AnyStep.wait true,
          AnyStep.wait false] ∧
      ((Any [Failure (some (ErrVal.other 1)), Future.ptr 0]
        ⟨[⟨1, [⟨Val.int 9, some (ErrVal.other 2)⟩]⟩], [⟨0, 0⟩]⟩).run
          ([AnyStep.worker 1 true, AnyStep.worker 1 true] ++
            ([AnyStep.worker 1 true, AnyStep.env (HeapOp.makeChan 1), AnyStep.worker 0 true] ++
              ([AnyStep.worker 0 false, AnyStep.worker 1 false] ++
                [AnyStep.wait true, AnyStep.body, AnyStep.complete, AnyStep.wait true,
                  AnyStep.wait false])))).o.caller =
        Waiter.got Val.nil (some (ErrVal.other 1)) := by
  have hclosed : (⟨[⟨1, [⟨Val.int 9, some (ErrVal.other 2)⟩]⟩], [⟨0, 0⟩]⟩ : Heap).Closed := by
    intro g hg
    simp only [List.mem_singleton] at hg
    subst hg
    decide
  have hholds : (⟨[⟨1, [⟨Val.int 9, some (ErrVal.other 2)⟩]⟩], [⟨0, 0⟩]⟩ : Heap).Holds
      [Failure (some (ErrVal.other 1)), Future.ptr 0] := by
    intro id hid
    simp only [Failure, Fixed, List.mem_cons, Future.ptr.injEq, List.mem_singleton,
      List.not_mem_nil, or_false] at hid
    rcases hid with hid | hid
    · cases hid
    · subst hid
      decide
  have hfail : ((Any [Failure (some (ErrVal.other 1)), Future.ptr 0]
      ⟨[⟨1, [⟨Val.int 9, some (ErrVal.other 2)⟩]⟩], [⟨0, 0⟩]⟩).run
        [AnyStep.worker 1 true, AnyStep.worker 1 true]).AllFail := by
    refine ⟨rfl, ?_⟩
    intro i w hw
    match i with
    | 0 =>
      cases hw
      exact Or.inr (Or.inr ⟨rfl, ⟨Val.nil, some (ErrVal.other 1)⟩, rfl, by simp⟩)
    | 1 =>
      cases hw
      exact Or.inr (Or.inl ⟨⟨Val.int 9, some (ErrVal.other 2)⟩, rfl, by simp⟩)
    | n + 2 => cases hw
  have hca : ∀ j, j < [Failure (some (ErrVal.other 1)), Future.ptr 0].length →
      ∃ pick, AnyStep.worker j pick ∈
        [AnyStep.worker 1 true, AnyStep.env (HeapOp.makeChan 1), AnyStep.worker 0 true] := by
    intro j hj
    simp only [List.length_cons, List.length_nil] at hj
    have hj2 : j = 0 ∨ j = 1 := by omega
    rcases hj2 with rfl | rfl <;> exact ⟨true, by decide⟩
  have hcb : ∀ j, j < [Failure (some (ErrVal.other 1)), Future.ptr 0].length →
      ∃ pick, AnyStep.worker j pick ∈ [AnyStep.worker 0 false, AnyStep.worker 1 false] := by
    intro j hj
    simp only [List.length_cons, List.length_nil] at hj
    have hj2 : j = 0 ∨ j = 1 := by omega
    rcases hj2 with rfl | rfl <;> exact ⟨false, by decide⟩
  refine ⟨by simp, hclosed, hholds, hfail, hca, hcb, by decide, ?_⟩
  have hthm := (any_all_failures_gives_last_error
    [Failure (some (ErrVal.other 1)), Future.ptr 0]
    ⟨[⟨1, [⟨Val.int 9, some (ErrVal.other 2)⟩]⟩], [⟨0, 0⟩]⟩
    [AnyStep.worker 1 true, AnyStep.worker 1 true] []
    [AnyStep.worker 1 true, AnyStep.env (HeapOp.makeChan 1), AnyStep.worker 0 true]
    [AnyStep.worker 0 false, AnyStep.worker 1 false]
    [AnyStep.wait true, AnyStep.body, AnyStep.complete, AnyStep.wait true, AnyStep.wait false]
    true false (ErrVal.other 1)
    (by simp) hclosed hholds hfail hca hcb (by decide)).2.1.1
  rw [hthm]
  decide

/-! ## The registered channels of a promise -/

theorem DrainsTo_refl (h : Heap) : h.DrainsTo h :=
  ⟨Nat.le_refl _, fun _ ch hc => ⟨ch, hc, rfl, List.suffix_refl _⟩⟩

theorem DrainsTo_of_chans (h h1 : Heap) (hc : h1.chans = h.chans) : h.DrainsTo h1 := by
  refine ⟨by rw [hc], ?_⟩
  intro c ch hch
  exact ⟨ch, by rw [hc]; exact hch, rfl, List.suffix_refl _⟩

theorem DrainsTo_trans (h h1 h2 : Heap) (h01 : h.DrainsTo h1) (h12 : h1.DrainsTo h2) :
    h.DrainsTo h2 := by
  refine ⟨Nat.le_trans h01.1 h12.1, ?_⟩
  intro c ch hch
  obtain ⟨ch1, hch1, hcap1, hbuf1⟩ := h01.2 c ch hch
  obtain ⟨ch2, hch2, hcap2, hbuf2⟩ := h12.2 c ch1 hch1
  exact ⟨ch2, hch2, by rw [hcap2, hcap1], hbuf2.trans hbuf1⟩

theorem recv_drains (h : Heap) (c : Nat) (r : Result) (h1 : Heap)
    (hr : h.recv c = some (r, h1)) : h.DrainsTo h1 := by
  obtain ⟨cap, rest, hc, rfl⟩ := recv_some h c r h1 hr
  refine ⟨by simp, ?_⟩
  intro d ch hd
  by_cases hcd : c = d
  · subst hcd
    rw [hc] at hd
    cases hd
    exact ⟨⟨cap, rest⟩, by simp [getElem?_lt _ _ _ hc], rfl, List.suffix_cons r rest⟩
  · exact ⟨ch, by simp only []; rw [List.getElem?_set_ne hcd]; exact hd, rfl,
      List.suffix_refl _⟩

theorem apply_drains (h : Heap) (op : HeapOp) (hop : ∀ c r, op ≠ HeapOp.send c r) :
    h.DrainsTo (h.apply op) := by
  cases op with
  | makeChan cap =>
    refine ⟨by simp [Heap.apply, Heap.makeChan], ?_⟩
    intro c ch hc
    exact ⟨ch, by
      simp only [Heap.apply, Heap.makeChan]
      rw [List.getElem?_append_left (getElem?_lt _ _ _ hc)]
      exact hc, rfl, List.suffix_refl _⟩
  | newFuture c => exact DrainsTo_of_chans _ _ rfl
  | send c r => exact absurd rfl (hop c r)
  | recv c =>
    simp only [Heap.apply]
    cases hr : h.recv c with
    | none => exact DrainsTo_refl h
    | some rh =>
      obtain ⟨r, h1⟩ := rh
      exact recv_drains h c r h1 hr
  | cas id =>
    simp only [Heap.apply]
    cases hc : h.compareAndSwapDone id 0 1 with
    | none => exact DrainsTo_refl h
    | some bh =>
      obtain ⟨b, h1⟩ := bh
      exact DrainsTo_of_chans _ _ (cas_chans h id b h1 hc)

theorem select_drains (c : Nat) (ctx : Context) (pick : Bool) (h : Heap) :
    h.DrainsTo (future.select c ctx pick h).2 := by
  rcases select_heap c ctx pick h with heq | heq
  · rw [heq]
    exact DrainsTo_refl h
  · rw [heq]
    exact apply_drains h _ (fun _ _ hx => by cases hx)

theorem Wait_drains (f : Future) (ctx : Context) (pick : Bool) (h : Heap) :
    h.DrainsTo (f.Wait ctx pick h).2 := by
  cases f with
  | fixed ff => exact DrainsTo_refl h
  | ptr id =>
    simp only [Future.Wait, future.Wait]
    cases hf : h.futs[id]? with
    | none => exact DrainsTo_refl h
    | some fu =>
      cases hc : h.compareAndSwapDone id 0 1 with
      | none => exact DrainsTo_refl h
      | some bh =>
        obtain ⟨b, h1⟩ := bh
        have h1c := DrainsTo_of_chans h h1 (cas_chans h id b h1 hc)
        cases b with
        | false => exact h1c
        | true => exact DrainsTo_trans _ _ _ h1c (select_drains _ _ _ _)

theorem receivedBy_append (log extra : List (Nat × Result)) (c : Nat) :
    receivedBy (log ++ extra) c = receivedBy log c ++ receivedBy extra c := by
  simp [receivedBy]

theorem receivedBy_of_bound (log : List (Nat × Result)) (c n : Nat)
    (hb : ∀ x ∈ log, x.1 < n) (hc : n ≤ c) : receivedBy log c = [] := by
  unfold receivedBy
  rw [List.filter_eq_nil_iff]
  intro x hx
  have := hb x hx
  simp only [decide_eq_true_eq]
  omega

theorem receivedBy_broadcast (r : Result) : ∀ (cs : List Nat) (c : Nat), cs.Nodup →
    receivedBy (cs.map fun d => (d, r)) c = if c ∈ cs then [(c, r)] else [] := by
  intro cs
  induction cs with
  | nil => intro c _; rfl
  | cons d cs ih =>
    intro c hnd
    rw [List.nodup_cons] at hnd
    have hrest := ih c hnd.2
    unfold receivedBy at hrest ⊢
    by_cases hdc : d = c
    · subst hdc
      simp only [List.map_cons, List.filter_cons, decide_True, if_true, List.mem_cons, true_or]
      rw [hrest, if_neg hnd.1]
    · have hcd : c ≠ d := fun hx => hdc hx.symm
      simp only [List.map_cons, List.filter_cons, hdc, decide_False, Bool.false_eq_true,
        if_false, List.mem_cons, hcd, false_or]
      exact hrest

theorem broadcastSent_fresh (r : Result) : ∀ (cs : List Nat) (h : Heap), cs.Nodup →
    (∀ c ∈ cs, h.chans[c]? = some ⟨1, []⟩) →
    broadcastSent r cs h = cs.map fun c => (c, r) := by
  intro cs
  induction cs with
  | nil => intro h _ _; rfl
  | cons c cs ih =>
    intro h hnd hall
    have hc := hall c (by simp)
    rw [List.nodup_cons] at hnd
    have hne : ∀ d ∈ cs, c ≠ d := fun d hd hcd => hnd.1 (hcd ▸ hd)
    simp only [broadcastSent, send_empty h c 1 r hc (by decide), List.map_cons]
    congr 1
    apply ih _ hnd.2
    intro d hd
    simp only []
    rw [List.getElem?_set_ne (hne d hd)]
    exact hall d (by simp [hd])

theorem Sound_of_drains (p : promise) (h h1 : Heap) (log : List (Nat × Result))
    (hs : p.Sound h log) (hd : h.DrainsTo h1) : p.Sound h1 log := by
  refine ⟨hs.nodup, fun x hx => Nat.lt_of_lt_of_le (hs.bound x hx) hd.1, ?_, ?_⟩
  · intro hp c hc
    obtain ⟨hch, hlog⟩ := hs.pending hp c hc
    obtain ⟨ch1, hch1, hcap, hbuf⟩ := hd.2 c _ hch
    obtain ⟨cap1, buf1⟩ := ch1
    simp only at hcap hbuf
    rw [List.suffix_nil] at hbuf
    subst hcap hbuf
    exact ⟨hch1, hlog⟩
  · intro r hp c hc
    obtain ⟨hch, hlog⟩ := hs.done r hp c hc
    refine ⟨?_, hlog⟩
    rcases hch with hch | hch
    · obtain ⟨ch1, hch1, hcap, hbuf⟩ := hd.2 c _ hch
      obtain ⟨cap1, buf1⟩ := ch1
      simp only at hcap hbuf
      subst hcap
      rcases List.suffix_cons_iff.1 hbuf with hb | hb
      · subst hb
        exact Or.inl hch1
      · rw [List.suffix_nil] at hb
        subst hb
        exact Or.inr hch1
    · obtain ⟨ch1, hch1, hcap, hbuf⟩ := hd.2 c _ hch
      obtain ⟨cap1, buf1⟩ := ch1
      simp only at hcap hbuf
      rw [List.suffix_nil] at hbuf
      subst hcap hbuf
      exact Or.inr hch1

theorem Sound_complete (cs : List Nat) (h : Heap) (log : List (Nat × Result)) (v : Val)
    (e : error) (hs : promise.Sound ⟨cs, none⟩ h log) :
    ∃ h1, promise.Complete ⟨cs, none⟩ v e h = some (none, ⟨cs, some (newResult v e)⟩, h1) ∧
      broadcastSent (newResult v e) cs h = cs.map (fun c => (c, newResult v e)) ∧
      promise.Sound ⟨cs, some (newResult v e)⟩ h1
        (log ++ cs.map fun c => (c, newResult v e)) ∧
      (∀ c ∈ cs, h1.chans[c]? = some ⟨1, [newResult v e]⟩) ∧
      (∀ c, c ∉ cs → h1.chans[c]? = h.chans[c]?) ∧ h1.futs = h.futs := by
  have hfresh : ∀ c ∈ cs, h.chans[c]? = some ⟨1, []⟩ := fun c hc => (hs.pending rfl c hc).1
  obtain ⟨h1, hb, hfuts, hlen, hin, hout⟩ :=
    broadcast_fresh (newResult v e) cs h hs.nodup hfresh
  refine ⟨h1, by simp [promise.Complete, hb],
    broadcastSent_fresh (newResult v e) cs h hs.nodup hfresh, ⟨hs.nodup, ?_, ?_, ?_⟩,
    hin, hout, hfuts⟩
  · intro x hx
    rw [hlen]
    rcases List.mem_append.1 hx with hx | hx
    · exact hs.bound x hx
    · obtain ⟨c, hc, rfl⟩ := List.mem_map.1 hx
      exact getElem?_lt _ _ _ (hfresh c hc)
  · intro hp
    cases hp
  · intro r hp c hc
    cases hp
    refine ⟨Or.inl (hin c hc), ?_⟩
    rw [receivedBy_append, (hs.pending rfl c hc).2, receivedBy_broadcast _ cs c hs.nodup,
      if_pos hc]
    rfl

theorem Sound_future (p : promise) (h : Heap) (log : List (Nat × Result))
    (hs : p.Sound h log) : (p.Future h).2.1.Sound (p.Future h).2.2 log := by
  obtain ⟨cs, res⟩ := p
  cases res with
  | some r => exact hs
  | none =>
    have hfresh : ∀ c ∈ cs, h.chans[c]? = some ⟨1, []⟩ := fun c hc => (hs.pending rfl c hc).1
    have hlt : ∀ c ∈ cs, c < h.chans.length := fun c hc => getElem?_lt _ _ _ (hfresh c hc)
    refine ⟨?_, ?_, ?_, ?_⟩
    · simp only [promise.Future, Heap.makeChan, newFuture]
      rw [List.nodup_append]
      refine ⟨hs.nodup, by simp, ?_⟩
      intro a ha hb
      simp only [List.mem_singleton] at hb
      have := hlt a ha
      omega
    · intro x hx
      simp only [promise.Future, Heap.makeChan, newFuture, List.length_append,
        List.length_singleton]
      exact Nat.lt_succ_of_lt (hs.bound x hx)
    · intro _ c hc
      simp only [promise.Future, Heap.makeChan, newFuture, List.mem_append,
        List.mem_singleton] at hc ⊢
      rcases hc with hc | rfl
      · rw [List.getElem?_append_left (hlt c hc)]
        exact hs.pending rfl c hc
      · exact ⟨by simp, receivedBy_of_bound log _ _ hs.bound (Nat.le_refl _)⟩
    · intro r hp
      cases hp

theorem Sound_send (p : promise) (h h1 : Heap) (log : List (Nat × Result)) (c : Nat)
    (r : Result) (hs : p.Sound h log) (hc : c ∉ p.cs) (hsend : h.send c r = some h1) :
    p.Sound h1 (log ++ [(c, r)]) := by
  obtain ⟨ch, hch, -, rfl⟩ := send_some h c r h1 hsend
  have hlt := getElem?_lt _ _ _ hch
  have hkeep : ∀ d ∈ p.cs, (h.chans.set c ⟨ch.cap, ch.buf ++ [r]⟩)[d]? = h.chans[d]? := by
    intro d hd
    exact List.getElem?_set_ne (fun hx => hc (by rw [hx]; exact hd))
  have hlog : ∀ d ∈ p.cs, receivedBy (log ++ [(c, r)]) d = receivedBy log d := by
    intro d hd
    have hne : c ≠ d := fun hx => hc (by rw [hx]; exact hd)
    rw [receivedBy_append]
    simp [receivedBy, hne]
  refine ⟨hs.nodup, ?_, ?_, ?_⟩
  · intro x hx
    simp only [List.length_set]
    rcases List.mem_append.1 hx with hx | hx
    · exact hs.bound x hx
    · simp only [List.mem_singleton] at hx
      subst hx
      exact hlt
  · intro hp d hd
    simp only []
    rw [hkeep d hd, hlog d hd]
    exact hs.pending hp d hd
  · intro r2 hp d hd
    simp only []
    rw [hkeep d hd, hlog d hd]
    exact hs.done r2 hp d hd

theorem Sound_move (p : promise) (h : Heap) (log : List (Nat × Result)) (mv : Move)
    (hs : p.Sound h log) :
    ∃ p1 h1, mv.run p h = some (p1, h1) ∧ p1.Sound h1 (log ++ mv.sent p h) := by
  cases mv with
  | call c =>
    cases c with
    | complete v e =>
      obtain ⟨cs, res⟩ := p
      cases res with
      | some r =>
        exact ⟨⟨cs, some r⟩, h, by simp [Move.run, Call.run, promise.Complete], by
          simpa [Move.sent] using hs⟩
      | none =>
        obtain ⟨h1, hc, hsent, hs1, -⟩ := Sound_complete cs h log v e hs
        exact ⟨⟨cs, some (newResult v e)⟩, h1, by simp [Move.run, Call.run, hc], by
          simpa [Move.sent, hsent] using hs1⟩
    | future =>
      exact ⟨_, _, rfl, by simpa [Move.sent] using Sound_future p h log hs⟩
    | wait f ctx pick =>
      exact ⟨p, _, rfl, by
        simpa [Move.sent] using Sound_of_drains p h _ log hs (Wait_drains f ctx pick h)⟩
  | heap op =>
    by_cases hon : op.sendsOn p.cs = true
    · refine ⟨p, h, by simp [Move.run, hon], ?_⟩
      cases op <;> simp [HeapOp.sendsOn] at hon
      simpa [Move.sent, HeapOp.sendsOn, hon] using hs
    · refine ⟨p, h.apply op, by simp [Move.run, hon], ?_⟩
      cases op with
      | send c r =>
        have hc : c ∉ p.cs := by simpa [HeapOp.sendsOn] using hon
        cases hsend : h.send c r with
        | none => simpa [Move.sent, HeapOp.sendsOn, hc, hsend, Heap.apply] using hs
        | some h1 =>
          simpa [Move.sent, HeapOp.sendsOn, hc, hsend, Heap.apply] using
            Sound_send p h h1 log c r hs hc hsend
      | makeChan cap =>
        simpa [Move.sent] using
          Sound_of_drains p h _ log hs (apply_drains h _ (fun _ _ hx => by cases hx))
      | newFuture c =>
        simpa [Move.sent] using
          Sound_of_drains p h _ log hs (apply_drains h _ (fun _ _ hx => by cases hx))
      | recv c =>
        simpa [Move.sent] using
          Sound_of_drains p h _ log hs (apply_drains h _ (fun _ _ hx => by cases hx))
      | cas id =>
        simpa [Move.sent] using
          Sound_of_drains p h _ log hs (apply_drains h _ (fun _ _ hx => by cases hx))

theorem Sound_runMoves : ∀ (moves : List Move) (p : promise) (h : Heap)
    (log : List (Nat × Result)), p.Sound h log →
    ∃ p1 h1 log1, runMoves moves p h log = some (p1, h1, log1) ∧ p1.Sound h1 log1 := by
  intro moves
  induction moves with
  | nil => intro p h log hs; exact ⟨p, h, log, rfl, hs⟩
  | cons mv moves ih =>
    intro p h log hs
    obtain ⟨p1, h1, hrun, hs1⟩ := Sound_move p h log mv hs
    obtain ⟨p2, h2, log2, hrun2, hs2⟩ := ih p1 h1 _ hs1
    exact ⟨p2, h2, log2, by simp [runMoves, hrun, hrun2], hs2⟩

theorem runMoves_append : ∀ (a b : List Move) (p : promise) (h : Heap)
    (log : List (Nat × Result)) (p1 : promise) (h1 : Heap) (log1 : List (Nat × Result)),
    runMoves a p h log = some (p1, h1, log1) →
    runMoves (a ++ b) p h log = runMoves b p1 h1 log1 := by
  intro a
  induction a with
  | nil =>
    intro b p h log p1 h1 log1 hr
    simp only [runMoves, Option.some.injEq, Prod.mk.injEq] at hr
    obtain ⟨rfl, rfl, rfl⟩ := hr
    rfl
  | cons mv a ih =>
    intro b p h log p1 h1 log1 hr
    simp only [List.cons_append, runMoves] at hr ⊢
    cases hm : mv.run p h with
    | none => simp [hm] at hr
    | some ph =>
      obtain ⟨p2, h2⟩ := ph
      simp only [hm] at hr ⊢
      exact ih b p2 h2 _ p1 h1 log1 hr

/-- Claim C11: in every state reached from `NewPromise()` by `Complete`, `Future` and
`Wait` calls and by heap operations of other goroutines (no call blocks), the
registered channels are distinct and each has received at most one Result.
While the promise is pending each registered channel is an empty channel of
capacity one that has received nothing, so `Complete(v, e)` returns nil, and its
broadcast sends once on every registered channel: in the heap it leaves, every
registered channel holds exactly the Result `(v, e)`, every other channel and
every `future` is as before, and the run extended by this call has sent `(v, e)`
once to each registered channel. Once the promise is completed with `r`, each
registered channel has capacity one, has received exactly the one Result `r`, and
holds `r` until a receive takes it. -/
theorem registered_channels_receive_once (m : Heap) (moves : List Move) :
    ∃ p h log, runMoves moves NewPromise m [] = some (p, h, log) ∧ p.cs.Nodup ∧
      (∀ c ∈ p.cs, (receivedBy log c).length ≤ 1) ∧
      (p.result = none →
        (∀ c ∈ p.cs, h.chans[c]? = some ⟨1, []⟩ ∧ receivedBy log c = []) ∧
        ∀ v e, ∃ h1, p.Complete v e h = some (none, ⟨p.cs, some (newResult v e)⟩, h1) ∧
          broadcast (newResult v e) p.cs h = some h1 ∧
          (∀ c ∈ p.cs, h1.chans[c]? = some ⟨1, [newResult v e]⟩) ∧
          (∀ c, c ∉ p.cs → h1.chans[c]? = h.chans[c]?) ∧ h1.futs = h.futs ∧
          broadcastSent (newResult v e) p.cs h = p.cs.map (fun c => (c, newResult v e)) ∧
          runMoves (moves ++ [Move.call (Call.complete v e)]) NewPromise m [] =
            some (⟨p.cs, some (newResult v e)⟩, h1,
              log ++ p.cs.map fun c => (c, newResult v e))) ∧
      (∀ r, p.result = some r →
        ∀ c ∈ p.cs, receivedBy log c = [(c, r)] ∧
          (h.chans[c]? = some ⟨1, [r]⟩ ∨ h.chans[c]? = some ⟨1, []⟩)) := by
  have h0 : NewPromise.Sound m [] :=
    ⟨by simp [NewPromise], by simp, by simp [NewPromise], by simp [NewPromise]⟩
  obtain ⟨p, h, log, hrun, hs⟩ := Sound_runMoves moves NewPromise m [] h0
  refine ⟨p, h, log, hrun, hs.nodup, ?_, ?_, ?_⟩
  · intro c hc
    cases hres : p.result with
    | none => rw [(hs.pending hres c hc).2]; simp
    | some r => rw [(hs.done r hres c hc).2]; simp
  · intro hp
    refine ⟨hs.pending hp, ?_⟩
    intro v e
    obtain ⟨cs, res⟩ := p
    simp only at hp
    subst hp
    obtain ⟨h1, hc, hsent, -, hin, hout, hfuts⟩ := Sound_complete cs h log v e hs
    have hb : broadcast (newResult v e) cs h = some h1 := by
      simp only [promise.Complete] at hc
      cases hbb : broadcast (newResult v e) cs h with
      | none => simp [hbb] at hc
      | some h2 =>
        simp only [hbb, Option.some.injEq, Prod.mk.injEq] at hc
        rw [hc.2.2]
    refine ⟨h1, hc, hb, hin, hout, hfuts, hsent, ?_⟩
    rw [runMoves_append moves _ _ _ _ _ _ _ hrun]
    simp only [runMoves, Move.run, Call.run, hc, Move.sent, hsent]
  · intro r hp c hc
    exact ⟨(hs.done r hp c hc).2, (hs.done r hp c hc).1⟩

/-! ## `Any` without inputs -/

/-- Claim C13: `Any()` with no input is not rejected. Under every schedule a `Wait`
on the returned future, with a never-cancelled token, that has returned has
returned `(nil, nil)`, no Result having arrived; and under every schedule in
which the loop, the completion and twice the caller move in that order,
whatever else happens in between, the `Wait` has returned `(nil, nil)`. -/
theorem any_of_nothing_gives_nil_nil (h : Heap) (more fair : List AnyStep) (p3 p4 : Bool)
    (hclosed : h.Closed)
    (hfair : [AnyStep.body, AnyStep.complete, AnyStep.wait p3, AnyStep.wait p4].Sublist fair) :
    (Any [] h).workers = [] ∧ (Any [] h).body = Body.loop 0 none ∧
      (∀ v e, ((Any [] h).run more).o.caller = Waiter.got v e → v = Val.nil ∧ e = none) ∧
      ((Any [] h).run more).arrivals = [] ∧
      ((Any [] h).run fair).o.caller = Waiter.got Val.nil none := by
  have hi := Any_inv [] h hclosed (fun id hid => by cases hid)
  have hf : (Any [] h).AllFail := Any_allFail_fixed [] h (fun f hf => by cases hf)
  have hnone : ∀ j, j < ([] : List Future).length → ∃ pick, AnyStep.worker j pick ∈
      ([] : List AnyStep) := fun j hj => by simp at hj
  obtain ⟨hsafe, hgot, hlen, -⟩ := AnyState.fail_core [] h.chans.length h.futs.length _ more
    [] [] fair p3 p4 hi hf hnone hnone hfair
  have hempty : ∀ sc : List AnyStep, ((Any [] h).run sc).arrivals = [] := by
    intro sc
    have hisc := AnyState.run_inv [] h.chans.length h.futs.length sc _ hi
    cases harr : ((Any [] h).run sc).arrivals with
    | nil => rfl
    | cons jr rest =>
      have := hisc.hidx jr.1 jr.2 (by rw [harr]; simp)
      simp at this
  refine ⟨rfl, rfl, ?_, hempty more, ?_⟩
  · intro v e hg
    obtain ⟨hv, he, -, -⟩ := hsafe v e hg
    rw [hempty more] at he
    exact ⟨hv, he⟩
  · have hrun : (Any [] h).run ([] ++ ([] ++ fair)) = (Any [] h).run fair := rfl
    rw [hrun] at hgot
    rw [hgot, hempty fair]
    rfl

/-- A concrete run for C13: the caller enters its `Wait`, the loop leaves at once,
the promise is completed and the caller receives `(nil, nil)`. -/
theorem any_of_nothing_gives_nil_nil_witness :
    (⟨[], []⟩ : Heap).Closed ∧
      [AnyStep.body, AnyStep.complete, AnyStep.wait true, AnyStep.wait false].Sublist
        [AnyStep.wait true, AnyStep.body, AnyStep.complete, AnyStep.wait true,
          AnyStep.wait false] ∧
      ((Any [] ⟨[], []⟩).run [AnyStep.wait true, AnyStep.body, AnyStep.complete,
        AnyStep.wait true, AnyStep.wait false]).o.caller = Waiter.got Val.nil none :=
  ⟨(fun g hg => by cases hg), (by decide),
    (any_of_nothing_gives_nil_nil ⟨[], []⟩ []
      [AnyStep.wait true, AnyStep.body, AnyStep.complete, AnyStep.wait true, AnyStep.wait false]
      true false (fun g hg => by cases hg) (by decide)).2.2.2.2⟩

/-! ## `Any` and the `done` flags of its inputs -/

theorem MarksTo_refl (h : Heap) : h.MarksTo h :=
  fun _ g hg => ⟨g, hg, rfl, fun hd => hd⟩

theorem MarksTo_of_futs (h h1 : Heap) (hf : h1.futs = h.futs) : h.MarksTo h1 :=
  fun _ g hg => ⟨g, by rw [hf]; exact hg, rfl, fun hd => hd⟩

theorem MarksTo_trans (h h1 h2 : Heap) (h01 : h.MarksTo h1) (h12 : h1.MarksTo h2) :
    h.MarksTo h2 := by
  intro id g hg
  obtain ⟨g1, hg1, hc1, hd1⟩ := h01 id g hg
  obtain ⟨g2, hg2, hc2, hd2⟩ := h12 id g1 hg1
  exact ⟨g2, hg2, by rw [hc2, hc1], fun hd => hd2 (hd1 hd)⟩

theorem Consumed_of_marks (h h1 : Heap) (id : Nat) (hm : h.MarksTo h1)
    (hc : h.Consumed id) : h1.Consumed id := by
  obtain ⟨g, hg, hd⟩ := hc
  obtain ⟨g1, hg1, -, hd1⟩ := hm id g hg
  exact ⟨g1, hg1, hd1 hd⟩

theorem apply_marks (h : Heap) (op : HeapOp) : h.MarksTo (h.apply op) := by
  cases op with
  | makeChan cap => exact MarksTo_of_futs _ _ rfl
  | newFuture c =>
    intro id g hg
    exact ⟨g, by
      simp only [Heap.apply, newFuture]
      rw [List.getElem?_append_left (getElem?_lt _ _ _ hg)]
      exact hg, rfl, fun hd => hd⟩
  | send c r =>
    simp only [Heap.apply]
    cases hs : h.send c r with
    | none => exact MarksTo_refl h
    | some h1 =>
      obtain ⟨ch, -, -, rfl⟩ := send_some h c r h1 hs
      exact MarksTo_of_futs _ _ rfl
  | recv c =>
    simp only [Heap.apply]
    cases hr : h.recv c with
    | none => exact MarksTo_refl h
    | some rh =>
      obtain ⟨r, h1⟩ := rh
      obtain ⟨cap, rest, -, rfl⟩ := recv_some h c r h1 hr
      exact MarksTo_of_futs _ _ rfl
  | cas id2 =>
    simp only [Heap.apply]
    cases hc : h.compareAndSwapDone id2 0 1 with
    | none => exact MarksTo_refl h
    | some bh =>
      obtain ⟨b, h1⟩ := bh
      obtain ⟨f2, hf2, hcase | hcase⟩ := cas_some h id2 b h1 hc
      · obtain ⟨h0, -, rfl⟩ := hcase
        intro id g hg
        by_cases hid : id2 = id
        · subst hid
          rw [hf2] at hg
          cases hg
          exact ⟨⟨f2.c, 1⟩, by simp [getElem?_lt _ _ _ hf2], rfl, fun _ => by simp⟩
        · exact ⟨g, by simp only []; rw [List.getElem?_set_ne hid]; exact hg, rfl,
            fun hd => hd⟩
      · obtain ⟨-, -, hh⟩ := hcase
        rw [hh]
        exact MarksTo_refl h

theorem Waiter.move_marks (w : Waiter) (f : Future) (ctx : Context) (pick : Bool) (h : Heap) :
    h.MarksTo (w.step f ctx pick h).2 := by
  cases w with
  | got v e => exact MarksTo_refl h
  | idle =>
    cases f with
    | fixed ff => exact MarksTo_refl h
    | ptr id =>
      have heq : (Waiter.idle.step (Future.ptr id) ctx pick h).2 = h.apply (HeapOp.cas id) := by
        simp only [Waiter.step, Heap.apply]
        cases h.compareAndSwapDone id 0 1 with
        | none => rfl
        | some bh =>
          obtain ⟨b, h1⟩ := bh
          cases b <;> rfl
      rw [heq]
      exact apply_marks h _
  | inSelect =>
    cases f with
    | fixed ff => exact MarksTo_refl h
    | ptr id =>
      simp only [Waiter.step]
      cases hf : h.futs[id]? with
      | none => exact MarksTo_refl h
      | some fu =>
        have hsel := select_futs fu.c ctx pick h
        simp only []
        generalize future.select fu.c ctx pick h = x at hsel
        obtain ⟨out, h1⟩ := x
        simp only at hsel
        cases out <;> exact MarksTo_of_futs _ _ hsel

theorem broadcast_futs (r : Result) : ∀ (cs : List Nat) (h h1 : Heap),
    broadcast r cs h = some h1 → h1.futs = h.futs := by
  intro cs
  induction cs with
  | nil =>
    intro h h1 hb
    simp only [broadcast, Option.some.injEq] at hb
    rw [hb]
  | cons c cs ih =>
    intro h h1 hb
    simp only [broadcast] at hb
    cases hs : h.send c r with
    | none => simp [hs] at hb
    | some h2 =>
      simp only [hs] at hb
      obtain ⟨ch, -, -, hh⟩ := send_some h c r h2 hs
      rw [ih h2 h1 hb, hh]

theorem Spawned.complete_marks (o : Spawned) (v : Val) (e : error) :
    o.h.MarksTo (o.complete v e).h := by
  apply MarksTo_of_futs
  unfold Spawned.complete
  cases o.task with
  | pending =>
    simp only []
    cases hc : o.p.Complete v e o.h with
    | none => rfl
    | some res =>
      obtain ⟨err, p1, h1⟩ := res
      have hf : h1.futs = o.h.futs := by
        unfold promise.Complete at hc
        cases hr : o.p.result with
        | some r0 =>
          simp only [hr, Option.some.injEq, Prod.mk.injEq] at hc
          rw [← hc.2.2]
        | none =>
          simp only [hr] at hc
          cases hb : broadcast (newResult v e) o.p.cs o.h with
          | none => simp [hb] at hc
          | some h2 =>
            simp only [hb, Option.some.injEq, Prod.mk.injEq] at hc
            rw [← hc.2.2]
            exact broadcast_futs _ _ _ _ hb
      cases err <;> exact hf
  | finished => rfl
  | panicked err => rfl
  | blocked => rfl

theorem AnyState.workerStep_marks (s : AnyState) (j : Nat) (pick : Bool) :
    s.o.h.MarksTo (s.workerStep j pick).o.h := by
  cases hfi : s.fs[j]? with
  | none => simpa [AnyState.workerStep, hfi] using MarksTo_refl s.o.h
  | some f =>
    cases hwi : s.workers[j]? with
    | none => simpa [AnyState.workerStep, hfi, hwi] using MarksTo_refl s.o.h
    | some wk =>
      cases wk with
      | sent => simpa [AnyState.workerStep, hfi, hwi] using MarksTo_refl s.o.h
      | quit => simpa [AnyState.workerStep, hfi, hwi] using MarksTo_refl s.o.h
      | waiting w =>
        rw [AnyState.workerStep_waiting s j pick f w hfi hwi]
        exact Waiter.move_marks w f _ pick s.o.h
      | sending r =>
        simp only [AnyState.workerStep, hfi, hwi]
        repeat' split
        all_goals exact MarksTo_refl s.o.h

theorem AnyState.step_marks (s : AnyState) (st : AnyStep) : s.o.h.MarksTo (s.step st).o.h := by
  cases st with
  | worker j pick => exact AnyState.workerStep_marks s j pick
  | body =>
    simp only [AnyState.step]
    split <;> exact MarksTo_refl _
  | complete =>
    simp only [AnyState.step]
    split
    · exact Spawned.complete_marks s.o _ _
    · exact MarksTo_refl _
  | wait pick => exact Waiter.move_marks _ _ _ _ _
  | env op =>
    simp only [AnyState.step, Spawned.env]
    split
    · exact apply_marks _ _
    · exact MarksTo_refl _

theorem AnyState.run_marks : ∀ (sched : List AnyStep) (s : AnyState),
    s.o.h.MarksTo (s.run sched).o.h := by
  intro sched
  induction sched with
  | nil => intro s; exact MarksTo_refl _
  | cons st sched ih =>
    intro s
    exact MarksTo_trans _ _ _ (AnyState.step_marks s st) (ih _)

theorem spawn_marks (h : Heap) : h.MarksTo (spawn h).h := by
  intro id g hg
  exact ⟨g, by
    simp only [spawn, promise.Future, NewPromise, Heap.makeChan, newFuture]
    rw [List.getElem?_append_left (getElem?_lt _ _ _ hg)]
    exact hg, rfl, fun hd => hd⟩

theorem cas_consumed (h : Heap) (id : Nat) (hc : h.Consumed id) :
    h.compareAndSwapDone id 0 1 = some (false, h) := by
  obtain ⟨g, hg, hd⟩ := hc
  unfold Heap.compareAndSwapDone
  simp [hg, hd]

theorem cas_present (h : Heap) (id : Nat) (g : future) (hg : h.futs[id]? = some g) :
    ∃ b h1, h.compareAndSwapDone id 0 1 = some (b, h1) ∧ h1.Consumed id := by
  unfold Heap.compareAndSwapDone
  simp only [hg]
  by_cases hd : g.done = 0
  · refine ⟨true, ⟨h.chans, h.futs.set id ⟨g.c, 1⟩⟩, by simp [hd], ⟨g.c, 1⟩, ?_, by simp⟩
    simp [getElem?_lt _ _ _ hg]
  · exact ⟨false, h, by simp [hd], g, hg, hd⟩

theorem AnyState.workerStep_length (s : AnyState) (i : Nat) (pick : Bool) :
    (s.workerStep i pick).workers.length = s.workers.length := by
  unfold AnyState.workerStep
  repeat' split
  all_goals simp [AnyState.deliver]

theorem AnyState.workerStep_sending (s : AnyState) (i : Nat) (pick : Bool) (r : Result)
    (w : Worker) (hwi : s.workers[i]? = some (Worker.sending r))
    (hw : (s.workerStep i pick).workers[i]? = some w) :
    w = Worker.sending r ∨ w = Worker.sent ∨ w = Worker.quit := by
  have hlt := getElem?_lt _ _ _ hwi
  cases hfi : s.fs[i]? with
  | none =>
    simp only [AnyState.workerStep, hfi] at hw
    rw [hwi] at hw
    cases hw
    exact Or.inl rfl
  | some f =>
    simp only [AnyState.workerStep, hfi, hwi] at hw
    split at hw
    · simp only [AnyState.deliver, List.getElem?_set_self hlt] at hw
      cases hw
      exact Or.inr (Or.inl rfl)
    · split at hw
      · simp only [AnyState.deliver, List.getElem?_set_self hlt] at hw
        cases hw
        exact Or.inr (Or.inl rfl)
      · simp only [List.getElem?_set_self hlt] at hw
        cases hw
        exact Or.inr (Or.inr rfl)
    · simp only [List.getElem?_set_self hlt] at hw
      cases hw
      exact Or.inr (Or.inr rfl)
    · rw [hwi] at hw
      cases hw
      exact Or.inl rfl

theorem AnyState.workerStep_rest (s : AnyState) (i : Nat) (pick : Bool) (w0 : Worker)
    (hw0 : s.workers[i]? = some w0) (hrest : w0 = Worker.sent ∨ w0 = Worker.quit) :
    s.workerStep i pick = s := by
  unfold AnyState.workerStep
  rcases hrest with rfl | rfl
  · rw [hw0]
    cases s.fs[i]? <;> rfl
  · rw [hw0]
    cases s.fs[i]? <;> rfl

/-- What worker `i` holds after its own move when the input is a `*future`. -/
theorem AnyState.workerStep_ptr (s : AnyState) (i id : Nat) (pick : Bool) (w0 w : Worker)
    (hfi : s.fs[i]? = some (Future.ptr id)) (hw0 : s.workers[i]? = some w0)
    (hw : (s.workerStep i pick).workers[i]? = some w) :
    (w0 = Worker.waiting Waiter.idle ∧
        ((s.o.h.compareAndSwapDone id 0 1 = none ∧ w = Worker.waiting Waiter.idle) ∨
          (∃ h1, s.o.h.compareAndSwapDone id 0 1 = some (false, h1) ∧
            w = Worker.sending ⟨Val.nil, some ErrAlreadyDone⟩) ∨
          (∃ h1, s.o.h.compareAndSwapDone id 0 1 = some (true, h1) ∧
            w = Worker.waiting Waiter.inSelect))) ∨
      (w0 ≠ Worker.waiting Waiter.idle ∧ w ≠ Worker.waiting Waiter.idle ∧
        ((∃ r, w0 = Worker.sending r) → w = w0 ∨ w = Worker.sent ∨ w = Worker.quit) ∧
        (w0 = Worker.sent ∨ w0 = Worker.quit → w = w0)) := by
  have hlt := getElem?_lt _ _ _ hw0
  cases w0 with
  | sent =>
    rw [AnyState.workerStep_rest s i pick _ hw0 (Or.inl rfl), hw0] at hw
    cases hw
    exact Or.inr ⟨by simp, by simp, fun _ => Or.inl rfl, fun _ => rfl⟩
  | quit =>
    rw [AnyState.workerStep_rest s i pick _ hw0 (Or.inr rfl), hw0] at hw
    cases hw
    exact Or.inr ⟨by simp, by simp, fun _ => Or.inl rfl, fun _ => rfl⟩
  | sending r =>
    have h3 := AnyState.workerStep_sending s i pick r w hw0 hw
    refine Or.inr ⟨by simp, ?_, (fun _ => h3), (fun hx => by rcases hx with hx | hx <;> cases hx)⟩
    rcases h3 with rfl | rfl | rfl <;> simp
  | waiting wt =>
    rw [AnyState.workerStep_waiting s i pick _ wt hfi hw0] at hw
    simp only [List.getElem?_set_self hlt, Option.some.injEq] at hw
    cases wt with
    | idle =>
      left
      refine ⟨rfl, ?_⟩
      simp only [Waiter.step] at hw
      cases hc : s.o.h.compareAndSwapDone id 0 1 with
      | none =>
        rw [hc] at hw
        exact Or.inl ⟨rfl, hw.symm⟩
      | some bh =>
        obtain ⟨b, h1⟩ := bh
        rw [hc] at hw
        cases b with
        | false => exact Or.inr (Or.inl ⟨h1, rfl, hw.symm⟩)
        | true => exact Or.inr (Or.inr ⟨h1, rfl, hw.symm⟩)
    | got v e =>
      right
      refine ⟨by simp, ?_, (fun hx => by obtain ⟨r, hr⟩ := hx; cases hr),
        (fun hx => by rcases hx with hx | hx <;> cases hx)⟩
      simp only [Waiter.step] at hw
      rw [← hw]
      simp
    | inSelect =>
      right
      refine ⟨by simp, ?_, (fun hx => by obtain ⟨r, hr⟩ := hx; cases hr),
        (fun hx => by rcases hx with hx | hx <;> cases hx)⟩
      simp only [Waiter.step] at hw
      rw [← hw]
      cases s.o.h.futs[id]? with
      | none => simp
      | some fu =>
        simp only []
        generalize future.select fu.c (anyCtx s.cancelled) pick s.o.h = x
        obtain ⟨out, h1⟩ := x
        cases out <;> simp

theorem AnyState.workerStep_heap_ptr (s : AnyState) (i id : Nat) (pick : Bool)
    (hfi : s.fs[i]? = some (Future.ptr id))
    (hw0 : s.workers[i]? = some (Worker.waiting Waiter.idle)) (b : Bool) (h1 : Heap)
    (hc : s.o.h.compareAndSwapDone id 0 1 = some (b, h1)) :
    (s.workerStep i pick).o.h = h1 := by
  rw [AnyState.workerStep_waiting s i pick _ _ hfi hw0]
  simp only [Waiter.step, hc]
  cases b <;> rfl

/-- A worker that has started its `Wait` has set the `done` flag: one move. -/
theorem AnyState.step_consumes (s : AnyState) (st : AnyStep) (hc : s.Consumes) :
    (s.step st).Consumes := by
  intro i id w hfi hw hne
  rw [AnyState.step_fs] at hfi
  have hm := AnyState.step_marks s st
  by_cases hst : ∀ pick, st ≠ AnyStep.worker i pick
  · rw [AnyState.step_workers s st i hst] at hw
    exact Consumed_of_marks _ _ id hm (hc i id w hfi hw hne)
  · push_neg at hst
    obtain ⟨pick, rfl⟩ := hst
    simp only [AnyState.step] at hw hm ⊢
    cases hw0 : s.workers[i]? with
    | none =>
      have := getElem?_lt _ _ _ hw
      rw [AnyState.workerStep_length] at this
      have h2 : s.workers[i]? ≠ none := by
        rw [List.getElem?_eq_getElem this]
        simp
      exact absurd hw0 h2
    | some w0 =>
      rcases AnyState.workerStep_ptr s i id pick w0 w hfi hw0 hw with
        ⟨rfl, hcase⟩ | ⟨hne0, -, -, -⟩
      · rcases hcase with ⟨-, rfl⟩ | ⟨h1, hcas, -⟩ | ⟨h1, hcas, -⟩
        · exact absurd rfl hne
        · obtain ⟨g, hg, -⟩ := cas_some _ _ _ _ hcas
          obtain ⟨b2, h2, hcas2, hcon⟩ := cas_present _ _ g hg
          rw [AnyState.workerStep_heap_ptr s i id pick hfi hw0 b2 h2 hcas2]
          exact hcon
        · obtain ⟨g, hg, -⟩ := cas_some _ _ _ _ hcas
          obtain ⟨b2, h2, hcas2, hcon⟩ := cas_present _ _ g hg
          rw [AnyState.workerStep_heap_ptr s i id pick hfi hw0 b2 h2 hcas2]
          exact hcon
      · exact Consumed_of_marks _ _ id hm (hc i id w0 hfi hw0 hne0)

theorem AnyState.run_consumes : ∀ (sched : List AnyStep) (s : AnyState),
    s.Consumes → (s.run sched).Consumes := by
  intro sched
  induction sched with
  | nil => intro s hc; exact hc
  | cons st sched ih => intro s hc; exact ih _ (AnyState.step_consumes s st hc)

theorem Any_consumes (fs : List Future) (h : Heap) : (Any fs h).Consumes := by
  intro i id w hfi hw hne
  simp only [Any, List.getElem?_map] at hw
  cases hx : fs[i]? with
  | none => simp [hx] at hw
  | some f =>
    simp only [hx, Option.map_some', Option.some.injEq] at hw
    exact absurd hw.symm hne

/-- A worker that has started its `Wait` never starts it again. -/
theorem AnyState.step_started (s : AnyState) (st : AnyStep) (i id : Nat)
    (hfi : s.fs[i]? = some (Future.ptr id))
    (hs : ∃ w, s.workers[i]? = some w ∧ w ≠ Worker.waiting Waiter.idle) :
    ∃ w, (s.step st).workers[i]? = some w ∧ w ≠ Worker.waiting Waiter.idle := by
  obtain ⟨w0, hw0, hne0⟩ := hs
  by_cases hst : ∀ pick, st ≠ AnyStep.worker i pick
  · exact ⟨w0, by rw [AnyState.step_workers s st i hst]; exact hw0, hne0⟩
  · push_neg at hst
    obtain ⟨pick, rfl⟩ := hst
    simp only [AnyState.step]
    have hlt : i < (s.workerStep i pick).workers.length := by
      rw [AnyState.workerStep_length]
      exact getElem?_lt _ _ _ hw0
    refine ⟨(s.workerStep i pick).workers[i], List.getElem?_eq_getElem hlt, ?_⟩
    rcases AnyState.workerStep_ptr s i id pick w0 _ hfi hw0 (List.getElem?_eq_getElem hlt) with
      ⟨rfl, -⟩ | ⟨-, hne, -, -⟩
    · exact absurd rfl hne0
    · exact hne

theorem AnyState.run_started (i id : Nat) : ∀ (sched : List AnyStep) (s : AnyState),
    s.fs[i]? = some (Future.ptr id) →
    (∃ w, s.workers[i]? = some w ∧ w ≠ Worker.waiting Waiter.idle) →
    ∃ w, (s.run sched).workers[i]? = some w ∧ w ≠ Worker.waiting Waiter.idle := by
  intro sched
  induction sched with
  | nil => intro s _ hs; exact hs
  | cons st sched ih =>
    intro s hfi hs
    exact ih _ (by rw [AnyState.step_fs]; exact hfi) (AnyState.step_started s st i id hfi hs)

theorem AnyState.run_fs : ∀ (sched : List AnyStep) (s : AnyState), (s.run sched).fs = s.fs := by
  intro sched
  induction sched with
  | nil => intro s; rfl
  | cons st sched ih =>
    intro s
    exact (ih _).trans (AnyState.step_fs s st)

theorem AnyState.step_length (s : AnyState) (st : AnyStep) :
    (s.step st).workers.length = s.workers.length := by
  cases st with
  | worker j pick => exact AnyState.workerStep_length s j pick
  | body =>
    simp only [AnyState.step]
    split <;> rfl
  | complete =>
    simp only [AnyState.step]
    split <;> rfl
  | wait pick => rfl
  | env op => rfl

theorem AnyState.run_length : ∀ (sched : List AnyStep) (s : AnyState),
    (s.run sched).workers.length = s.workers.length := by
  intro sched
  induction sched with
  | nil => intro s; rfl
  | cons st sched ih =>
    intro s
    exact (ih _).trans (AnyState.step_length s st)

/-- The first move of worker `i` starts its `Wait`, whatever it finds. -/
theorem AnyState.workerStep_starts (s : AnyState) (i id : Nat) (pick : Bool) (g : future)
    (hfi : s.fs[i]? = some (Future.ptr id)) (hlt : i < s.workers.length)
    (hg : s.o.h.futs[id]? = some g) :
    ∃ w, (s.workerStep i pick).workers[i]? = some w ∧ w ≠ Worker.waiting Waiter.idle := by
  have hlt1 : i < (s.workerStep i pick).workers.length := by
    rw [AnyState.workerStep_length]
    exact hlt
  refine ⟨(s.workerStep i pick).workers[i], List.getElem?_eq_getElem hlt1, ?_⟩
  rcases AnyState.workerStep_ptr s i id pick _ _ hfi (List.getElem?_eq_getElem hlt)
    (List.getElem?_eq_getElem hlt1) with ⟨-, hcase⟩ | ⟨-, hne, -, -⟩
  · obtain ⟨b, h1, hcas, -⟩ := cas_present _ _ g hg
    rcases hcase with ⟨hnone, -⟩ | ⟨h1, -, hw⟩ | ⟨h1, -, hw⟩
    · rw [hnone] at hcas
      cases hcas
    · rw [hw]
      simp
    · rw [hw]
      simp
  · exact hne

/-- An input consumed before the race is rejected by its worker: one move. -/
theorem AnyState.step_rejects (s : AnyState) (st : AnyStep) (i id : Nat)
    (hfi : s.fs[i]? = some (Future.ptr id)) (hr : s.Rejects i id) : (s.step st).Rejects i id := by
  obtain ⟨hcon, hwk, harr⟩ := hr
  refine ⟨Consumed_of_marks _ _ id (AnyState.step_marks s st) hcon, ?_, ?_⟩
  · intro w hw
    by_cases hst : ∀ pick, st ≠ AnyStep.worker i pick
    · rw [AnyState.step_workers s st i hst] at hw
      exact hwk w hw
    · push_neg at hst
      obtain ⟨pick, rfl⟩ := hst
      simp only [AnyState.step] at hw
      have hlt : i < s.workers.length := by
        have := getElem?_lt _ _ _ hw
        rw [AnyState.workerStep_length] at this
        exact this
      have hw0 : s.workers[i]? = some s.workers[i] := List.getElem?_eq_getElem hlt
      rcases AnyState.workerStep_ptr s i id pick _ w hfi hw0 hw with
        ⟨-, hcase⟩ | ⟨hne0, -, hsend, hrest⟩
      · rw [cas_consumed _ _ hcon] at hcase
        rcases hcase with ⟨hx, -⟩ | ⟨h1, -, rfl⟩ | ⟨h1, hx, -⟩
        · cases hx
        · exact Or.inr (Or.inl rfl)
        · cases hx
      · rcases hwk _ hw0 with hx | hx | hx | hx
        · exact absurd hx hne0
        · rcases hsend ⟨_, hx⟩ with hy | hy | hy
          · rw [hy, hx]
            exact Or.inr (Or.inl rfl)
          · exact Or.inr (Or.inr (Or.inl hy))
          · exact Or.inr (Or.inr (Or.inr hy))
        · rw [hrest (Or.inl hx), hx]
          exact Or.inr (Or.inr (Or.inl rfl))
        · rw [hrest (Or.inr hx), hx]
          exact Or.inr (Or.inr (Or.inr rfl))
  · intro r hmem
    rcases AnyState.step_arrival s st with heq | ⟨j, r1, hwj, heq⟩
    · rw [heq] at hmem
      exact harr r hmem
    · rw [heq, List.mem_append, List.mem_singleton] at hmem
      rcases hmem with hmem | hmem
      · exact harr r hmem
      · cases hmem
        rcases hwk _ hwj with hx | hx | hx | hx
        · cases hx
        · cases hx
          rfl
        · cases hx
        · cases hx

theorem AnyState.run_rejects (i id : Nat) : ∀ (sched : List AnyStep) (s : AnyState),
    s.fs[i]? = some (Future.ptr id) → s.Rejects i id → (s.run sched).Rejects i id := by
  intro sched
  induction sched with
  | nil => intro s _ hr; exact hr
  | cons st sched ih =>
    intro s hfi hr
    exact ih _ (by rw [AnyState.step_fs]; exact hfi) (AnyState.step_rejects s st i id hfi hr)

theorem Any_rejects (fs : List Future) (h : Heap) (i id : Nat) (hc : h.Consumed id) :
    (Any fs h).Rejects i id := by
  refine ⟨Consumed_of_marks _ _ id (spawn_marks h) hc, ?_, ?_⟩
  · intro w hw
    simp only [Any, List.getElem?_map] at hw
    cases hx : fs[i]? with
    | none => simp [hx] at hw
    | some f =>
      simp only [hx, Option.map_some', Option.some.injEq] at hw
      exact Or.inl hw.symm
  · intro r hmem
    simp [Any] at hmem

/-- Claim C14: `Any` starts one worker per input and each worker calls `Wait` on its
input once: worker `i` starts idle, its first move makes the call whatever the
future holds, and from then on it never calls again. So for a channel-backed input
`fs[i] = *future id`, in every state in which worker `i` has started, and hence in
every state after a move of worker `i`, a `Wait` on that future by anyone else
returns `(nil, ErrAlreadyDone)` and leaves the heap as it is, whether or not the
input won. If the future was consumed before `Any`, its worker gets
`(nil, ErrAlreadyDone)`: every Result arriving from it is that failure, and after
its move the worker holds that failure, has handed it to the loop, or has left
on cancellation. -/
theorem any_waits_once_on_each_input (fs : List Future) (h : Heap) (i id : Nat)
    (sched more : List AnyStep) (p : Bool) (ctx : Context) (pick : Bool)
    (hholds : h.Holds fs) (hfi : fs[i]? = some (Future.ptr id)) :
    ((Any fs h).run more).workers.length = fs.length ∧
      (Any fs h).workers[i]? = some (Worker.waiting Waiter.idle) ∧
      ((∃ w, ((Any fs h).run more).workers[i]? = some w ∧ w ≠ Worker.waiting Waiter.idle) →
        future.Wait id ctx pick ((Any fs h).run more).o.h =
          (WaitOutcome.returned Val.nil (some ErrAlreadyDone), ((Any fs h).run more).o.h)) ∧
      (∃ w, ((Any fs h).run (sched ++ AnyStep.worker i p :: more)).workers[i]? = some w ∧
        w ≠ Worker.waiting Waiter.idle) ∧
      future.Wait id ctx pick ((Any fs h).run (sched ++ AnyStep.worker i p :: more)).o.h =
        (WaitOutcome.returned Val.nil (some ErrAlreadyDone),
          ((Any fs h).run (sched ++ AnyStep.worker i p :: more)).o.h) ∧
      (h.Consumed id →
        (∀ r, (i, r) ∈ ((Any fs h).run more).arrivals → r = ⟨Val.nil, some ErrAlreadyDone⟩) ∧
        (((Any fs h).run (sched ++ AnyStep.worker i p :: more)).workers[i]? =
            some (Worker.sending ⟨Val.nil, some ErrAlreadyDone⟩) ∨
          ((Any fs h).run (sched ++ AnyStep.worker i p :: more)).workers[i]? =
            some Worker.sent ∨
          ((Any fs h).run (sched ++ AnyStep.worker i p :: more)).workers[i]? =
            some Worker.quit)) := by
  have hlen0 : (Any fs h).workers.length = fs.length := by simp [Any]
  have hlt : i < fs.length := getElem?_lt _ _ _ hfi
  have hfs0 : (Any fs h).fs[i]? = some (Future.ptr id) := hfi
  have hwait : ∀ sc : List AnyStep,
      (∃ w, ((Any fs h).run sc).workers[i]? = some w ∧ w ≠ Worker.waiting Waiter.idle) →
      future.Wait id ctx pick ((Any fs h).run sc).o.h =
        (WaitOutcome.returned Val.nil (some ErrAlreadyDone), ((Any fs h).run sc).o.h) := by
    intro sc hs
    obtain ⟨w, hw, hne⟩ := hs
    obtain ⟨g, hg, hd⟩ := AnyState.run_consumes sc _ (Any_consumes fs h) i id w
      (by rw [AnyState.run_fs]; exact hfs0) hw hne
    exact future_Wait_done _ id g ctx pick hg hd
  have hstart : ∃ w, ((Any fs h).run (sched ++ AnyStep.worker i p :: more)).workers[i]? = some w ∧
      w ≠ Worker.waiting Waiter.idle := by
    rw [AnyState.run_append]
    have hfs1 : ((Any fs h).run sched).fs[i]? = some (Future.ptr id) := by
      rw [AnyState.run_fs]
      exact hfs0
    have hid : id < h.futs.length := hholds id (List.mem_iff_getElem?.2 ⟨i, hfi⟩)
    obtain ⟨g1, hg1, -, -⟩ := MarksTo_trans _ _ _ (spawn_marks h)
      (AnyState.run_marks sched (Any fs h)) id h.futs[id] (List.getElem?_eq_getElem hid)
    have h1 := AnyState.workerStep_starts ((Any fs h).run sched) i id p g1 hfs1
      (by rw [AnyState.run_length, hlen0]; exact hlt) hg1
    exact AnyState.run_started i id more _ (by rw [AnyState.step_fs]; exact hfs1) h1
  refine ⟨by rw [AnyState.run_length, hlen0], ?_, hwait more, hstart,
    hwait _ hstart, ?_⟩
  · simp only [Any, List.getElem?_map, hfi, Option.map_some']
  · intro hcon
    have hrej : ∀ sc : List AnyStep, ((Any fs h).run sc).Rejects i id :=
      fun sc => AnyState.run_rejects i id sc _ hfs0 (Any_rejects fs h i id hcon)
    refine ⟨(hrej more).2.2, ?_⟩
    obtain ⟨w, hw, hne⟩ := hstart
    rcases (hrej _).2.1 w hw with hx | hx | hx | hx
    · exact absurd hx hne
    · exact Or.inl (by rw [hw, hx])
    · exact Or.inr (Or.inl (by rw [hw, hx]))
    · exact Or.inr (Or.inr (by rw [hw, hx]))

/-- A concrete run for C14: the caller has already waited on the only input, so
the worker of `Any` holds `(nil, ErrAlreadyDone)` after its move, and a further
`Wait` on the input is refused. -/
theorem any_waits_once_on_each_input_witness :
    (⟨[⟨1, []⟩], [⟨0, 1⟩]⟩ : Heap).Holds [Future.ptr 0] ∧
      ([Future.ptr 0] : List Future)[0]? = some (Future.ptr 0) ∧
      future.Wait 0 Context.Background false
          ((Any [Future.ptr 0] ⟨[⟨1, []⟩], [⟨0, 1⟩]⟩).run
            ([] ++ AnyStep.worker 0 true :: [])).o.h =
        (WaitOutcome.returned Val.nil (some ErrAlreadyDone),
          ((Any [Future.ptr 0] ⟨[⟨1, []⟩], [⟨0, 1⟩]⟩).run
            ([] ++ AnyStep.worker 0 true :: [])).o.h) :=
  ⟨(fun id hid => by simp at hid; subst hid; decide), rfl,
    (any_waits_once_on_each_input [Future.ptr 0] ⟨[⟨1, []⟩], [⟨0, 1⟩]⟩ 0 0 [] [] true
      Context.Background false (fun id hid => by simp at hid; subst hid; decide) rfl).2.2.2.2.1⟩

/-- A race over one input that was consumed beforehand: the worker is refused,
hands the failure to the loop, and the caller of `Any` gets `(nil, ErrAlreadyDone)`. -/
theorem any_of_consumed_input_example :
    ((Any [Future.ptr 0] ⟨[⟨1, []⟩], [⟨0, 1⟩]⟩).run
      [AnyStep.worker 0 true, AnyStep.worker 0 true, AnyStep.body, AnyStep.complete,
        AnyStep.wait true, AnyStep.wait true]).o.caller =
      Waiter.got Val.nil (some ErrAlreadyDone) ∧
    ((Any [Future.ptr 0] ⟨[⟨1, []⟩], [⟨0, 1⟩]⟩).run
      [AnyStep.worker 0 true, AnyStep.worker 0 true, AnyStep.body, AnyStep.complete,
        AnyStep.wait true, AnyStep.wait true]).arrivals =
      [(0, ⟨Val.nil, some ErrAlreadyDone⟩)] := by
  decide

/-- A race over a pending input and a successful one: the successful input wins,
and the pending input, which did not win, refuses a later `Wait` all the same. -/
theorem any_loser_is_consumed_example :
    ((Any [Future.ptr 0, Success (Val.int 7)] ⟨[⟨1, []⟩], [⟨0, 0⟩]⟩).run
      [AnyStep.worker 0 true, AnyStep.worker 1 true, AnyStep.worker 1 true, AnyStep.complete,
        AnyStep.wait true, AnyStep.wait true]).o.caller = Waiter.got (Val.int 7) none ∧
    future.Wait 0 Context.Background true
      ((Any [Future.ptr 0, Success (Val.int 7)] ⟨[⟨1, []⟩], [⟨0, 0⟩]⟩).run
        [AnyStep.worker 0 true, AnyStep.worker 1 true, AnyStep.worker 1 true, AnyStep.complete,
          AnyStep.wait true, AnyStep.wait true]).o.h =
      (WaitOutcome.returned Val.nil (some ErrAlreadyDone),
        ((Any [Future.ptr 0, Success (Val.int 7)] ⟨[⟨1, []⟩], [⟨0, 0⟩]⟩).run
          [AnyStep.worker 0 true, AnyStep.worker 1 true, AnyStep.worker 1 true, AnyStep.complete,
            AnyStep.wait true, AnyStep.wait true]).o.h) := by
  decide

/-! ## Overlapping calls of `Future()` -/

/-- Claim C12 fails on the code. Two goroutines call `p.Future()` on a pending
promise; both get the read lock, both evaluate `append(p.cs, c)` on the empty
`p.cs`, and both assign: the second assignment drops the channel of the first.
A following `Complete(1, nil)` returns nil after sending to one channel only.
The first goroutine holds a `*future` whose channel is not registered: its `Wait`
blocks whatever the select would pick, a further `Complete` sends nothing, and
the second goroutine gets `(1, nil)`. Two calls of `Future()` one after the other
register both channels. -/
theorem overlapping_future_calls_lose_a_registration :
    ((Shared.init 2 [(Val.int 1, none)] ⟨[], []⟩).run
        [Turn.future 0, Turn.future 1, Turn.future 0, Turn.future 1, Turn.future 0,
          Turn.future 1, Turn.future 0, Turn.future 1, Turn.future 0, Turn.future 1,
          Turn.future 0, Turn.future 1, Turn.future 0, Turn.future 1,
          Turn.complete 0, Turn.complete 0, Turn.complete 0]) =
      ⟨⟨[1], some ⟨Val.int 1, none⟩⟩, 0, false,
        ⟨[⟨1, []⟩, ⟨1, [⟨Val.int 1, none⟩]⟩], [⟨0, 0⟩, ⟨1, 0⟩]⟩,
        [FutureCall.returned (Future.ptr 0), FutureCall.returned (Future.ptr 1)],
        [CompleteCall.returned none]⟩ ∧
      (∀ pick, (future.Wait 0 Context.Background pick
        ⟨[⟨1, []⟩, ⟨1, [⟨Val.int 1, none⟩]⟩], [⟨0, 0⟩, ⟨1, 0⟩]⟩).1 = WaitOutcome.blocked) ∧
      (∀ v e, promise.Complete ⟨[1], some ⟨Val.int 1, none⟩⟩ v e
          ⟨[⟨1, []⟩, ⟨1, [⟨Val.int 1, none⟩]⟩], [⟨0, 0⟩, ⟨1, 0⟩]⟩ =
        some (some ErrAlreadyDone, ⟨[1], some ⟨Val.int 1, none⟩⟩,
          ⟨[⟨1, []⟩, ⟨1, [⟨Val.int 1, none⟩]⟩], [⟨0, 0⟩, ⟨1, 0⟩]⟩)) ∧
      (∀ pick, (future.Wait 1 Context.Background pick
        ⟨[⟨1, []⟩, ⟨1, [⟨Val.int 1, none⟩]⟩], [⟨0, 0⟩, ⟨1, 0⟩]⟩).1 =
          WaitOutcome.returned (Val.int 1) none) ∧
      (futuresN 2 NewPromise ⟨[], []⟩).2.1.cs = [0, 1] := by
  refine ⟨by decide, by decide, fun v e => rfl, by decide, by decide⟩

/-! ## The mutex: what `RLock` excludes and what it does not -/

theorem countP_set_some {α : Type} (q : α → Bool) (l : List α) (i : Nat) (old new : α)
    (h : l[i]? = some old) :
    (l.set i new).countP q + (if q old then 1 else 0) =
      l.countP q + (if q new then 1 else 0) := by
  obtain ⟨hlt, hget⟩ := List.getElem?_eq_some_iff.1 h
  rw [List.countP_set q l i new hlt, hget]
  have hle := List.boole_getElem_le_countP q l i hlt
  rw [hget] at hle
  omega

theorem countP_set_same {α : Type} (q : α → Bool) (l : List α) (i : Nat) (old new : α)
    (h : l[i]? = some old) (hq : q new = q old) : (l.set i new).countP q = l.countP q := by
  have := countP_set_some q l i old new h
  rw [hq] at this
  omega

theorem countP_set_gain {α : Type} (q : α → Bool) (l : List α) (i : Nat) (old new : α)
    (h : l[i]? = some old) (ho : q old = false) (hn : q new = true) :
    (l.set i new).countP q = l.countP q + 1 := by
  have := countP_set_some q l i old new h
  simpa [ho, hn] using this

theorem countP_set_loss {α : Type} (q : α → Bool) (l : List α) (i : Nat) (old new : α)
    (h : l[i]? = some old) (ho : q old = true) (hn : q new = false) :
    (l.set i new).countP q + 1 = l.countP q := by
  have := countP_set_some q l i old new h
  simpa [ho, hn] using this

theorem Shared.futureStep_locked (s : Shared) (i : Nat) (hl : s.Locked) :
    (s.futureStep i).Locked := by
  obtain ⟨hr, hw, hx⟩ := hl
  unfold Shared.futureStep
  cases hfi : s.futures[i]? with
  | none => exact ⟨hr, hw, hx⟩
  | some fc =>
    cases fc with
    | start =>
      simp only []
      by_cases hwr : s.writer = true
      · rw [if_pos hwr]
        exact ⟨hr, hw, hx⟩
      · have h1 := countP_set_gain FutureCall.holds s.futures i _ FutureCall.locked hfi rfl rfl
        rw [if_neg hwr]
        refine ⟨?_, hw, fun hc => absurd hc hwr⟩
        show s.readers + 1 = (s.futures.set i FutureCall.locked).countP FutureCall.holds
        rw [h1, hr]
    | locked =>
      simp only []
      cases s.p.result with
      | none =>
        exact ⟨hr.trans (countP_set_same FutureCall.holds s.futures i _ FutureCall.pending
          hfi rfl).symm, hw, hx⟩
      | some r =>
        exact ⟨hr.trans (countP_set_same FutureCall.holds s.futures i _
          (FutureCall.returning (Fixed r.V r.Err)) hfi rfl).symm, hw, hx⟩
    | pending =>
      exact ⟨hr.trans (countP_set_same FutureCall.holds s.futures i _
        (FutureCall.made (s.h.makeChan 1).1) hfi rfl).symm, hw, hx⟩
    | made c =>
      exact ⟨hr.trans (countP_set_same FutureCall.holds s.futures i _
        (FutureCall.appended c (s.p.cs ++ [c])) hfi rfl).symm, hw, hx⟩
    | appended c cs =>
      exact ⟨hr.trans (countP_set_same FutureCall.holds s.futures i _
        (FutureCall.stored c) hfi rfl).symm, hw, hx⟩
    | stored c =>
      exact ⟨hr.trans (countP_set_same FutureCall.holds s.futures i _
        (FutureCall.returning (newFuture c s.h).1) hfi rfl).symm, hw, hx⟩
    | returning f =>
      have h1 := countP_set_loss FutureCall.holds s.futures i _ (FutureCall.returned f)
        hfi rfl rfl
      refine ⟨?_, hw, fun hc => ?_⟩
      · show s.readers - 1 = (s.futures.set i (FutureCall.returned f)).countP FutureCall.holds
        omega
      · show s.readers - 1 = 0
        have := hx hc
        omega
    | returned f => exact ⟨hr, hw, hx⟩

theorem Shared.completeStep_locked (s : Shared) (j : Nat) (hl : s.Locked) :
    (s.completeStep j).Locked := by
  obtain ⟨hr, hw, hx⟩ := hl
  unfold Shared.completeStep
  cases hcj : s.completes[j]? with
  | none => exact ⟨hr, hw, hx⟩
  | some cc =>
    cases cc with
    | start v err =>
      simp only []
      by_cases hg : (s.writer || s.readers != 0) = true
      · simp only [hg, if_true]
        exact ⟨hr, hw, hx⟩
      · simp only [hg]
        have hwf : s.writer = false := by
          cases hwr : s.writer with
          | false => rfl
          | true => simp [hwr] at hg
        have hr0 : s.readers = 0 := by
          by_contra hne
          simp [hwf, hne] at hg
        have h1 := countP_set_gain CompleteCall.holds s.completes j _
          (CompleteCall.locked v err) hcj rfl rfl
        rw [hwf] at hw
        simp only [Bool.false_eq_true, if_false] at hw ⊢
        refine ⟨hr, ?_, fun _ => hr0⟩
        show (s.completes.set j (CompleteCall.locked v err)).countP CompleteCall.holds = 1
        omega
    | locked v err =>
      simp only []
      cases s.p.Complete v err s.h with
      | none => exact ⟨hr, hw, hx⟩
      | some res =>
        obtain ⟨e, p1, h1⟩ := res
        exact ⟨hr, (countP_set_same CompleteCall.holds s.completes j _
          (CompleteCall.returning e) hcj rfl).trans hw, hx⟩
    | returning e =>
      have h2 := countP_set_loss CompleteCall.holds s.completes j _
        (CompleteCall.returned e) hcj rfl rfl
      refine ⟨hr, ?_, fun hc => by cases hc⟩
      show (s.completes.set j (CompleteCall.returned e)).countP CompleteCall.holds = 0
      cases hwr : s.writer with
      | true =>
        rw [hwr] at hw
        simp only [if_true] at hw
        omega
      | false =>
        rw [hwr] at hw
        simp only [Bool.false_eq_true, if_false] at hw
        omega
    | returned e => exact ⟨hr, hw, hx⟩

theorem Shared.run_locked : ∀ (sched : List Turn) (s : Shared), s.Locked → (s.run sched).Locked := by
  intro sched
  induction sched with
  | nil => intro s hl; exact hl
  | cons t sched ih =>
    intro s hl
    cases t with
    | future i => exact ih _ (Shared.futureStep_locked s i hl)
    | complete j => exact ih _ (Shared.completeStep_locked s j hl)

theorem Shared.init_locked (n : Nat) (args : List (Val × error)) (h : Heap) :
    (Shared.init n args h).Locked := by
  refine ⟨?_, ?_, fun hc => rfl⟩
  · show 0 = (List.replicate n FutureCall.start).countP FutureCall.holds
    symm
    apply List.countP_eq_zero.2
    intro fc hfc
    rw [List.eq_of_mem_replicate hfc]
    simp [FutureCall.holds]
  · show (args.map fun a => CompleteCall.start a.1 a.2).countP CompleteCall.holds = 0
    apply List.countP_eq_zero.2
    intro cc hcc
    obtain ⟨a, -, rfl⟩ := List.mem_map.1 hcc
    simp [CompleteCall.holds]

/-- The read lock does exclude `Complete`: in every reachable state in which a call
of `Complete` holds the mutex, no call of `Future()` is between its `RLock` and its
`RUnlock`, and no second call of `Complete` holds the mutex. -/
theorem Shared.complete_excludes (n : Nat) (args : List (Val × error)) (h : Heap)
    (sched : List Turn) (j : Nat) (cc : CompleteCall)
    (hcj : ((Shared.init n args h).run sched).completes[j]? = some cc)
    (hcc : cc.holds = true) :
    (∀ fc ∈ ((Shared.init n args h).run sched).futures, fc.holds = false) ∧
      ((Shared.init n args h).run sched).completes.countP CompleteCall.holds = 1 := by
  obtain ⟨hr, hw, hx⟩ := Shared.run_locked sched _ (Shared.init_locked n args h)
  have hpos : 0 < ((Shared.init n args h).run sched).completes.countP CompleteCall.holds :=
    List.countP_pos_iff.2 ⟨cc, List.mem_iff_getElem?.2 ⟨j, hcj⟩, hcc⟩
  have hwr : ((Shared.init n args h).run sched).writer = true := by
    cases hwr : ((Shared.init n args h).run sched).writer with
    | true => rfl
    | false =>
      rw [hwr] at hw
      simp only [Bool.false_eq_true, if_false] at hw
      omega
  refine ⟨?_, by simpa [hwr] using hw⟩
  have h0 := hx hwr
  rw [hr] at h0
  intro fc hfc
  have := List.countP_eq_zero.1 h0 fc hfc
  simpa using this

/-- A call of `Future()` that no other call of `Future()` overlaps does what the
atomic `promise.Future` does: run without interruption from its `RLock` on, it
leaves the promise and the heap as `promise.Future` does and returns its future. -/
theorem Shared.future_alone (s : Shared) (i : Nat) (hfi : s.futures[i]? = some FutureCall.start)
    (hw : s.writer = false) :
    s.run (List.replicate 7 (Turn.future i)) =
      { s with p := (s.p.Future s.h).2.1, h := (s.p.Future s.h).2.2,
               futures := s.futures.set i (FutureCall.returned (s.p.Future s.h).1) } := by
  have hlt : i < s.futures.length := getElem?_lt _ _ _ hfi
  obtain ⟨p, readers, writer, h, futures, completes⟩ := s
  obtain ⟨cs, result⟩ := p
  simp only at hfi hw hlt
  subst hw
  cases result with
  | none =>
    simp [List.replicate, Shared.run, Shared.step, Shared.futureStep, hfi, hlt,
      List.getElem?_set_self, promise.Future, Heap.makeChan, newFuture]
  | some r =>
    simp [List.replicate, Shared.run, Shared.step, Shared.futureStep, hfi, hlt,
      List.getElem?_set_self, promise.Future]

/-! ## Futures obtained by overlapping calls, then `Complete` -/

/-- Claim C1 fails on the code. Two goroutines obtain one future each from a fresh
promise before completion, and their calls of `Future()` overlap: the first reads
`p.cs` for its `append`, the second reads, appends and assigns, then the first
assigns and drops the channel of the second. Both calls return, the promise is
still pending, and for every `v` and `e` the first `Complete(v, e)` returns nil.
Afterwards the first `Wait` on the first future, with a token that is never
cancelled, returns `(v, e)`, but the first `Wait` on the second future blocks,
whatever the select would pick: its channel is empty and not registered, so no
call of `Complete` will ever send on it. -/
theorem overlapping_futures_miss_the_result (v : Val) (e : error) (pick0 pick1 : Bool) :
    ((Shared.init 2 [(v, e)] ⟨[], []⟩).run
        [Turn.future 0, Turn.future 0, Turn.future 0, Turn.future 0,
          Turn.future 1, Turn.future 1, Turn.future 1, Turn.future 1, Turn.future 1,
          Turn.future 0, Turn.future 0, Turn.future 1, Turn.future 0, Turn.future 1]) =
      ⟨⟨[0], none⟩, 0, false, ⟨[⟨1, []⟩, ⟨1, []⟩], [⟨0, 0⟩, ⟨1, 0⟩]⟩,
        [FutureCall.returned (Future.ptr 0), FutureCall.returned (Future.ptr 1)],
        [CompleteCall.start v e]⟩ ∧
      (Shared.run ⟨⟨[0], none⟩, 0, false, ⟨[⟨1, []⟩, ⟨1, []⟩], [⟨0, 0⟩, ⟨1, 0⟩]⟩,
          [FutureCall.returned (Future.ptr 0), FutureCall.returned (Future.ptr 1)],
          [CompleteCall.start v e]⟩
        [Turn.complete 0, Turn.complete 0, Turn.complete 0]) =
      ⟨⟨[0], some (newResult v e)⟩, 0, false,
        ⟨[⟨1, [newResult v e]⟩, ⟨1, []⟩], [⟨0, 0⟩, ⟨1, 0⟩]⟩,
        [FutureCall.returned (Future.ptr 0), FutureCall.returned (Future.ptr 1)],
        [CompleteCall.returned none]⟩ ∧
      (waitSeq [(Future.ptr 0, Context.Background, pick0), (Future.ptr 1, Context.Background, pick1)]
        ⟨[⟨1, [newResult v e]⟩, ⟨1, []⟩], [⟨0, 0⟩, ⟨1, 0⟩]⟩).1 =
        [WaitOutcome.returned v e, WaitOutcome.blocked] ∧
      (∀ v2 e2, promise.Complete ⟨[0], some (newResult v e)⟩ v2 e2
          (waitSeq [(Future.ptr 0, Context.Background, pick0),
            (Future.ptr 1, Context.Background, pick1)]
            ⟨[⟨1, [newResult v e]⟩, ⟨1, []⟩], [⟨0, 0⟩, ⟨1, 0⟩]⟩).2 =
        some (some ErrAlreadyDone, ⟨[0], some (newResult v e)⟩,
          (waitSeq [(Future.ptr 0, Context.Background, pick0),
            (Future.ptr 1, Context.Background, pick1)]
            ⟨[⟨1, [newResult v e]⟩, ⟨1, []⟩], [⟨0, 0⟩, ⟨1, 0⟩]⟩).2)) := by
  refine ⟨?_, ?_, ?_, fun v2 e2 => ?_⟩
  · simp [Shared.init, Shared.run, Shared.step, Shared.futureStep, NewPromise, Heap.makeChan,
      newFuture]
  · simp [Shared.run, Shared.step, Shared.completeStep, promise.Complete, broadcast, Heap.send]
  · cases pick0 <;> cases pick1 <;>
      simp [waitSeq, Future.Wait, future.Wait, Heap.compareAndSwapDone, future.select,
        Heap.recv, Context.Background, newResult]
  · simp [promise.Complete]

end GoFuture
